import Mathlib

/-!
# Verification of the gator daemon capture substrate

Shallow embedding of `daemon/Fifo.cpp` (the single-producer/single-consumer
stream buffer), of the barrier and the ftrace driver of
`daemon/FtraceDriver.cpp` and of `addCounter` of `daemon/ConfigurationXML.cpp`,
together with theorems about them.

Modelling conventions.

* The C++ types `unsigned int` and `size_t` are modelled by `Nat` with an
  explicit reduction modulo `2^32` and `2^64` where a value is converted or may
  wrap.

* The C++ type `int` is modelled by `Int`.  Signed overflow is undefined
  behaviour in C++, so the embedding describes the code on the runs where no
  `int` operation overflows; with write lengths of at most `singleBufferSize`
  every cursor stays below `bufferSize + singleBufferSize`, the size of the
  allocation.
* A pointer into `mBuffer` is modelled by its offset; `nullptr` is `none`.
* A POSIX semaphore is modelled by its counter: `sem_post` adds one,
  `sem_wait` takes one when the counter is positive and blocks otherwise.
* A loop that may spin is modelled with fuel; running out of fuel is `none`.
-/

namespace Gator

/-! ## Fifo: data model -/

/-- The fields of a `Fifo` object.  `mBuffer` is an arena of
`mWrapThreshold + mSingleBufferSize` bytes whose content is not modelled;
`mReaderSem` is the counter of the semaphore the constructor is given. -/
structure Fifo where
  mSingleBufferSize : Int
  mWrite : Int
  mRead : Int
  mReadCommit : Int
  mRaggedEnd : Int
  mWrapThreshold : Int
  mWaitForSpaceSem : Nat
  mReaderSem : Nat
  mEnd : Bool
deriving DecidableEq, Repr

namespace Fifo

/-- The constructor `Fifo::Fifo(singleBufferSize, bufferSize, readerSem)`;
`sem_init(&mWaitForSpaceSem, 0, 0)` starts the space semaphore at zero. -/
def init (singleBufferSize bufferSize : Int) (readerSem : Nat) : Fifo where
  mSingleBufferSize := singleBufferSize
  mWrite := 0
  mRead := 0
  mReadCommit := 0
  mRaggedEnd := 0
  mWrapThreshold := bufferSize
  mWaitForSpaceSem := 0
  mReaderSem := readerSem
  mEnd := false

/-- Number of bytes of the arena `new char[bufferSize + singleBufferSize]`. -/
def arenaSize (f : Fifo) : Int := f.mWrapThreshold + f.mSingleBufferSize

/-- The method `Fifo::numBytesFilled`. -/
def numBytesFilled (f : Fifo) : Int := f.mWrite - f.mRead + f.mRaggedEnd

/-- The method `Fifo::isEmpty`. -/
def isEmpty (f : Fifo) : Bool := f.mRead == f.mWrite && f.mRaggedEnd == 0

/-- The method `Fifo::willFill`. -/
def willFill (f : Fifo) (additional : Int) : Bool :=
  if f.mWrite > f.mRead then
    if f.numBytesFilled + additional < f.mWrapThreshold then false else true
  else
    if f.numBytesFilled + additional < f.mWrapThreshold - f.mSingleBufferSize then false
    else true

/-- The method `Fifo::isFull`. -/
def isFull (f : Fifo) : Bool := f.willFill 0

/-- Outcome of a call of `Fifo::write`: the fields afterwards and the offset of
the returned pointer, or `none` when the call is blocked in `sem_wait`. -/
structure WriteResult where
  state : Fifo
  ret : Option Int
deriving DecidableEq, Repr

/-- The first part of `Fifo::write`, up to and including `sem_post(mReaderSem)`:
clamp the length, advance the write cursor, wrap, signal the reader.  The sum
`mWrite + length` is taken in the integers, which is the sum the code computes
whenever it fits the type `int`; `writeCommitInt` below is the same part with
the addition carried out in the type `int`. -/
def writeCommit (f : Fifo) (length : Int) : Fifo :=
  let length1 : Int := if length ≤ 0 then 0 else length
  let f1 : Fifo := if length ≤ 0 then { f with mEnd := true } else f
  let f2 : Fifo := { f1 with mWrite := f1.mWrite + length1 }
  let f3 : Fifo :=
    if f2.mWrite ≥ f2.mWrapThreshold then { f2 with mRaggedEnd := f2.mWrite, mWrite := 0 }
    else f2
  { f3 with mReaderSem := f3.mReaderSem + 1 }

/-- The loop `while (isFull()) sem_wait(&mWaitForSpaceSem)` of `Fifo::write`
followed by `return &mBuffer[mWrite]`, run with the space semaphore at the
given value: each `sem_wait` takes one unit, and the call blocks when the
buffer is full and the semaphore is at zero. -/
def waitForSpace (f : Fifo) : Nat → WriteResult
  | 0 =>
    if f.isFull then ⟨{ f with mWaitForSpaceSem := 0 }, none⟩
    else ⟨{ f with mWaitForSpaceSem := 0 }, some f.mWrite⟩
  | n + 1 =>
    if f.isFull then waitForSpace f n
    else ⟨{ f with mWaitForSpaceSem := n + 1 }, some f.mWrite⟩

/-- The method `Fifo::write`. -/
def write (f : Fifo) (length : Int) : WriteResult :=
  let f1 := f.writeCommit length
  f1.waitForSpace f1.mWaitForSpaceSem

/-- The method `Fifo::release`. -/
def release (f : Fifo) : Fifo :=
  let f1 : Fifo := { f with mRead := f.mReadCommit }
  let f2 : Fifo :=
    if f1.mRead ≥ f1.mWrapThreshold then
      { f1 with mRaggedEnd := 0, mRead := 0, mReadCommit := 0 }
    else f1
  { f2 with mWaitForSpaceSem := f2.mWaitForSpaceSem + 1 }

/-- Outcome of a call of `Fifo::read`: the fields afterwards, the offset of the
returned pointer (`none` for `nullptr`) and the value stored through the
`length` pointer (`none` when nothing is stored). -/
structure ReadResult where
  state : Fifo
  ret : Option Int
  length : Option Int
deriving DecidableEq, Repr

/-- The `do ... while (*length < 0)` loop of `Fifo::read` and the `return`
after it; `none` when the fuel runs out before the loop exits. -/
def readLoop : Nat → Fifo → Option ReadResult
  | 0, _ => none
  | n + 1, f =>
    let f1 : Fifo :=
      { f with mReadCommit := if f.mRaggedEnd ≠ 0 then f.mRaggedEnd else f.mWrite }
    let len : Int := f1.mReadCommit - f1.mRead
    if len < 0 then readLoop n f1 else some ⟨f1, some f1.mRead, some len⟩

/-- The method `Fifo::read`. -/
def read (fuel : Nat) (f : Fifo) : Option ReadResult :=
  if f.isEmpty && !f.mEnd then some ⟨f, none, none⟩ else readLoop fuel f

/-- The value `read` commits to: `mRaggedEnd != 0 ? mRaggedEnd : mWrite`. -/
def readTarget (f : Fifo) : Int := if f.mRaggedEnd ≠ 0 then f.mRaggedEnd else f.mWrite

/-- Byte `i` of the arena holds data that was written and not yet released. -/
def unread (f : Fifo) (i : Int) : Prop :=
  if f.mRaggedEnd = 0 then f.mRead ≤ i ∧ i < f.mWrite
  else (f.mRead ≤ i ∧ i < f.mRaggedEnd) ∨ (0 ≤ i ∧ i < f.mWrite)

end Fifo

/-! ## Fifo: one writer and one reader, interleaved -/

/-- The calls that drive a `Fifo`: the writer calls `write`, a writer blocked in
`sem_wait` is woken, the reader calls `read` and `release`. -/
inductive Event where
  | write (length : Int)
  | wake
  | read (fuel : Nat)
  | release
deriving DecidableEq, Repr

/-- A `Fifo` together with the position of its writer: `writerWaiting` holds
while a call of `write` is blocked in `sem_wait`. -/
structure Sys where
  fifo : Fifo
  writerWaiting : Bool
deriving DecidableEq, Repr

namespace Sys

/-- The system right after the constructor has run. -/
def init (singleBufferSize bufferSize : Int) (readerSem : Nat) : Sys :=
  ⟨Fifo.init singleBufferSize bufferSize readerSem, false⟩

/-- One step.  `write` is taken only when the previous `write` has returned,
and with `bounded` only with `length ≤ mSingleBufferSize`; `wake` resumes a
blocked writer whose semaphore has been posted; `read` is a call of `read` that
returns; `release` is a call of `release`. -/
def step (bounded : Bool) (s : Sys) : Event → Option Sys
  | .write length =>
    if s.writerWaiting = false ∧ (bounded = true → length ≤ s.fifo.mSingleBufferSize) then
      some ⟨(s.fifo.write length).state, (s.fifo.write length).ret.isNone⟩
    else none
  | .wake =>
    if s.writerWaiting = true then
      match s.fifo.mWaitForSpaceSem with
      | 0 => none
      | n + 1 => some ⟨(s.fifo.waitForSpace n).state, (s.fifo.waitForSpace n).ret.isNone⟩
    else none
  | .read fuel =>
    match s.fifo.read fuel with
    | none => none
    | some r => some ⟨r.state, s.writerWaiting⟩
  | .release => some ⟨s.fifo.release, s.writerWaiting⟩

/-- Run a list of events, `none` when one of them cannot be taken. -/
def run (bounded : Bool) : Sys → List Event → Option Sys
  | s, [] => some s
  | s, e :: es =>
    match s.step bounded e with
    | none => none
    | some s1 => run bounded s1 es

/-- The states reachable from the initial state with write lengths at most
`singleBufferSize`. -/
def Reachable (S W : Int) (s : Sys) : Prop :=
  ∃ (k : Nat) (es : List Event), run true (init S W k) es = some s

/-- The states reachable from the initial state with arbitrary write lengths. -/
def ReachableAnyLength (S W : Int) (s : Sys) : Prop :=
  ∃ (k : Nat) (es : List Event), run false (init S W k) es = some s

/-- Total number of bytes handed over by the `write` events of a run. -/
def bytesWritten : List Event → Int
  | [] => 0
  | .write length :: es => (if length ≤ 0 then 0 else length) + bytesWritten es
  | _ :: es => bytesWritten es

/-- Total number of bytes committed by the `release` events of a run, each
counting `mReadCommit - mRead` of the state it is taken in. -/
def bytesReleased (bounded : Bool) : Sys → List Event → Int
  | _, [] => 0
  | s, e :: es =>
    match s.step bounded e with
    | none => 0
    | some s1 =>
      (match e with
        | .release => s.fifo.mReadCommit - s.fifo.mRead
        | _ => 0) + bytesReleased bounded s1 es

end Sys

/-! ## Fifo: the invariant of the cursors -/

namespace Fifo

/-- The `mSingleBufferSize` bytes at the write cursor hold no unread data:
either nothing is wrapped and the reader is behind the writer, or the writer
has wrapped and the region ends at or before the read cursor. -/
def spaceFree (f : Fifo) : Prop :=
  (f.mRaggedEnd = 0 ∧ f.mRead ≤ f.mWrite) ∨
    (f.mRaggedEnd ≠ 0 ∧ f.mWrite + f.mSingleBufferSize ≤ f.mRead)

/-- The relations between the cursors that every call keeps, for a buffer built
with `singleBufferSize = S` and `bufferSize = W`. -/
structure Inv (S W : Int) (f : Fifo) : Prop where
  hS : f.mSingleBufferSize = S
  hW : f.mWrapThreshold = W
  w_nonneg : 0 ≤ f.mWrite
  w_lt : f.mWrite < W
  flat : f.mRaggedEnd = 0 →
    0 ≤ f.mRead ∧ f.mRead ≤ f.mReadCommit ∧ f.mReadCommit ≤ f.mWrite
  wrapped : f.mRaggedEnd ≠ 0 →
    W ≤ f.mRaggedEnd ∧ f.mRaggedEnd < W + S ∧ f.mWrite ≤ f.mRead ∧
      f.mRead ≤ f.mReadCommit ∧ f.mRead < W ∧
      (f.mReadCommit < W ∨ f.mReadCommit = f.mRaggedEnd)

end Fifo

/-- The invariant of the system: the cursor invariant, and the write region is
free whenever the writer is not waiting. -/
def Sys.Inv (S W : Int) (s : Sys) : Prop :=
  Fifo.Inv S W s.fifo ∧ (s.writerWaiting = false → s.fifo.spaceFree)

/-! ## Fifo: invariants, and the states and runs used as examples -/

namespace Fifo

/-- The clamped length `write` adds to the write cursor. -/
def clampLength (length : Int) : Int := if length ≤ 0 then 0 else length

/-- The fields after one pass through the body of the loop of `read`. -/
def readCommitted (f : Fifo) : Fifo := { f with mReadCommit := f.readTarget }

end Fifo

/-- The state of a buffer with `singleBufferSize = 4` and `bufferSize = 10`
after one write of four bytes. -/
def Sys.afterOneWrite : Sys :=
  ⟨{ mSingleBufferSize := 4, mWrite := 4, mRead := 0, mReadCommit := 0, mRaggedEnd := 0,
     mWrapThreshold := 10, mWaitForSpaceSem := 0, mReaderSem := 1, mEnd := false }, false⟩

/-- Three writes of four bytes into a buffer with `singleBufferSize = 4` and
`bufferSize = 10`: the third one wraps. -/
def Sys.wrapRun : List Event := [.write 4, .write 4, .write 4]

/-- The state `Sys.wrapRun` ends in: the writer has wrapped and waits. -/
def Sys.afterWrap : Sys :=
  ⟨{ mSingleBufferSize := 4, mWrite := 0, mRead := 0, mReadCommit := 0, mRaggedEnd := 12,
     mWrapThreshold := 10, mWaitForSpaceSem := 0, mReaderSem := 3, mEnd := false }, true⟩

/-- The largest value of the type `int`, which has 32 bits on the targets of the
program. -/
def intMax : Int := 2147483647

/-- The value of type `int` that the compiled code holds for an arithmetic
result: the result itself when it fits the type, and its low 32 bits in two's
complement when it does not (the C++ standard leaves that case undefined). -/
def wrapInt (x : Int) : Int := (x + 2147483648) % 4294967296 - 2147483648

namespace Fifo

/-- The first part of `Fifo::write`, as `writeCommit`, with the addition
`mWrite += length` carried out in the type `int`. -/
def writeCommitInt (f : Fifo) (length : Int) : Fifo :=
  let length1 : Int := if length ≤ 0 then 0 else length
  let f1 : Fifo := if length ≤ 0 then { f with mEnd := true } else f
  let f2 : Fifo := { f1 with mWrite := wrapInt (f1.mWrite + length1) }
  let f3 : Fifo :=
    if f2.mWrite ≥ f2.mWrapThreshold then { f2 with mRaggedEnd := f2.mWrite, mWrite := 0 }
    else f2
  { f3 with mReaderSem := f3.mReaderSem + 1 }

/-- The method `Fifo::write` with the addition `mWrite += length` carried out in
the type `int`. -/
def writeInt (f : Fifo) (length : Int) : WriteResult :=
  let f1 := f.writeCommitInt length
  f1.waitForSpace f1.mWaitForSpaceSem

end Fifo

/-- The state of a buffer with `singleBufferSize = 4` and `bufferSize = 10`
right after the call `write(0)` on the freshly constructed object. -/
def Fifo.endedEmpty : Fifo :=
  { mSingleBufferSize := 4, mWrite := 0, mRead := 0, mReadCommit := 0, mRaggedEnd := 0,
    mWrapThreshold := 10, mWaitForSpaceSem := 0, mReaderSem := 1, mEnd := true }

namespace Fifo

/-- The ranges of the cursors that hold whatever the lengths written. -/
structure Range (W : Int) (f : Fifo) : Prop where
  hW : f.mWrapThreshold = W
  w_nonneg : 0 ≤ f.mWrite
  w_lt : f.mWrite < W
  r_nonneg : 0 ≤ f.mRead
  r_lt : f.mRead < W
  c_nonneg : 0 ≤ f.mReadCommit
  e_nonneg : 0 ≤ f.mRaggedEnd

end Fifo

/-- A write of 25 bytes, far above `singleBufferSize = 4`, then a read and a
release, on a buffer with `bufferSize = 10`. -/
def Sys.longRun : List Event := [.write 25, .read 1, .release]

/-- The state `Sys.longRun` ends in. -/
def Sys.afterLongRun : Sys :=
  ⟨{ mSingleBufferSize := 4, mWrite := 0, mRead := 0, mReadCommit := 0, mRaggedEnd := 0,
     mWrapThreshold := 10, mWaitForSpaceSem := 1, mReaderSem := 1, mEnd := false }, true⟩

/-- The state reached from `Sys.afterWrap` by a call of `read`. -/
def Sys.afterWrapRead : Sys :=
  ⟨{ mSingleBufferSize := 4, mWrite := 0, mRead := 0, mReadCommit := 12, mRaggedEnd := 12,
     mWrapThreshold := 10, mWaitForSpaceSem := 0, mReaderSem := 3, mEnd := false }, true⟩

/-- A run on a buffer with `singleBufferSize = 4` and `bufferSize = 10` in
which the reader has released the first four bytes before the writer wraps. -/
def Sys.raggedRun : List Event := [.write 4, .read 1, .release, .write 4, .write 4]

/-- The state `Sys.raggedRun` ends in: the bytes `[0, 4)` are free, the unread
data is `[4, 12)`. -/
def Sys.afterRaggedRun : Sys :=
  ⟨{ mSingleBufferSize := 4, mWrite := 0, mRead := 4, mReadCommit := 4, mRaggedEnd := 12,
     mWrapThreshold := 10, mWaitForSpaceSem := 0, mReaderSem := 3, mEnd := false }, true⟩

/-! ## Barrier: data model

`Barrier::wait` runs under `mMutex`, so it is a sequence of two kinds of atomic
sections: the entry of a caller (decrement, then broadcast or start waiting) and
the return of a blocked caller from `pthread_cond_wait` followed by its check of
the count.  A blocked caller may return from `pthread_cond_wait` at any time
(spurious wake-ups are allowed). -/

/-- The field `mCount` of a `Barrier` (an `unsigned int`) together with the
position of the callers of `wait`: how many are blocked in `pthread_cond_wait`,
how many calls have returned, and how often `pthread_cond_broadcast` was
called. -/
structure Barrier where
  mCount : Nat
  waiting : Nat
  released : Nat
  broadcasts : Nat
deriving DecidableEq, Repr

/-- The atomic sections of `Barrier::wait`: a caller enters, or a blocked caller
returns from `pthread_cond_wait` and checks the count. -/
inductive BarrierEvent where
  | enter
  | wake
deriving DecidableEq, Repr

namespace Barrier

/-- Number of values of the type `unsigned int`. -/
def uintSize : Nat := 4294967296

/-- The constructor `Barrier::Barrier()`. -/
def new : Barrier := ⟨0, 0, 0, 0⟩

/-- The method `Barrier::init`; the argument is converted to `unsigned int`. -/
def init (b : Barrier) (count : Nat) : Barrier := { b with mCount := count % uintSize }

/-- The first section of `Barrier::wait`: `mCount--` on an `unsigned int`, then
either the broadcast, after which the caller returns, or the start of the
waiting loop. -/
def waitEnter (b : Barrier) : Barrier :=
  let b1 : Barrier := { b with mCount := (b.mCount + uintSize - 1) % uintSize }
  if b1.mCount == 0 then
    { b1 with broadcasts := b1.broadcasts + 1, released := b1.released + 1 }
  else
    { b1 with waiting := b1.waiting + 1 }

/-- One pass of the loop of `Barrier::wait`: a blocked caller returns from
`pthread_cond_wait` and leaves the loop when `mCount <= 0`, else it blocks
again.  There must be a blocked caller. -/
def waitWake (b : Barrier) : Option Barrier :=
  if b.waiting = 0 then none
  else if b.mCount ≤ 0 then
    some { b with waiting := b.waiting - 1, released := b.released + 1 }
  else some b

/-- One atomic section. -/
def step (b : Barrier) : BarrierEvent → Option Barrier
  | .enter => some b.waitEnter
  | .wake => b.waitWake

/-- Run a list of atomic sections, `none` when one of them cannot be taken. -/
def run : Barrier → List BarrierEvent → Option Barrier
  | b, [] => some b
  | b, e :: es =>
    match b.step e with
    | none => none
    | some b1 => run b1 es

/-- Number of calls of `wait` that are started in a list of sections. -/
def arrivals : List BarrierEvent → Nat
  | [] => 0
  | .enter :: es => arrivals es + 1
  | .wake :: es => arrivals es

/-- The relation between the state and the number `k` of calls of `wait` made
since `init(n)`. -/
structure Inv (n k : Nat) (b : Barrier) : Prop where
  k_le : k ≤ n
  count : b.mCount = n - k
  bcast : b.broadcasts = if k = n then 1 else 0
  early : k < n → b.released = 0
  total : b.waiting + b.released = k

end Barrier

/-! ## Configuration: association of a counter with a driver -/

/-- Modelled from the spec: the class `Counter`, declared in `Counter.h`, which is
not among the sources at hand, with the fields that `addCounter` touches; an
event code is `none` when it is not valid, and the driver is the identity of
the `Driver` object or `none` for `nullptr`. -/
structure Counter where
  mType : String
  mEventCode : Option Nat
  mCount : Int
  mCores : Int
  mEnabled : Bool
  mDriver : Option Nat
deriving DecidableEq, Repr

/-- Modelled from the spec: the class `Driver`, declared in `Driver.h`, which is
not among the sources at hand, as `addCounter` sees it; `id` stands for the
address of the object and `claimCounter` decides from the type and the event
code of the counter. -/
structure Driver where
  id : Nat
  name : String
  claimCounter : String → Option Nat → Bool

namespace Counter

/-- Modelled from the spec: the state after `Counter::clear()`, declared in
`Counter.h`, which is not among the sources at hand; a cleared counter is
disabled and has no driver. -/
def clear : Counter := ⟨"", none, 0, -1, false, none⟩

end Counter

namespace ConfigurationXML

/-- The call `driver->claimCounter(counter)`. -/
def claims (d : Driver) (c : Counter) : Bool := d.claimCounter c.mType c.mEventCode

/-- The first part of `addCounter`: the counter is cleared, gets its type, the
event code of `events.xml` (looked up without regard to case) or else the one
given by the user, its count and cores, and is enabled. -/
def setupCounter (counterName : String) (event : Option Nat) (count cores : Int)
    (counterToEventMap : List (String × Option Nat)) : Counter :=
  let c0 : Counter := { Counter.clear with mType := counterName }
  let c1 : Counter :=
    match counterToEventMap.find? (fun pair => pair.1.toLower == counterName.toLower) with
    | some pair =>
      (match pair.2 with
        | some code => { c0 with mEventCode := some code }
        | none => c0)
    | none =>
      (match event with
        | some code => { c0 with mEventCode := some code }
        | none => c0)
  { c1 with mCount := count, mCores := cores, mEnabled := true }

/-- The loop `for (Driver * driver : drivers)` of `addCounter`; an error is the
call of `handleException()`. -/
def associate : List Driver → Counter → Except String Counter
  | [], c => .ok c
  | d :: ds, c =>
    if claims d c then
      if c.mDriver ≠ none ∧ c.mDriver ≠ some d.id then
        .error "More than one driver has claimed the counter"
      else associate ds { c with mDriver := some d.id }
    else associate ds c

/-- The end of `addCounter`: a counter without a driver is disabled. -/
def disableUnclaimed (c : Counter) : Counter :=
  if c.mDriver = none then { c with mEnabled := false } else c

/-- The function `configuration_xml::addCounter`: the returned flag and the
counter it leaves in `gSessionData.mCounters[mIndex]`. -/
def addCounter (counterName : String) (event : Option Nat) (count cores : Int)
    (drivers : List Driver) (counterToEventMap : List (String × Option Nat)) :
    Except String (Bool × Counter) :=
  match associate drivers (setupCounter counterName event count cores counterToEventMap) with
  | .error msg => .error msg
  | .ok c => .ok ((disableUnclaimed c).mEnabled, disableUnclaimed c)

end ConfigurationXML

/-! ## Ftrace: data model

A call of `handleException()` ends the process; it is modelled by
`Except.error` with the message logged just before it.  Logging itself is not
modelled. -/

/-- Modelled from the spec: the macro `KERNEL_VERSION`, which is defined in a
header that is not among the sources at hand; it is the macro of
`linux/version.h`. -/
def KERNEL_VERSION (a b c : Int) : Int := a * 65536 + b * 256 + c

/-- Modelled from the spec: the structure `TraceFsConstants`, which is declared in
a header that is not among the sources at hand, with the paths of the trace
file system that the code modelled here formats into other paths. -/
structure TraceFsConstants where
  path : String
  path__events : String
  path__events__ftrace : String

/-- The fields of an `FtraceCounter`; `enabled` is `DriverCounter::isEnabled()`
and `mEnable` is `none` for `nullptr`. -/
structure FtraceCounter where
  name : String
  mEnable : Option String
  mWasEnabled : Int
  enabled : Bool
deriving DecidableEq, Repr

/-- The fields of an `FtraceReader`, and what has been done to its thread: it
was created, `SIGUSR1` was sent to it, it was joined. -/
structure FtraceReader where
  mCpu : Nat
  mTfd : Int
  mPfd0 : Int
  mPfd1 : Int
  mSessionIsActive : Bool
  started : Bool
  interrupts : Nat
  joins : Nat
deriving DecidableEq, Repr

/-- The fields of an `FtraceDriver`; `counters` is the linked list that starts
at `getCounters()`. -/
structure FtraceDriver where
  mBarrier : Barrier
  mTracingOn : Int
  mSupported : Bool
  mMonotonicRawSupport : Bool
  mUseForTracepoints : Bool
  mNumberOfCores : Nat
  counters : List FtraceCounter
deriving DecidableEq, Repr

/-- The static variables of `FtraceDriver.cpp`: the list that starts at
`FtraceReader::mHead`, and `pageSize`. -/
structure Process where
  readers : List FtraceReader
  pageSize : Int
deriving DecidableEq, Repr

/-- An `event` element of the events XML with the four attributes that
`readEvents` looks at, `none` for a missing attribute. -/
structure XmlEvent where
  counter : Option String
  regex : Option String
  tracepoint : Option String
  enable : Option String
deriving DecidableEq, Repr

/-- What `readEvents` learns from the system: whether `uname` succeeds, the
value of `lib::parseLinuxVersion(utsname)`, whether the trace directory can be
read, the effective user id, and which files can be written. -/
structure HostEnv where
  unameOk : Bool
  kernelVersion : Int
  traceDirReadable : Bool
  euid : Nat
  writable : String → Bool

/-- The files of the trace file system that a capture session touches: the
integer files `events/enable`, `tracing_on` and the `enable` file of each
tracepoint (by path), the number of truncations of `trace`, the content of
`trace_clock` and the strings written to it. -/
structure Kernel where
  eventsEnable : Int
  enable : String → Int
  tracingOn : Int
  truncations : Nat
  traceClock : List Char
  clockWrites : List String

/-- The configuration of a capture session (`gSessionData.mFtraceRaw`) and the
outcome of each system call of `prepare`, `start` and `stop`. -/
structure SessionEnv where
  mFtraceRaw : Bool
  eventsEnableWritable : Bool
  enableReadable : String → Bool
  enableWritable : String → Bool
  tracingOnReadable : Bool
  tracingOnWritable : Bool
  traceFd : Int
  traceClockFd : Int
  traceClockReadable : Bool
  traceClockWritable : Bool
  tracePipeFd : Int
  sigactionOk : Bool
  pageSize : Int
  pipe2 : Nat → Option (Int × Int)
  rawFd : Nat → Int
  pthreadCreateOk : Nat → Bool

/-- Number of values of the type `size_t`. -/
def sizeSize : Nat := 18446744073709551616

/-- The string `snprintf(buf, sizeof(buf), "%s/%s/enable", path__events, enable)`
leaves in a buffer of `1 << 10` bytes: at most 1023 characters. -/
def enablePath (tc : TraceFsConstants) (enable : String) : String :=
  String.mk ((tc.path__events ++ "/" ++ enable ++ "/enable").toList.take 1023)

/-- The test `strncmp(counter, "ftrace_", 7) == 0`. -/
def isFtraceCounter (counter : String) : Bool := "ftrace_".toList.isPrefixOf counter.toList

/-- The library function `strstr` on strings without the terminator: the offset
of the first occurrence of the needle, `none` for a null result. -/
def strstr : List Char → List Char → Option Nat
  | [], needle => if needle.isEmpty then some 0 else none
  | c :: hay, needle =>
    if needle.isPrefixOf (c :: hay) then some 0 else (strstr hay needle).map (· + 1)

/-- The C string that starts a buffer: the bytes before the first zero byte. -/
def cString (buf : List Char) : List Char := buf.takeWhile (· ≠ Char.ofNat 0)

namespace FtraceDriver

/-- The constructor `FtraceDriver::FtraceDriver`. -/
def new (useForTracepoints : Bool) (numberOfCores : Nat) : FtraceDriver :=
  ⟨Barrier.new, 0, false, false, useForTracepoints, numberOfCores, []⟩

/-- The enable path of an event: the `enable` attribute, or else the
`tracepoint` attribute. -/
def enableOf (ev : XmlEvent) : Option String :=
  match ev.enable with
  | some e => some e
  | none => ev.tracepoint

/-- The loop over the `event` elements in `FtraceDriver::readEvents`;
`setCounters(new FtraceCounter(getCounters(), ...))` puts the new counter at the
head of the list. -/
def registerEvents (env : HostEnv) (tc : TraceFsConstants) :
    List XmlEvent → FtraceDriver → Except String FtraceDriver
  | [], d => .ok d
  | ev :: evs, d =>
    match ev.counter with
    | none => registerEvents env tc evs d
    | some counter =>
      if !isFtraceCounter counter then registerEvents env tc evs d
      else
        match ev.regex with
        | none => .error "The regex counter is missing the required regex attribute"
        | some _ =>
          if !d.mUseForTracepoints && ev.tracepoint.isSome then registerEvents env tc evs d
          else
            match enableOf ev with
            | some e =>
              if !env.writable (enablePath tc e) then registerEvents env tc evs d
              else
                registerEvents env tc evs
                  { d with counters := ⟨counter, some e, 0, false⟩ :: d.counters }
            | none =>
              registerEvents env tc evs
                { d with counters := ⟨counter, none, 0, false⟩ :: d.counters }

/-- The method `FtraceDriver::readEvents`. -/
def readEvents (env : HostEnv) (tc : TraceFsConstants) (d : FtraceDriver)
    (xml : List XmlEvent) : Except String FtraceDriver :=
  if !env.unameOk then .error "uname failed"
  else if env.kernelVersion < KERNEL_VERSION 3 10 0 then .ok { d with mSupported := false }
  else
    let d1 : FtraceDriver :=
      { d with mMonotonicRawSupport := decide (env.kernelVersion ≥ KERNEL_VERSION 4 2 0) }
    if !env.traceDirReadable then .ok { d1 with mSupported := false }
    else if env.euid ≠ 0 then .ok { d1 with mSupported := false }
    else registerEvents env tc xml { d1 with mSupported := true }

end FtraceDriver

namespace FtraceCounter

/-- The method `FtraceCounter::prepare`. -/
def prepare (tc : TraceFsConstants) (env : SessionEnv) (c : FtraceCounter) (k : Kernel) :
    Except String (FtraceCounter × Kernel) :=
  match c.mEnable with
  | none =>
    if env.mFtraceRaw then
      .error "The ftrace counter is not compatible with the more efficient ftrace collection"
    else .ok (c, k)
  | some e =>
    if env.enableReadable (enablePath tc e) then
      if env.enableWritable (enablePath tc e) then
        .ok ({ c with mWasEnabled := k.enable (enablePath tc e) },
          { k with enable := Function.update k.enable (enablePath tc e) 1 })
      else .error "Unable to read or write to the enable file"
    else .error "Unable to read or write to the enable file"

/-- The method `FtraceCounter::stop`; the result of the write is not looked
at. -/
def stop (tc : TraceFsConstants) (env : SessionEnv) (c : FtraceCounter) (k : Kernel) : Kernel :=
  match c.mEnable with
  | none => k
  | some e =>
    if env.enableWritable (enablePath tc e) then
      { k with enable := Function.update k.enable (enablePath tc e) c.mWasEnabled }
    else k

end FtraceCounter

namespace FtraceReader

/-- The method `FtraceReader::interrupt`. -/
def interrupt (r : FtraceReader) : FtraceReader :=
  { r with mSessionIsActive := false, interrupts := r.interrupts + 1 }

/-- The method `FtraceReader::join`. -/
def join (r : FtraceReader) : FtraceReader := { r with joins := r.joins + 1 }

end FtraceReader

/-- What `FtraceDriver::prepare` returns and leaves behind. -/
structure PrepareResult where
  driver : FtraceDriver
  kernel : Kernel
  process : Process
  fds : List Int
  isPipe : Bool

/-- What `FtraceDriver::stop` returns and leaves behind. -/
structure StopResult where
  kernel : Kernel
  process : Process
  fds : List Int

namespace FtraceDriver

/-- The start of `prepare`: in raw mode `"0"` is written to `events/enable`. -/
def disableAllEvents (env : SessionEnv) (k : Kernel) : Except String Kernel :=
  if env.mFtraceRaw then
    if env.eventsEnableWritable then .ok { k with eventsEnable := 0 }
    else .error "Unable to turn off all events"
  else .ok k

/-- The loop of `prepare` over the counters: `counter->prepare()` for each
enabled counter, in list order. -/
def prepareCounters (tc : TraceFsConstants) (env : SessionEnv) :
    List FtraceCounter → Kernel → Except String (List FtraceCounter × Kernel)
  | [], k => .ok ([], k)
  | c :: cs, k =>
    if !c.enabled then
      match prepareCounters tc env cs k with
      | .error msg => .error msg
      | .ok (cs1, k1) => .ok (c :: cs1, k1)
    else
      match c.prepare tc env k with
      | .error msg => .error msg
      | .ok (c1, k1) =>
        match prepareCounters tc env cs k1 with
        | .error msg => .error msg
        | .ok (cs1, k2) => .ok (c1 :: cs1, k2)

/-- The part of `prepare` about `tracing_on` and `trace`: remember the value of
`tracing_on`, write `"0"` to it, truncate `trace`.  The result is the remembered
value and the files afterwards. -/
def stopTracing (env : SessionEnv) (k : Kernel) : Except String (Int × Kernel) :=
  if !env.tracingOnReadable then .error "Unable to read if ftrace is enabled"
  else if !env.tracingOnWritable then
    .error "Unable to turn ftrace off before truncating the buffer"
  else if env.traceFd < 0 then .error "Unable truncate ftrace buffer"
  else .ok (k.tracingOn, { k with tracingOn := 0, truncations := k.truncations + 1 })

/-- The name of the clock `prepare` wants. -/
def clockName (mono : Bool) : String := if mono then "mono_raw" else "perf"

/-- How `trace_clock` shows that this clock is selected. -/
def clockSelected (mono : Bool) : String := if mono then "[mono_raw]" else "[perf]"

/-- The value of `must_switch_clock`: at most `max_trace_clock_file_length - 1`,
that is 199, bytes of `trace_clock` are read, and `strstr` looks for the
marker in them. -/
def mustSwitchClock (mono : Bool) (content : List Char) : Bool :=
  (strstr (cString (content.take 199)) (clockSelected mono).toList).isNone

/-- The part of `prepare` about `trace_clock`. -/
def selectClock (env : SessionEnv) (mono : Bool) (k : Kernel) : Except String Kernel :=
  if env.traceClockFd < 0 then .error "Couldn't open trace_clock"
  else if !env.traceClockReadable then .error "Couldn't read from trace_clock"
  else if mustSwitchClock mono k.traceClock then
    if env.traceClockWritable then
      .ok { k with clockWrites := k.clockWrites ++ [clockName mono] }
    else .error "Unable to switch ftrace to the clock"
  else .ok k

/-- The loop of `prepare` over the CPUs, with `n` CPUs to go from `cpu` on: a
pipe, the raw trace file (its descriptor is not checked), a new reader at the
head of the list, started, and the read end of the pipe appended to the
result. -/
def spawnReaders (env : SessionEnv) :
    Nat → Nat → List FtraceReader → List Int → Except String (List FtraceReader × List Int)
  | 0, _, readers, fds => .ok (readers, fds)
  | n + 1, cpu, readers, fds =>
    match env.pipe2 cpu with
    | none => .error "pipe2 failed"
    | some pfd =>
      if env.pthreadCreateOk cpu then
        spawnReaders env n (cpu + 1)
          (⟨cpu, env.rawFd cpu, pfd.1, pfd.2, true, true, 0, 0⟩ :: readers) (fds ++ [pfd.1])
      else .error "Unable to start the ftraceReader thread"

/-- The end of `prepare`: one descriptor of `trace_pipe` in text mode; in raw
mode the signal handler, the page size, the barrier armed with
`mNumberOfCores + 1` (a `size_t` passed as `unsigned int`) and the readers. -/
def openOutputs (env : SessionEnv) (d : FtraceDriver) (k : Kernel) (p : Process) :
    Except String PrepareResult :=
  if !env.mFtraceRaw then
    if env.tracePipeFd < 0 then .error "Unable to open trace_pipe"
    else .ok ⟨d, k, p, [env.tracePipeFd], true⟩
  else if !env.sigactionOk then .error "sigaction failed"
  else if env.pageSize ≤ 0 then .error "sysconf PAGESIZE failed"
  else
    match spawnReaders env d.mNumberOfCores 0 p.readers [] with
    | .error msg => .error msg
    | .ok (readers, fds) =>
      .ok ⟨{ d with mBarrier := d.mBarrier.init ((d.mNumberOfCores + 1) % sizeSize) }, k,
        ⟨readers, env.pageSize⟩, fds, false⟩

/-- The method `FtraceDriver::prepare`. -/
def prepare (tc : TraceFsConstants) (env : SessionEnv) (d : FtraceDriver) (k : Kernel)
    (p : Process) : Except String PrepareResult :=
  match disableAllEvents env k with
  | .error msg => .error msg
  | .ok k1 =>
    match prepareCounters tc env d.counters k1 with
    | .error msg => .error msg
    | .ok (cs, k2) =>
      match stopTracing env k2 with
      | .error msg => .error msg
      | .ok (wasOn, k3) =>
        match selectClock env d.mMonotonicRawSupport k3 with
        | .error msg => .error msg
        | .ok k4 => openOutputs env { d with counters := cs, mTracingOn := wasOn } k4 p

/-- The method `FtraceDriver::start`.  Of `mBarrier.wait()` the entry of the
calling thread is modelled; the call returns once the barrier is released. -/
def start (env : SessionEnv) (d : FtraceDriver) (k : Kernel) :
    Except String (FtraceDriver × Kernel) :=
  if !env.tracingOnWritable then .error "Unable to turn ftrace on"
  else if env.mFtraceRaw then
    .ok ({ d with mBarrier := d.mBarrier.waitEnter }, { k with tracingOn := 1 })
  else .ok (d, { k with tracingOn := 1 })

/-- The loop of `stop` over the counters: `counter->stop()` for each enabled
counter, in list order. -/
def stopCounters (tc : TraceFsConstants) (env : SessionEnv) :
    List FtraceCounter → Kernel → Kernel
  | [], k => k
  | c :: cs, k => if !c.enabled then stopCounters tc env cs k
    else stopCounters tc env cs (c.stop tc env k)

/-- The method `FtraceDriver::stop`; the result of the write to `tracing_on` is
not looked at. -/
def stop (tc : TraceFsConstants) (env : SessionEnv) (d : FtraceDriver) (k : Kernel)
    (p : Process) : StopResult :=
  let k1 : Kernel := if env.tracingOnWritable then { k with tracingOn := d.mTracingOn } else k
  let k2 : Kernel := stopCounters tc env d.counters k1
  if env.mFtraceRaw then
    ⟨k2, { p with readers := (p.readers.map FtraceReader.interrupt).map FtraceReader.join },
      p.readers.map (·.mPfd0)⟩
  else ⟨k2, p, []⟩

end FtraceDriver

namespace FtraceDriver

/-- The registration rule: the counter attribute starts with `ftrace_`, ftrace
is used for tracepoints or the event has no tracepoint attribute, and the
enable path is absent or its enable file is writable. -/
def registersEvent (env : HostEnv) (tc : TraceFsConstants) (useForTracepoints : Bool)
    (ev : XmlEvent) : Bool :=
  match ev.counter with
  | none => false
  | some counter =>
    isFtraceCounter counter && (useForTracepoints || ev.tracepoint.isNone) &&
      (match enableOf ev with
        | none => true
        | some e => env.writable (enablePath tc e))

/-- The event is an ftrace counter without the regex attribute. -/
def missingRegex (ev : XmlEvent) : Bool :=
  match ev.counter with
  | none => false
  | some counter => isFtraceCounter counter && ev.regex.isNone

/-- The counter that is created for a registered event. -/
def counterOf (ev : XmlEvent) : FtraceCounter := ⟨ev.counter.getD "", enableOf ev, 0, false⟩

/-- A host on which ftrace is supported: Linux 4.4, readable trace directory,
root, every enable file writable except that of `sched/missing`. -/
def sampleHost : HostEnv :=
  ⟨true, KERNEL_VERSION 4 4 0, true, 0, fun path => path != "/t/events/sched/missing/enable"⟩

/-- The paths used in the examples. -/
def samplePaths : TraceFsConstants := ⟨"/t", "/t/events", "/t/events/ftrace"⟩

/-- Four events: one registered, one with an unwritable enable file, one of
another driver, one without a counter. -/
def sampleEvents : List XmlEvent :=
  [⟨some "ftrace_sched_switch", some "^x", some "sched/sched_switch", none⟩,
   ⟨some "ftrace_missing", some "^y", none, some "sched/missing"⟩,
   ⟨some "perf_cycles", none, none, none⟩,
   ⟨none, none, none, none⟩]

end FtraceDriver

/-- Every system call of a capture session on `cores` CPUs succeeds. -/
structure SessionEnv.AllOk (env : SessionEnv) (cores : Nat) : Prop where
  eventsEnable : env.eventsEnableWritable = true
  enableR : ∀ path, env.enableReadable path = true
  enableW : ∀ path, env.enableWritable path = true
  tracingOnR : env.tracingOnReadable = true
  tracingOnW : env.tracingOnWritable = true
  trace : 0 ≤ env.traceFd
  clockFd : 0 ≤ env.traceClockFd
  clockR : env.traceClockReadable = true
  clockW : env.traceClockWritable = true
  tracePipe : 0 ≤ env.tracePipeFd
  sigaction : env.sigactionOk = true
  page : 0 < env.pageSize
  pipes : ∀ cpu, cpu < cores → (env.pipe2 cpu).isSome = true
  threads : ∀ cpu, cpu < cores → env.pthreadCreateOk cpu = true

namespace FtraceDriver

/-- The reader that `prepare` creates for a CPU. -/
def mkReader (env : SessionEnv) (cpu : Nat) : FtraceReader :=
  ⟨cpu, env.rawFd cpu, ((env.pipe2 cpu).getD (0, 0)).1, ((env.pipe2 cpu).getD (0, 0)).2,
    true, true, 0, 0⟩

/-- A session environment in which every system call succeeds; the pipe of CPU
`i` has the descriptors `10 + 2 i` and `11 + 2 i`. -/
def sampleEnv (raw : Bool) : SessionEnv :=
  { mFtraceRaw := raw, eventsEnableWritable := true, enableReadable := fun _ => true,
    enableWritable := fun _ => true, tracingOnReadable := true, tracingOnWritable := true,
    traceFd := 3, traceClockFd := 4, traceClockReadable := true, traceClockWritable := true,
    tracePipeFd := 5, sigactionOk := true, pageSize := 4096,
    pipe2 := fun cpu => some (10 + 2 * cpu, 11 + 2 * cpu), rawFd := fun cpu => 100 + cpu,
    pthreadCreateOk := fun _ => true }

/-- Trace files in which `tracing_on` holds `v`, every enable file holds 0 and
`trace_clock` has the given content. -/
def sampleKernel (v : Int) (clock : List Char) : Kernel := ⟨1, fun _ => 0, v, 0, clock, []⟩

/-- A driver for `cores` CPUs with the given counters. -/
def sampleDriver (cores : Nat) (counters : List FtraceCounter) : FtraceDriver :=
  { FtraceDriver.new true cores with mSupported := true, counters := counters }

/-- A content of `trace_clock` of 201 bytes in which `[perf]` starts at
offset 195. -/
def longClock : List Char := List.replicate 195 (Char.ofNat 120) ++ "[perf]".toList

/-- Two enabled counters that name the same tracepoint. -/
def sharedCounters : List FtraceCounter :=
  [⟨"ftrace_block_rq_wr", some "block/block_rq_complete", 0, true⟩,
   ⟨"ftrace_block_rq_rd", some "block/block_rq_complete", 0, true⟩]

/-- A capture session: `prepare`, `start`, `stop`.  The result is what `stop`
returns and leaves behind, together with the driver. -/
def session (tc : TraceFsConstants) (env : SessionEnv) (d : FtraceDriver) (k : Kernel)
    (p : Process) : Except String (FtraceDriver × StopResult) :=
  match prepare tc env d k p with
  | .error msg => .error msg
  | .ok r =>
    match start env r.driver r.kernel with
    | .error msg => .error msg
    | .ok (d2, k2) => .ok (d2, stop tc env d2 k2 r.process)

end FtraceDriver

/-! ## Ftrace: `readTracepointFormats` -/

/-- Modelled from the spec: the class `DynBuf` and the global function
`readTracepointFormat`, declared in headers that are not among the sources at
hand.  This is what `readTracepointFormats` learns through them and from the
system: whether `DynBuf::printf` can build a path, the content `DynBuf::read`
gets from a path (`none` when the read fails), the entries of the ftrace events
directory with their name and whether `d_type` is `DT_DIR` (`none` when
`opendir` fails), and whether the global `readTracepointFormat` could read the
format of the tracepoint of a counter. -/
structure FormatEnv where
  printfOk : String → Bool
  readFile : String → Option String
  ftraceDir : Option (List (String × Bool))
  counterFormat : FtraceCounter → Bool

/-- A call of the consumer made by `readTracepointFormats`. -/
inductive Marshalled where
  | headerPage (content : String)
  | headerEvent (content : String)
  | format (content : String)
  | tracepoint (counter : String)
deriving DecidableEq, Repr

namespace FtraceDriver

/-- The loop of `readTracepointFormats` over the directory entries; the flag is
false when the function returns `false` from inside the loop. -/
def readDirFormats (tc : TraceFsConstants) (fenv : FormatEnv) :
    List (String × Bool) → List Marshalled → Bool × List Marshalled
  | [], log => (true, log)
  | entry :: rest, log =>
    if entry.1.toList.head? == some '.' || !entry.2 then readDirFormats tc fenv rest log
    else if !fenv.printfOk (tc.path__events__ftrace ++ "/" ++ entry.1 ++ "/format") then
      (false, log)
    else
      match fenv.readFile (tc.path__events__ftrace ++ "/" ++ entry.1 ++ "/format") with
      | none => (false, log)
      | some content => readDirFormats tc fenv rest (log ++ [.format content])

/-- The loop of `readTracepointFormats` over the counters: the result of
`counter->readTracepointFormat(attrsConsumer)` is not looked at. -/
def readCounterFormats (fenv : FormatEnv) : List FtraceCounter → List Marshalled → List Marshalled
  | [], log => log
  | c :: cs, log =>
    if !c.enabled then readCounterFormats fenv cs log
    else
      readCounterFormats fenv cs
        (if fenv.counterFormat c then log ++ [.tracepoint c.name] else log)

/-- The method `FtraceDriver::readTracepointFormats`: the returned flag and the
calls of the consumer. -/
def readTracepointFormats (tc : TraceFsConstants) (raw : Bool) (fenv : FormatEnv)
    (d : FtraceDriver) : Except String (Bool × List Marshalled) :=
  if !raw then .ok (true, [])
  else if !fenv.printfOk (tc.path__events ++ "/header_page") then .ok (false, [])
  else
    match fenv.readFile (tc.path__events ++ "/header_page") with
    | none => .ok (false, [])
    | some page =>
      if !fenv.printfOk (tc.path__events ++ "/header_event") then
        .ok (false, [.headerPage page])
      else
        match fenv.readFile (tc.path__events ++ "/header_event") with
        | none => .ok (false, [.headerPage page])
        | some event =>
          match fenv.ftraceDir with
          | none => .error "Unable to open events ftrace folder"
          | some entries =>
            match readDirFormats tc fenv entries [.headerPage page, .headerEvent event] with
            | (false, log) => .ok (false, log)
            | (true, log) => .ok (true, readCounterFormats fenv d.counters log)

/-- A system on which every file can be read, the ftrace events directory has
the entries `.`, `..` and `print`, and the format of no tracepoint can be
read. -/
def sampleFormats : FormatEnv :=
  ⟨fun _ => true, fun path => some path, some [(".", true), ("..", true), ("print", true)],
    fun _ => false⟩

/-- A second session environment in which every system call succeeds; the pipe
of CPU `i` has the descriptors `20 + 2 i` and `21 + 2 i`. -/
def laterEnv (raw : Bool) : SessionEnv :=
  { sampleEnv raw with pipe2 := fun cpu => some (20 + 2 * cpu, 21 + 2 * cpu) }

end FtraceDriver

/-- The state of a buffer with `singleBufferSize = 4` and `bufferSize = 4`
after the end-of-stream call `write(0)` on the fresh object: the buffer is empty
and the call waits for space. -/
def Sys.endedNarrow : Sys :=
  ⟨{ mSingleBufferSize := 4, mWrite := 0, mRead := 0, mReadCommit := 0, mRaggedEnd := 0,
     mWrapThreshold := 4, mWaitForSpaceSem := 0, mReaderSem := 1, mEnd := true }, true⟩

/-! ## Ftrace: the active loop of a reader -/

/-- Modelled from the spec: the constant `EINTR` of `errno.h`, a header that is
not among the sources at hand; its value on Linux is 4. -/
def EINTR : Int := 4

/-- One pass through the body of the loop `while (mSessionIsActive)` of
`FtraceReader::run`: `bytes` is what `splice` returned, `errno` the value of
`errno` after the call, `pageSize` the static variable of that name. -/
def FtraceReader.activeIteration (bytes errno pageSize : Int) : Except String Unit :=
  if bytes = 0 then .error "ftrace splice unexpectedly returned 0"
  else if bytes < 0 then
    if errno ≠ EINTR then .error "splice failed" else .ok ()
  else
    if bytes ≠ pageSize then .error "splice short read" else .ok ()

/-! ## Utilities: `parseLinuxVersion` and `roundDownToPowerOfTwo` -/

/-- The array `int version[3]` of `lib::parseLinuxVersion`. -/
structure VersionParts where
  v0 : Int
  v1 : Int
  v2 : Int
deriving DecidableEq, Repr

namespace VersionParts

/-- The element `version[part]`, for `part` below 3. -/
def get (v : VersionParts) (part : Nat) : Int :=
  if part = 0 then v.v0 else if part = 1 then v.v1 else v.v2

/-- The assignment `version[part] = x`, for `part` below 3. -/
def set (v : VersionParts) (part : Nat) (x : Int) : VersionParts :=
  if part = 0 then { v with v0 := x } else if part = 1 then { v with v1 := x }
  else { v with v2 := x }

end VersionParts

/-- The test `*ch >= '0' && *ch <= '9'`. -/
def isDigitChar (ch : Char) : Bool := decide ('0' ≤ ch) && decide (ch ≤ '9')

/-- The loop of `lib::parseLinuxVersion`.  The list holds the characters from
`ch` to the terminator of the string, which is the end of the list; the loop
reads `*ch` and, behind a digit, the character that follows it. -/
def parseLinuxVersion.loop : List Char → VersionParts → Nat → VersionParts
  | [], version, _ => version
  | [ch], version, part =>
    if isDigitChar ch && decide (part < 3) then
      version.set part (10 * version.get part + (ch.toNat : Int) - 48)
    else version
  | ch :: next :: rest, version, part =>
    if isDigitChar ch && decide (part < 3) then
      let version := version.set part (10 * version.get part + (ch.toNat : Int) - 48)
      if next = '.' then parseLinuxVersion.loop rest version (part + 1)
      else parseLinuxVersion.loop (next :: rest) version part
    else version

/-- The function `lib::parseLinuxVersion`, applied to the characters of
`utsname.release`. -/
def parseLinuxVersion (release : List Char) : Int :=
  let version := parseLinuxVersion.loop release ⟨0, 0, 0⟩ 0
  KERNEL_VERSION version.v0 version.v1 version.v2

/-- The value of a string of decimal digits that continues the value `acc`. -/
def decimalValueFrom (acc : Int) (digits : List Char) : Int :=
  digits.foldl (fun acc ch => 10 * acc + ((ch.toNat : Int) - 48)) acc

/-- The value of a decimal numeral. -/
def decimalValue (digits : List Char) : Int := decimalValueFrom 0 digits

/-- A decimal numeral: a non-empty string of digits. -/
def IsNumeral (digits : List Char) : Prop :=
  digits ≠ [] ∧ ∀ ch ∈ digits, isDigitChar ch = true

/-- The string is empty or begins with a character that is not a digit. -/
def NoDigitAhead (suffix : List Char) : Prop :=
  ∀ ch, suffix.head? = some ch → isDigitChar ch = false

/-- The function `lib::roundDownToPowerOfTwo` on a value of `uint64_t`; the
subtraction is taken modulo `2 ^ 64`. -/
def roundDownToPowerOfTwo (x : Nat) : Nat :=
  if x = 0 then 0
  else
    let x := x ||| (x >>> 1)
    let x := x ||| (x >>> 2)
    let x := x ||| (x >>> 4)
    let x := x ||| (x >>> 8)
    let x := x ||| (x >>> 16)
    let x := x ||| (x >>> 32)
    (x + 2 ^ 64 - (x >>> 1)) % 2 ^ 64

namespace roundDownToPowerOfTwo

/-- Bit `i` of `y` is set exactly if one of the `m` bits of `x` from bit `i`
upwards is set. -/
def Smeared (x y m : Nat) : Prop :=
  ∀ i, y.testBit i = true ↔ ∃ d, d < m ∧ x.testBit (i + d) = true

/-- The six steps `in |= (in >> 1)` to `in |= (in >> 32)`. -/
def smear (x : Nat) : Nat :=
  let x := x ||| (x >>> 1)
  let x := x ||| (x >>> 2)
  let x := x ||| (x >>> 4)
  let x := x ||| (x >>> 8)
  let x := x ||| (x >>> 16)
  let x := x ||| (x >>> 32)
  x

end roundDownToPowerOfTwo

/-! ## Enumeration operators and `print_array` -/

/-- Modelled from the spec: a value of an enumeration type, given by its
underlying integer.  The header `device/detail/enum_operators.hpp` is not among
the sources at hand; the operators below follow what its test checks. -/
structure EnumValue where
  underlying : Int
deriving DecidableEq, Repr

namespace enum_operators

/-- Modelled from the spec: the function `to_underlying`. -/
def to_underlying (v : EnumValue) : Int := v.underlying

/-- Modelled from the spec: `operator++()` on a variable that holds `v`: the
value left in the variable and the value returned. -/
def preIncrement (v : EnumValue) : EnumValue × EnumValue :=
  (⟨to_underlying v + 1⟩, ⟨to_underlying v + 1⟩)

/-- Modelled from the spec: `operator++(int)` on a variable that holds `v`: the
value left in the variable and the value returned. -/
def postIncrement (v : EnumValue) : EnumValue × EnumValue :=
  (⟨to_underlying v + 1⟩, v)

/-- Modelled from the spec: `operator--()` on a variable that holds `v`: the
value left in the variable and the value returned. -/
def preDecrement (v : EnumValue) : EnumValue × EnumValue :=
  (⟨to_underlying v - 1⟩, ⟨to_underlying v - 1⟩)

/-- Modelled from the spec: `operator--(int)` on a variable that holds `v`: the
value left in the variable and the value returned. -/
def postDecrement (v : EnumValue) : EnumValue × EnumValue :=
  (⟨to_underlying v - 1⟩, v)

end enum_operators

namespace test_enum

/-- The first enumerator of `test::test_enum` in the test of the operators. -/
def value0 : EnumValue := ⟨0⟩

/-- The second enumerator of `test::test_enum`. -/
def value1 : EnumValue := ⟨1⟩

/-- The third enumerator of `test::test_enum`. -/
def value2 : EnumValue := ⟨2⟩

end test_enum

/-- Modelled from the spec: what `os << hwcpipe::debug::print_array(array)`
leaves in a stream that holds `os`, where `text e` is what `os << e` appends for
an element.  The header `debug/print_array.hpp` is not among the sources at
hand; the format follows what its test checks. -/
def print_array {α : Type} (text : α → String) (array : List α) (os : String) : String :=
  array.foldl (fun os e => os ++ text e ++ ", ") (os ++ "\x7b ") ++ "\x7d"

/-! ## Fifo: lemmas about single calls -/

namespace Fifo

theorem waitForSpace_eq (f : Fifo) (n : Nat) :
    f.waitForSpace n =
      if f.isFull then ⟨{ f with mWaitForSpaceSem := 0 }, none⟩
      else ⟨{ f with mWaitForSpaceSem := n }, some f.mWrite⟩ := by
  induction n with
  | zero => by_cases h : f.isFull <;> simp [waitForSpace, h]
  | succ n ih => by_cases h : f.isFull <;> simp [waitForSpace, h, ih]

theorem isFull_eq_false_iff (f : Fifo) :
    f.isFull = false ↔
      (f.mRead < f.mWrite ∧ f.numBytesFilled < f.mWrapThreshold) ∨
        (f.mWrite ≤ f.mRead ∧ f.numBytesFilled < f.mWrapThreshold - f.mSingleBufferSize) := by
  unfold isFull willFill
  simp only [add_zero]
  split_ifs with h1 h2 h2 <;> simp <;> omega

theorem Inv.free_of_notFull {S W : Int} {f : Fifo} (hi : f.Inv S W)
    (hf : f.isFull = false) : f.spaceFree := by
  rw [isFull_eq_false_iff] at hf
  have hS := hi.hS
  have hW := hi.hW
  unfold numBytesFilled at hf
  unfold spaceFree
  by_cases he : f.mRaggedEnd = 0
  · have := hi.flat he
    left; exact ⟨he, by omega⟩
  · have := hi.wrapped he
    right; refine ⟨he, ?_⟩
    rcases hf with ⟨h1, h2⟩ | ⟨h1, h2⟩ <;> omega

theorem writeCommit_frame (f : Fifo) (length : Int) :
    (f.writeCommit length).mSingleBufferSize = f.mSingleBufferSize ∧
      (f.writeCommit length).mWrapThreshold = f.mWrapThreshold ∧
      (f.writeCommit length).mRead = f.mRead ∧
      (f.writeCommit length).mReadCommit = f.mReadCommit ∧
      (f.writeCommit length).mWaitForSpaceSem = f.mWaitForSpaceSem ∧
      (f.writeCommit length).mReaderSem = f.mReaderSem + 1 ∧
      (f.writeCommit length).mEnd = (if length ≤ 0 then true else f.mEnd) := by
  unfold writeCommit
  by_cases h : length ≤ 0 <;> simp only [h, if_true, if_false] <;>
    split_ifs <;> simp

theorem writeCommit_cursor (f : Fifo) (length : Int) :
    (f.mWrapThreshold ≤ f.mWrite + clampLength length ∧
        (f.writeCommit length).mWrite = 0 ∧
        (f.writeCommit length).mRaggedEnd = f.mWrite + clampLength length) ∨
      (f.mWrite + clampLength length < f.mWrapThreshold ∧
        (f.writeCommit length).mWrite = f.mWrite + clampLength length ∧
        (f.writeCommit length).mRaggedEnd = f.mRaggedEnd) := by
  unfold writeCommit clampLength
  by_cases h : length ≤ 0 <;> simp only [h, if_true, if_false] <;>
    split_ifs with h2 <;> simp at h2 ⊢ <;> omega

theorem waitForSpace_state (f : Fifo) (n : Nat) :
    (f.waitForSpace n).state = { f with mWaitForSpaceSem := if f.isFull then 0 else n } := by
  rw [waitForSpace_eq]; split_ifs <;> rfl

theorem waitForSpace_ret (f : Fifo) (n : Nat) :
    (f.waitForSpace n).ret = if f.isFull then none else some f.mWrite := by
  rw [waitForSpace_eq]; split_ifs <;> rfl

theorem isFull_setSem (f : Fifo) (k : Nat) :
    ({ f with mWaitForSpaceSem := k } : Fifo).isFull = f.isFull := rfl

theorem Inv.setSem {S W : Int} {f : Fifo} (hi : f.Inv S W) (k : Nat) :
    ({ f with mWaitForSpaceSem := k } : Fifo).Inv S W :=
  ⟨hi.hS, hi.hW, hi.w_nonneg, hi.w_lt, hi.flat, hi.wrapped⟩

theorem Inv.waitForSpace {S W : Int} {f : Fifo} (hi : f.Inv S W) (n : Nat) :
    (f.waitForSpace n).state.Inv S W := by
  rw [waitForSpace_state]; exact hi.setSem _

theorem Inv.init (S W : Int) (k : Nat) (hW : 0 < W) : (Fifo.init S W k).Inv S W := by
  refine ⟨rfl, rfl, ?_, ?_, ?_, ?_⟩
  all_goals simp [Fifo.init, hW]

theorem Inv.writeCommit {S W : Int} {f : Fifo} (hi : f.Inv S W) (hfree : f.spaceFree)
    (hS : 0 < S) (length : Int) (hlen : length ≤ S) : (f.writeCommit length).Inv S W := by
  obtain ⟨e1, e2, e3, e4, -, -, -⟩ := writeCommit_frame f length
  have hl : 0 ≤ clampLength length ∧ clampLength length ≤ S := by
    unfold clampLength; split_ifs <;> omega
  have h1 := hi.hS
  have h2 := hi.hW
  have h3 := hi.w_nonneg
  have h4 := hi.w_lt
  have hc := writeCommit_cursor f length
  unfold spaceFree at hfree
  refine ⟨by rw [e1]; exact h1, by rw [e2]; exact h2, ?_, ?_, ?_, ?_⟩
  · rcases hc with ⟨_, hw, _⟩ | ⟨_, hw, _⟩ <;> omega
  · rcases hc with ⟨_, hw, _⟩ | ⟨_, hw, _⟩ <;> omega
  · rw [e3, e4]
    rcases hc with ⟨ha, hw, he⟩ | ⟨ha, hw, he⟩ <;> rw [hw, he]
    · intro h0; omega
    · intro h0
      have := hi.flat h0
      omega
  · rw [e3, e4]
    rcases hc with ⟨ha, hw, he⟩ | ⟨ha, hw, he⟩ <;> rw [hw, he]
    · intro _
      rcases hfree with ⟨h0, hr⟩ | ⟨h0, hr⟩
      · have := hi.flat h0
        omega
      · have := hi.wrapped h0
        omega
    · intro h0
      have := hi.wrapped h0
      rcases hfree with ⟨h0', hr⟩ | ⟨h0', hr⟩
      · exact absurd h0' h0
      · omega

theorem release_frame (f : Fifo) :
    f.release.mSingleBufferSize = f.mSingleBufferSize ∧
      f.release.mWrapThreshold = f.mWrapThreshold ∧
      f.release.mWrite = f.mWrite ∧
      f.release.mEnd = f.mEnd ∧
      f.release.mReaderSem = f.mReaderSem ∧
      f.release.mWaitForSpaceSem = f.mWaitForSpaceSem + 1 := by
  unfold release
  by_cases h : f.mReadCommit ≥ f.mWrapThreshold <;> simp [h]

theorem release_cursor (f : Fifo) :
    (f.mWrapThreshold ≤ f.mReadCommit ∧ f.release.mRead = 0 ∧
        f.release.mReadCommit = 0 ∧ f.release.mRaggedEnd = 0) ∨
      (f.mReadCommit < f.mWrapThreshold ∧ f.release.mRead = f.mReadCommit ∧
        f.release.mReadCommit = f.mReadCommit ∧ f.release.mRaggedEnd = f.mRaggedEnd) := by
  unfold release
  by_cases h : f.mReadCommit ≥ f.mWrapThreshold
  · left; simp [h]
  · right
    have h2 : f.mReadCommit < f.mWrapThreshold := by omega
    simp [h, h2]

theorem Inv.release {S W : Int} {f : Fifo} (hi : f.Inv S W) : f.release.Inv S W := by
  obtain ⟨e1, e2, e3, -, -, -⟩ := release_frame f
  have h1 := hi.hS
  have h2 := hi.hW
  have h3 := hi.w_nonneg
  have h4 := hi.w_lt
  refine ⟨by rw [e1]; exact h1, by rw [e2]; exact h2, by rw [e3]; exact h3,
    by rw [e3]; exact h4, ?_, ?_⟩
  · rw [e3]
    rcases release_cursor f with ⟨ha, hr, hc, he⟩ | ⟨ha, hr, hc, he⟩ <;> rw [hr, hc, he]
    · intro _; omega
    · intro h0
      have := hi.flat h0
      omega
  · rw [e3]
    rcases release_cursor f with ⟨ha, hr, hc, he⟩ | ⟨ha, hr, hc, he⟩ <;> rw [hr, hc, he]
    · intro h0; exact absurd rfl h0
    · intro h0
      have := hi.wrapped h0
      omega

theorem spaceFree_release {S W : Int} {f : Fifo} (hi : f.Inv S W) (hfree : f.spaceFree) :
    f.release.spaceFree := by
  obtain ⟨e1, e2, e3, -, -, -⟩ := release_frame f
  have h3 := hi.w_nonneg
  unfold spaceFree at hfree ⊢
  rw [e1, e3]
  rcases release_cursor f with ⟨ha, hr, hc, he⟩ | ⟨ha, hr, hc, he⟩ <;> rw [hr, he]
  · left; exact ⟨rfl, h3⟩
  · rcases hfree with ⟨h0, hr0⟩ | ⟨h0, hr0⟩
    · have := hi.flat h0
      left; exact ⟨h0, by omega⟩
    · have := hi.wrapped h0
      right; exact ⟨h0, by omega⟩

theorem readLoop_of_le (f : Fifo) (n : Nat) (h : f.mRead ≤ f.readTarget) :
    readLoop (n + 1) f =
      some ⟨f.readCommitted, some f.mRead, some (f.readTarget - f.mRead)⟩ := by
  unfold readTarget at h
  have h2 : ¬ ((if f.mRaggedEnd ≠ 0 then f.mRaggedEnd else f.mWrite) - f.mRead < 0) := by
    omega
  simp only [readLoop, h2, if_false, readCommitted, readTarget]

theorem readLoop_of_gt (n : Nat) : ∀ f : Fifo, f.readTarget < f.mRead → readLoop n f = none := by
  induction n with
  | zero => intro f _; rfl
  | succ n ih =>
    intro f h
    have h2 : (if f.mRaggedEnd ≠ 0 then f.mRaggedEnd else f.mWrite) - f.mRead < 0 := by
      unfold readTarget at h; omega
    simp only [readLoop, h2, if_true]
    exact ih _ h

theorem read_of_empty (f : Fifo) (fuel : Nat) (h : (f.isEmpty && !f.mEnd) = true) :
    f.read fuel = some ⟨f, none, none⟩ := by
  simp only [read, h, if_true]

theorem read_of_data (f : Fifo) (n : Nat) (h : (f.isEmpty && !f.mEnd) = false)
    (hle : f.mRead ≤ f.readTarget) :
    f.read (n + 1) =
      some ⟨f.readCommitted, some f.mRead, some (f.readTarget - f.mRead)⟩ := by
  simp only [read, h, Bool.false_eq_true, if_false]
  exact readLoop_of_le f n hle

theorem read_state (f : Fifo) (fuel : Nat) (r : ReadResult) (h : f.read fuel = some r) :
    r.state = f ∨ r.state = f.readCommitted := by
  by_cases he : (f.isEmpty && !f.mEnd) = true
  · rw [read_of_empty f fuel he] at h
    left; cases h; rfl
  · have he2 : (f.isEmpty && !f.mEnd) = false := by simpa using he
    by_cases hle : f.mRead ≤ f.readTarget
    · cases fuel with
      | zero => simp [read, he2, readLoop] at h
      | succ n =>
        rw [read_of_data f n he2 hle] at h
        right; cases h; rfl
    · have : readLoop fuel f = none := readLoop_of_gt fuel f (by omega)
      simp [read, he2, this] at h

theorem Inv.read_le_target {S W : Int} {f : Fifo} (hi : f.Inv S W) :
    f.mRead ≤ f.readTarget := by
  unfold readTarget
  by_cases h0 : f.mRaggedEnd = 0
  · have := hi.flat h0
    simp only [h0, ne_eq, not_true_eq_false, if_false]
    omega
  · have := hi.wrapped h0
    simp only [ne_eq, h0, not_false_eq_true, if_true]
    omega

theorem Inv.readCommitted {S W : Int} {f : Fifo} (hi : f.Inv S W) :
    f.readCommitted.Inv S W := by
  have hle := hi.read_le_target
  refine ⟨hi.hS, hi.hW, hi.w_nonneg, hi.w_lt, ?_, ?_⟩
  · intro h0
    have h0' : f.mRaggedEnd = 0 := h0
    have := hi.flat h0'
    have ht : f.readTarget = f.mWrite := by simp [readTarget, h0']
    show 0 ≤ f.mRead ∧ f.mRead ≤ f.readTarget ∧ f.readTarget ≤ f.mWrite
    omega
  · intro h0
    have h0' : f.mRaggedEnd ≠ 0 := h0
    have := hi.wrapped h0'
    have ht : f.readTarget = f.mRaggedEnd := by simp [readTarget, h0']
    show W ≤ f.mRaggedEnd ∧ f.mRaggedEnd < W + S ∧ f.mWrite ≤ f.mRead ∧
      f.mRead ≤ f.readTarget ∧ f.mRead < W ∧
      (f.readTarget < W ∨ f.readTarget = f.mRaggedEnd)
    omega

theorem Inv.read {S W : Int} {f : Fifo} (hi : f.Inv S W) (fuel : Nat) (r : ReadResult)
    (h : f.read fuel = some r) : r.state.Inv S W := by
  rcases read_state f fuel r h with h1 | h1 <;> rw [h1]
  · exact hi
  · exact hi.readCommitted

theorem spaceFree_read {f : Fifo} (hfree : f.spaceFree) (fuel : Nat) (r : ReadResult)
    (h : f.read fuel = some r) : r.state.spaceFree := by
  rcases read_state f fuel r h with h1 | h1 <;> rw [h1]
  · exact hfree
  · exact hfree

end Fifo

namespace Sys

theorem Inv.at_start (S W : Int) (k : Nat) (hW : 0 < W) : (Sys.init S W k).Inv S W :=
  ⟨Fifo.Inv.init S W k hW, fun _ => Or.inl ⟨rfl, le_refl _⟩⟩

theorem Inv.step {S W : Int} (hS : 0 < S) {s t : Sys} (hi : s.Inv S W) (e : Event)
    (h : s.step true e = some t) : t.Inv S W := by
  obtain ⟨hf, hfree⟩ := hi
  cases e with
  | write length =>
    simp only [Sys.step] at h
    split_ifs at h with hg
    obtain ⟨hidle, hlen⟩ := hg
    have hlen2 : length ≤ S := by
      have := hlen trivial
      rw [hf.hS] at this; exact this
    have hwc := hf.writeCommit (hfree hidle) hS length hlen2
    cases h
    refine ⟨?_, ?_⟩
    · exact hwc.waitForSpace _
    · intro hw
      have hnf : (s.fifo.writeCommit length).isFull = false := by
        have hr := Fifo.waitForSpace_ret (s.fifo.writeCommit length)
          (s.fifo.writeCommit length).mWaitForSpaceSem
        by_cases hfull : (s.fifo.writeCommit length).isFull = true
        · simp only [Fifo.write] at hw
          rw [hr] at hw
          simp [hfull] at hw
        · simpa using hfull
      have := hwc.free_of_notFull hnf
      simp only [Fifo.write, Fifo.waitForSpace_state]
      exact this
  | wake =>
    simp only [Sys.step] at h
    split_ifs at h with hg
    split at h
    · cases h
    · rename_i n hn
      cases h
      refine ⟨hf.waitForSpace n, ?_⟩
      intro hw
      have hnf : s.fifo.isFull = false := by
        have hr := Fifo.waitForSpace_ret s.fifo n
        by_cases hfull : s.fifo.isFull = true
        · simp only at hw
          rw [hr] at hw
          simp [hfull] at hw
        · simpa using hfull
      have := hf.free_of_notFull hnf
      simp only [Fifo.waitForSpace_state]
      exact this
  | read fuel =>
    simp only [Sys.step] at h
    split at h
    · cases h
    · rename_i r hr
      cases h
      exact ⟨hf.read fuel r hr, fun hw => Fifo.spaceFree_read (hfree hw) fuel r hr⟩
  | release =>
    simp only [Sys.step] at h
    cases h
    exact ⟨hf.release, fun hw => Fifo.spaceFree_release hf (hfree hw)⟩

theorem Inv.run {S W : Int} (hS : 0 < S) (es : List Event) :
    ∀ {s t : Sys}, s.Inv S W → Sys.run true s es = some t → t.Inv S W := by
  induction es with
  | nil => intro s t hi h; simp only [Sys.run] at h; cases h; exact hi
  | cons e es ih =>
    intro s t hi h
    simp only [Sys.run] at h
    split at h
    · cases h
    · rename_i s1 hs1
      exact ih (Inv.step hS hi e hs1) h

theorem Reachable.inv {S W : Int} (hS : 0 < S) (hW : 0 < W) {s : Sys}
    (h : Reachable S W s) : s.Inv S W := by
  obtain ⟨k, es, hrun⟩ := h
  exact Inv.run hS es (Inv.at_start S W k hW) hrun

end Sys

namespace Fifo

theorem Inv.step_fill {S W : Int} {f : Fifo} (hi : f.Inv S W) (hfree : f.spaceFree)
    (hS : 0 < S) (length : Int) (hlen : length ≤ S) :
    (f.writeCommit length).numBytesFilled = f.numBytesFilled + clampLength length := by
  obtain ⟨-, -, e3, -, -, -, -⟩ := writeCommit_frame f length
  have hl : 0 ≤ clampLength length ∧ clampLength length ≤ S := by
    unfold clampLength; split_ifs <;> omega
  have h2 := hi.hW
  have h4 := hi.w_lt
  unfold numBytesFilled
  unfold spaceFree at hfree
  rw [e3]
  rcases writeCommit_cursor f length with ⟨ha, hw, he⟩ | ⟨ha, hw, he⟩ <;> rw [hw, he]
  · rcases hfree with ⟨h0, hr⟩ | ⟨h0, hr⟩
    · omega
    · have := hi.wrapped h0
      have := hi.hS
      omega
  · omega

theorem Inv.release_fill {S W : Int} {f : Fifo} (hi : f.Inv S W) :
    f.release.numBytesFilled = f.numBytesFilled - (f.mReadCommit - f.mRead) := by
  obtain ⟨-, -, e3, -, -, -⟩ := release_frame f
  have h2 := hi.hW
  have h4 := hi.w_lt
  unfold numBytesFilled
  rw [e3]
  rcases release_cursor f with ⟨ha, hr, hc, he⟩ | ⟨ha, hr, hc, he⟩ <;> rw [hr, he]
  · by_cases h0 : f.mRaggedEnd = 0
    · have := hi.flat h0
      omega
    · have := hi.wrapped h0
      omega
  · omega

theorem read_fill (f : Fifo) (fuel : Nat) (r : ReadResult) (h : f.read fuel = some r) :
    r.state.numBytesFilled = f.numBytesFilled := by
  rcases read_state f fuel r h with h1 | h1
  · rw [h1]
  · rw [h1]; rfl

theorem waitForSpace_fill (f : Fifo) (n : Nat) :
    (f.waitForSpace n).state.numBytesFilled = f.numBytesFilled := by
  rw [waitForSpace_state]; rfl

end Fifo

namespace Sys

theorem Inv.run_fill {S W : Int} (hS : 0 < S) (es : List Event) :
    ∀ {s t : Sys}, s.Inv S W → Sys.run true s es = some t →
      t.fifo.numBytesFilled =
        s.fifo.numBytesFilled + bytesWritten es - bytesReleased true s es := by
  induction es with
  | nil =>
    intro s t _ h
    simp only [Sys.run] at h
    cases h
    simp [bytesWritten, bytesReleased]
  | cons e es ih =>
    intro s t hi h
    simp only [Sys.run] at h
    split at h
    · cases h
    · rename_i s1 hs1
      have hi1 := Inv.step hS hi e hs1
      have hrec := ih hi1 h
      rw [hrec]
      simp only [bytesReleased, hs1]
      obtain ⟨hf, hfree⟩ := hi
      cases e with
      | write length =>
        simp only [Sys.step] at hs1
        split_ifs at hs1 with hg
        cases hs1
        simp only [bytesWritten, Fifo.write, Fifo.waitForSpace_fill]
        have hlen : length ≤ S := by
          have := hg.2 trivial
          rw [hf.hS] at this; exact this
        rw [hf.step_fill (hfree hg.1) hS length hlen]
        unfold Fifo.clampLength
        omega
      | wake =>
        simp only [Sys.step] at hs1
        split_ifs at hs1 with hg
        split at hs1
        · cases hs1
        · cases hs1
          simp only [bytesWritten, Fifo.waitForSpace_fill]
          omega
      | read fuel =>
        simp only [Sys.step] at hs1
        split at hs1
        · cases hs1
        · rename_i r hr
          cases hs1
          simp only [bytesWritten, Fifo.read_fill _ fuel r hr]
          omega
      | release =>
        simp only [Sys.step] at hs1
        cases hs1
        simp only [bytesWritten, hf.release_fill]
        omega

end Sys

/-! ## Fifo: the claims -/

/-- C1, the space guarantee.  In every state reachable from the initial state
of a buffer with `0 < singleBufferSize = S` and `bufferSize = W > 0` by writes of
at most `S` bytes (each taken once the previous one has returned), reads and
releases, whenever `isFull()` is false the `S` bytes at the write cursor lie
inside the arena of `W + S` bytes and hold no unread byte: either
`raggedEnd = 0` and `readCursor ≤ writeCursor`, or `raggedEnd ≠ 0` and
`writeCursor + S ≤ readCursor`. -/
theorem fifo_space_guarantee (S W : Int) (hS : 0 < S) (hW : 0 < W) (s : Sys)
    (hr : Sys.Reachable S W s) (hnf : s.fifo.isFull = false) :
    (s.fifo.arenaSize = W + S ∧ 0 ≤ s.fifo.mWrite ∧ s.fifo.mWrite + S ≤ s.fifo.arenaSize) ∧
      ((s.fifo.mRaggedEnd = 0 ∧ s.fifo.mRead ≤ s.fifo.mWrite) ∨
        (s.fifo.mRaggedEnd ≠ 0 ∧ s.fifo.mWrite + S ≤ s.fifo.mRead)) ∧
      (∀ i : Int, s.fifo.mWrite ≤ i → i < s.fifo.mWrite + S →
        (0 ≤ i ∧ i < s.fifo.arenaSize) ∧ ¬ s.fifo.unread i) := by
  obtain ⟨hi, -⟩ := Sys.Reachable.inv hS hW hr
  have hfree := hi.free_of_notFull hnf
  have h1 := hi.hS
  have h2 := hi.hW
  have h3 := hi.w_nonneg
  have h4 := hi.w_lt
  unfold Fifo.spaceFree at hfree
  rw [h1] at hfree
  have ha : s.fifo.arenaSize = W + S := by unfold Fifo.arenaSize; rw [h1, h2]
  refine ⟨⟨ha, h3, by omega⟩, hfree, ?_⟩
  intro i hi1 hi2
  refine ⟨by omega, ?_⟩
  unfold Fifo.unread
  rcases hfree with ⟨h0, hr0⟩ | ⟨h0, hr0⟩
  · simp only [h0, if_true]; omega
  · simp only [h0, if_false]; omega

theorem fifo_space_guarantee_witness :
    (Sys.afterOneWrite.fifo.arenaSize = 10 + 4 ∧ 0 ≤ Sys.afterOneWrite.fifo.mWrite ∧
        Sys.afterOneWrite.fifo.mWrite + 4 ≤ Sys.afterOneWrite.fifo.arenaSize) ∧
      ((Sys.afterOneWrite.fifo.mRaggedEnd = 0 ∧
          Sys.afterOneWrite.fifo.mRead ≤ Sys.afterOneWrite.fifo.mWrite) ∨
        (Sys.afterOneWrite.fifo.mRaggedEnd ≠ 0 ∧
          Sys.afterOneWrite.fifo.mWrite + 4 ≤ Sys.afterOneWrite.fifo.mRead)) ∧
      (∀ i : Int, Sys.afterOneWrite.fifo.mWrite ≤ i → i < Sys.afterOneWrite.fifo.mWrite + 4 →
        (0 ≤ i ∧ i < Sys.afterOneWrite.fifo.arenaSize) ∧ ¬ Sys.afterOneWrite.fifo.unread i) :=
  fifo_space_guarantee 4 10 (by decide) (by decide) Sys.afterOneWrite
    ⟨0, [.write 4], by decide⟩ (by decide)

/-- C2, the wraparound round trip.  Along every run of writes of at most
`singleBufferSize` bytes (each taken once the previous one has returned), reads
and releases, `numBytesFilled()` is the total of the lengths written minus the
total of `readCommitCursor - readCursor` over the releases, wraparounds
included; so once the buffer is empty as many bytes have been released as
written; and in a state with `raggedEnd ≠ 0` a read hands out the tail
`[readCursor, raggedEnd)`, the release after it resets the read cursor and the
ragged end to 0, and the next read hands out the wrapped segment
`[0, writeCursor)`. -/
theorem fifo_wraparound_round_trip (S W : Int) (hS : 0 < S) (hW : 0 < W) (k : Nat)
    (es : List Event) (s : Sys) (hrun : Sys.run true (Sys.init S W k) es = some s) :
    s.fifo.numBytesFilled =
        Sys.bytesWritten es - Sys.bytesReleased true (Sys.init S W k) es ∧
      (s.fifo.isEmpty = true →
        Sys.bytesReleased true (Sys.init S W k) es = Sys.bytesWritten es) ∧
      (s.fifo.mRaggedEnd ≠ 0 → ∀ n m : Nat,
        s.fifo.read (n + 1) =
            some ⟨s.fifo.readCommitted, some s.fifo.mRead,
              some (s.fifo.mRaggedEnd - s.fifo.mRead)⟩ ∧
          0 ≤ s.fifo.mRaggedEnd - s.fifo.mRead ∧
          s.fifo.readCommitted.release.mRead = 0 ∧
          s.fifo.readCommitted.release.mRaggedEnd = 0 ∧
          s.fifo.readCommitted.release.mWrite = s.fifo.mWrite ∧
          ((s.fifo.readCommitted.release.isEmpty &&
              !s.fifo.readCommitted.release.mEnd) = false →
            s.fifo.readCommitted.release.read (m + 1) =
              some ⟨s.fifo.readCommitted.release.readCommitted, some 0,
                some s.fifo.mWrite⟩)) := by
  have hfill := Sys.Inv.run_fill hS es (Sys.Inv.at_start S W k hW) hrun
  have hinit : (Sys.init S W k).fifo.numBytesFilled = 0 := by
    simp [Sys.init, Fifo.init, Fifo.numBytesFilled]
  rw [hinit] at hfill
  obtain ⟨hi, -⟩ := Sys.Inv.run hS es (Sys.Inv.at_start S W k hW) hrun
  refine ⟨by omega, ?_, ?_⟩
  · intro he
    have h0 : s.fifo.numBytesFilled = 0 := by
      simp only [Fifo.isEmpty, Bool.and_eq_true, beq_iff_eq] at he
      unfold Fifo.numBytesFilled
      omega
    omega
  · intro h0 n m
    have hw := hi.wrapped h0
    have h2 := hi.hW
    have ht : s.fifo.readTarget = s.fifo.mRaggedEnd := by simp [Fifo.readTarget, h0]
    have hne : (s.fifo.isEmpty && !s.fifo.mEnd) = false := by
      simp [Fifo.isEmpty, h0]
    have hrd := Fifo.read_of_data s.fifo n hne hi.read_le_target
    rw [ht] at hrd
    have hc : s.fifo.readCommitted.mReadCommit = s.fifo.mRaggedEnd := ht
    have hwt : s.fifo.readCommitted.mWrapThreshold = s.fifo.mWrapThreshold := rfl
    have hrel := Fifo.release_cursor s.fifo.readCommitted
    obtain ⟨-, -, e3, -, -, -⟩ := Fifo.release_frame s.fifo.readCommitted
    have hgi := hi.readCommitted.release
    rcases hrel with ⟨-, hr, -, he⟩ | ⟨hlt, -, -, -⟩
    · refine ⟨hrd, by omega, hr, he, e3, ?_⟩
      intro hne2
      have h5 := Fifo.read_of_data _ m hne2 hgi.read_le_target
      have ht2 : s.fifo.readCommitted.release.readTarget = s.fifo.mWrite := by
        simp only [Fifo.readTarget, he, ne_eq, not_true_eq_false, if_false]
        exact e3
      rw [ht2, hr] at h5
      simpa using h5
    · rw [hc, hwt] at hlt
      omega

theorem fifo_wraparound_round_trip_witness :
    Sys.afterWrap.fifo.numBytesFilled =
      Sys.bytesWritten Sys.wrapRun - Sys.bytesReleased true (Sys.init 4 10 0) Sys.wrapRun :=
  (fifo_wraparound_round_trip 4 10 (by decide) (by decide) 0 Sys.wrapRun Sys.afterWrap
    (by decide)).1

/-- The postcondition of `read` in a state in which `readCursor` is at most
`raggedEnd` (if nonzero) or `writeCursor` (otherwise). -/
theorem Fifo.read_post_of_le (f : Fifo) (n : Nat)
    (hle : f.mRead ≤ (if f.mRaggedEnd ≠ 0 then f.mRaggedEnd else f.mWrite)) :
    ∃ r : Fifo.ReadResult, f.read (n + 1) = some r ∧
      (r.ret = none ↔ (f.isEmpty = true ∧ f.mEnd = false)) ∧
      (r.ret = none → r.state = f ∧ r.length = none) ∧
      (r.ret ≠ none →
        r.state =
            { f with mReadCommit := if f.mRaggedEnd ≠ 0 then f.mRaggedEnd else f.mWrite } ∧
          r.length = some (r.state.mReadCommit - f.mRead) ∧
          r.ret = some f.mRead ∧
          r.state.mRead = f.mRead ∧ r.state.mWrite = f.mWrite ∧
          r.state.mRaggedEnd = f.mRaggedEnd ∧ r.state.mEnd = f.mEnd) := by
  by_cases he : (f.isEmpty && !f.mEnd) = true
  · refine ⟨⟨f, none, none⟩, Fifo.read_of_empty f (n + 1) he, ?_, ?_, ?_⟩
    · simpa using he
    · intro _; exact ⟨rfl, rfl⟩
    · intro h; exact absurd rfl h
  · have he2 : (f.isEmpty && !f.mEnd) = false := by simpa using he
    refine ⟨_, Fifo.read_of_data f n he2 hle, ?_, ?_, ?_⟩
    · constructor
      · intro h; cases h
      · rintro ⟨h1, h2⟩
        rw [h1, h2] at he2
        cases he2
    · intro h; cases h
    · intro _
      exact ⟨rfl, rfl, rfl, rfl, rfl, rfl, rfl⟩

/-- C3, the postcondition of `read`.  In every state of the object, that is in
every state reachable from the constructor by calls of `write` with at most
`singleBufferSize` bytes (each taken once the previous one has returned), `read`
and `release`, the call `read()` returns, after one pass through its loop.  It
returns null exactly when `isEmpty()` holds and the ended flag is false, and
then it changes no field and stores no length; otherwise it sets
`readCommitCursor` to `raggedEnd` if that is nonzero and to `writeCursor` if
not, stores `readCommitCursor - readCursor` as the length, returns the address at
offset `readCursor` and changes neither `readCursor`, `writeCursor`, `raggedEnd`
nor the ended flag. -/
theorem fifo_read_post (S W : Int) (hS : 0 < S) (hW : 0 < W) (s : Sys)
    (hr : Sys.Reachable S W s) (n : Nat) :
    ∃ r : Fifo.ReadResult, s.fifo.read (n + 1) = some r ∧
      (r.ret = none ↔ (s.fifo.isEmpty = true ∧ s.fifo.mEnd = false)) ∧
      (r.ret = none → r.state = s.fifo ∧ r.length = none) ∧
      (r.ret ≠ none →
        r.state =
            { s.fifo with
              mReadCommit :=
                if s.fifo.mRaggedEnd ≠ 0 then s.fifo.mRaggedEnd else s.fifo.mWrite } ∧
          r.length = some (r.state.mReadCommit - s.fifo.mRead) ∧
          r.ret = some s.fifo.mRead ∧
          r.state.mRead = s.fifo.mRead ∧ r.state.mWrite = s.fifo.mWrite ∧
          r.state.mRaggedEnd = s.fifo.mRaggedEnd ∧ r.state.mEnd = s.fifo.mEnd) := by
  obtain ⟨hi, -⟩ := Sys.Reachable.inv hS hW hr
  exact Fifo.read_post_of_le s.fifo n hi.read_le_target

theorem fifo_read_post_witness :
    ∃ r : Fifo.ReadResult, Sys.afterWrap.fifo.read 1 = some r ∧
      (r.ret = none ↔ (Sys.afterWrap.fifo.isEmpty = true ∧ Sys.afterWrap.fifo.mEnd = false)) ∧
      r.length = some 12 :=
  (fifo_read_post 4 10 (by decide) (by decide) Sys.afterWrap ⟨0, Sys.wrapRun, by decide⟩
    0).imp fun r h => ⟨h.1, h.2.1, by
      have e : r = ⟨Sys.afterWrapRead.fifo, some 0, some 12⟩ :=
        Option.some.inj (h.1.symm.trans (by decide))
      rw [e]⟩

/-- The cursor update of `write` with the sum taken in the integers.  For every state with
`writeCursor < wrapThreshold` (so also with `0 ≤ writeCursor`, which is not
needed) and every length, with `l = length` if
`length > 0` and `l = 0` otherwise: the ended flag becomes true when
`length ≤ 0` and is unchanged otherwise, so it is never cleared; if
`writeCursor + l ≥ wrapThreshold` then `raggedEnd` becomes `writeCursor + l` and
`writeCursor` becomes 0, otherwise `writeCursor` becomes `writeCursor + l` and
`raggedEnd` is unchanged; `readCursor` and `readCommitCursor` are unchanged; a
call with `length ≤ 0` moves no cursor; the data-ready signal is posted once.
This holds whether the call returns or blocks waiting for space. -/
theorem Fifo.write_cursor_exact (f : Fifo) (length : Int)
    (hlt : f.mWrite < f.mWrapThreshold) :
    (f.write length).state.mEnd = (if length ≤ 0 then true else f.mEnd) ∧
      (f.mEnd = true → (f.write length).state.mEnd = true) ∧
      (f.mWrite + (if length > 0 then length else 0) ≥ f.mWrapThreshold →
        (f.write length).state.mRaggedEnd = f.mWrite + (if length > 0 then length else 0) ∧
          (f.write length).state.mWrite = 0) ∧
      (f.mWrite + (if length > 0 then length else 0) < f.mWrapThreshold →
        (f.write length).state.mWrite = f.mWrite + (if length > 0 then length else 0) ∧
          (f.write length).state.mRaggedEnd = f.mRaggedEnd) ∧
      (f.write length).state.mRead = f.mRead ∧
      (f.write length).state.mReadCommit = f.mReadCommit ∧
      (length ≤ 0 →
        (f.write length).state.mWrite = f.mWrite ∧
          (f.write length).state.mRaggedEnd = f.mRaggedEnd) ∧
      (f.write length).state.mReaderSem = f.mReaderSem + 1 := by
  have hl : (if length > 0 then length else 0) = Fifo.clampLength length := by
    unfold Fifo.clampLength; split_ifs <;> omega
  rw [hl]
  obtain ⟨-, -, e3, e4, -, e6, e7⟩ := Fifo.writeCommit_frame f length
  have hc := Fifo.writeCommit_cursor f length
  simp only [Fifo.write, Fifo.waitForSpace_state]
  refine ⟨e7, ?_, ?_, ?_, e3, e4, ?_, e6⟩
  · intro he
    show (f.writeCommit length).mEnd = true
    rw [e7]; split_ifs
    · rfl
    · exact he
  · intro hge
    show (f.writeCommit length).mRaggedEnd = _ ∧ (f.writeCommit length).mWrite = 0
    rcases hc with ⟨_, hw, he⟩ | ⟨_, hw, he⟩
    · exact ⟨he, hw⟩
    · omega
  · intro hsmall
    show (f.writeCommit length).mWrite = _ ∧ (f.writeCommit length).mRaggedEnd = _
    rcases hc with ⟨_, hw, he⟩ | ⟨_, hw, he⟩
    · omega
    · exact ⟨hw, he⟩
  · intro hneg
    show (f.writeCommit length).mWrite = _ ∧ (f.writeCommit length).mRaggedEnd = _
    have hz : Fifo.clampLength length = 0 := by unfold Fifo.clampLength; simp [hneg]
    rw [hz] at hc
    rcases hc with ⟨_, hw, he⟩ | ⟨_, hw, he⟩
    · omega
    · exact ⟨by omega, he⟩

/-- A value in the range of the type `int` is left as it is. -/
theorem wrapInt_of_fits (x : Int) (h0 : 0 ≤ x) (h1 : x ≤ intMax) : wrapInt x = x := by
  unfold wrapInt
  unfold intMax at h1
  omega

/-- When the sum fits the type `int`, `write` with the addition in that type is
`write` with the addition in the integers. -/
theorem Fifo.writeInt_eq_write (f : Fifo) (length : Int) (h0 : 0 ≤ f.mWrite)
    (hfit : f.mWrite + (if length > 0 then length else 0) ≤ intMax) :
    f.writeInt length = f.write length := by
  have hc : f.writeCommitInt length = f.writeCommit length := by
    unfold Fifo.writeCommitInt Fifo.writeCommit
    by_cases hl : length ≤ 0
    · have hg : ¬ length > 0 := by omega
      rw [if_neg hg] at hfit
      simp only [hl, if_true]
      rw [wrapInt_of_fits _ (by simpa using h0) (by simpa using hfit)]
    · have hg : length > 0 := by omega
      rw [if_pos hg] at hfit
      simp only [hl, if_false]
      rw [wrapInt_of_fits _ (by omega) hfit]
  unfold Fifo.writeInt Fifo.write
  rw [hc]

/-- C4 as stated fails for a length whose sum with the write cursor does not fit
the type `int`.  After one write of four bytes into a buffer with
`singleBufferSize = 4` and `bufferSize = 10` the write cursor is 4; the call
`write(2147483647)` is one with `writeCursor + l ≥ wrapThreshold`, yet it leaves
`raggedEnd` at 0 and the write cursor at `-2147483645` instead of recording
`writeCursor + l` as `raggedEnd` and resetting the write cursor to 0. -/
theorem fifo_write_cursor_update_counterexample :
    Sys.run true (Sys.init 4 10 0) [.write 4] = some Sys.afterOneWrite ∧
      0 ≤ Sys.afterOneWrite.fifo.mWrite ∧
      Sys.afterOneWrite.fifo.mWrite < Sys.afterOneWrite.fifo.mWrapThreshold ∧
      Sys.afterOneWrite.fifo.mWrite + 2147483647 ≥ Sys.afterOneWrite.fifo.mWrapThreshold ∧
      (Sys.afterOneWrite.fifo.writeInt 2147483647).state.mRaggedEnd = 0 ∧
      (Sys.afterOneWrite.fifo.writeInt 2147483647).state.mWrite = -2147483645 ∧
      ¬ ((Sys.afterOneWrite.fifo.writeInt 2147483647).state.mRaggedEnd =
            Sys.afterOneWrite.fifo.mWrite + 2147483647 ∧
          (Sys.afterOneWrite.fifo.writeInt 2147483647).state.mWrite = 0) := by
  decide

/-- C4, amended: the cursor update of `write`.  For every state with
`0 ≤ writeCursor < wrapThreshold` and every length, with `l = length` if
`length > 0` and `l = 0` otherwise, such that `writeCursor + l` fits the type
`int`: the ended flag becomes true when `length ≤ 0` and is unchanged otherwise,
so it is never cleared; if `writeCursor + l ≥ wrapThreshold` then `raggedEnd`
becomes `writeCursor + l` and `writeCursor` becomes 0, otherwise `writeCursor`
becomes `writeCursor + l` and `raggedEnd` is unchanged; `readCursor` and
`readCommitCursor` are unchanged; a call with `length ≤ 0` moves no cursor; the
data-ready signal is posted once.  This holds whether the call returns or blocks
waiting for space. -/
theorem fifo_write_cursor_update (f : Fifo) (length : Int)
    (h0 : 0 ≤ f.mWrite) (hlt : f.mWrite < f.mWrapThreshold)
    (hfit : f.mWrite + (if length > 0 then length else 0) ≤ intMax) :
    (f.writeInt length).state.mEnd = (if length ≤ 0 then true else f.mEnd) ∧
      (f.mEnd = true → (f.writeInt length).state.mEnd = true) ∧
      (f.mWrite + (if length > 0 then length else 0) ≥ f.mWrapThreshold →
        (f.writeInt length).state.mRaggedEnd =
            f.mWrite + (if length > 0 then length else 0) ∧
          (f.writeInt length).state.mWrite = 0) ∧
      (f.mWrite + (if length > 0 then length else 0) < f.mWrapThreshold →
        (f.writeInt length).state.mWrite = f.mWrite + (if length > 0 then length else 0) ∧
          (f.writeInt length).state.mRaggedEnd = f.mRaggedEnd) ∧
      (f.writeInt length).state.mRead = f.mRead ∧
      (f.writeInt length).state.mReadCommit = f.mReadCommit ∧
      (length ≤ 0 →
        (f.writeInt length).state.mWrite = f.mWrite ∧
          (f.writeInt length).state.mRaggedEnd = f.mRaggedEnd) ∧
      (f.writeInt length).state.mReaderSem = f.mReaderSem + 1 := by
  rw [Fifo.writeInt_eq_write f length h0 hfit]
  exact Fifo.write_cursor_exact f length hlt

theorem fifo_write_cursor_update_witness :
    (Sys.afterOneWrite.fifo.writeInt 7).state.mRaggedEnd =
        4 + (if (7 : Int) > 0 then 7 else 0) ∧
      (Sys.afterOneWrite.fifo.writeInt 7).state.mWrite = 0 :=
  (fifo_write_cursor_update Sys.afterOneWrite.fifo 7 (by decide) (by decide)
    (by decide)).2.2.1 (by decide)

namespace Fifo

/-- What one `read()` followed by `release()` does to the cursors of a buffer
that satisfies the invariant. -/
theorem Inv.readCommitted_release {S W : Int} {f : Fifo} (hi : f.Inv S W) :
    f.readCommitted.release.mWrite = f.mWrite ∧
      f.readCommitted.release.mRaggedEnd = 0 ∧
      f.readCommitted.release.mEnd = f.mEnd ∧
      (f.mRaggedEnd = 0 → f.readCommitted.release.mRead = f.mWrite) ∧
      (f.mRaggedEnd ≠ 0 → f.readCommitted.release.mRead = 0) := by
  obtain ⟨-, -, e3, e4, -, -⟩ := release_frame f.readCommitted
  have h2 := hi.hW
  have h4 := hi.w_lt
  have hc : f.readCommitted.mReadCommit = f.readTarget := rfl
  have hwt : f.readCommitted.mWrapThreshold = f.mWrapThreshold := rfl
  have hre : f.readCommitted.mRaggedEnd = f.mRaggedEnd := rfl
  have hrel := release_cursor f.readCommitted
  rw [hc, hwt, hre] at hrel
  by_cases h0 : f.mRaggedEnd = 0
  · have ht : f.readTarget = f.mWrite := by simp [readTarget, h0]
    rw [ht] at hrel
    rcases hrel with ⟨ha, -, -, -⟩ | ⟨-, hr, -, he⟩
    · omega
    · exact ⟨e3, by rw [he, h0], e4, fun _ => hr, fun h => absurd h0 h⟩
  · have ht : f.readTarget = f.mRaggedEnd := by simp [readTarget, h0]
    have := hi.wrapped h0
    rw [ht] at hrel
    rcases hrel with ⟨-, hr, -, he⟩ | ⟨ha, -, -, -⟩
    · exact ⟨e3, he, e4, fun h => absurd h h0, fun _ => hr⟩
    · omega

theorem read_of_ended (f : Fifo) (n : Nat) (hend : f.mEnd = true)
    (hle : f.mRead ≤ f.readTarget) :
    f.read (n + 1) =
      some ⟨f.readCommitted, some f.mRead, some (f.readTarget - f.mRead)⟩ :=
  read_of_data f n (by simp [hend]) hle

end Fifo

/-- C5 as stated fails: after `write(0)` on a fresh buffer the stream is ended
and the buffer is empty (`isEmpty()` holds), yet `read()` does not return null:
it returns the address at offset 0 with length 0. -/
theorem fifo_end_of_stream_counterexample :
    (Fifo.init 4 10 0).write 0 = ⟨Fifo.endedEmpty, some 0⟩ ∧
      Fifo.endedEmpty.isEmpty = true ∧ Fifo.endedEmpty.mEnd = true ∧
      Fifo.endedEmpty.read 1 = some ⟨Fifo.endedEmpty, some 0, some 0⟩ := by
  decide

/-- C5, amended.  In every reachable state in which the stream is ended,
`read()` never returns null: two `read()`/`release()` pairs hand out the bytes
still buffered (non-negative lengths that add up to `numBytesFilled()`), after
them `isEmpty()` holds, and a `read()` of the drained buffer returns the
address at the read cursor with length 0. -/
theorem fifo_end_of_stream (S W : Int) (hS : 0 < S) (hW : 0 < W) (s : Sys)
    (hr : Sys.Reachable S W s) (hend : s.fifo.mEnd = true) (n m k : Nat) :
    ∃ (r1 r2 : Fifo.ReadResult) (l1 l2 : Int),
      s.fifo.read (n + 1) = some r1 ∧ r1.ret = some s.fifo.mRead ∧ r1.length = some l1 ∧
      r1.state.release.read (m + 1) = some r2 ∧
      r2.ret = some r1.state.release.mRead ∧ r2.length = some l2 ∧
      0 ≤ l1 ∧ 0 ≤ l2 ∧ l1 + l2 = s.fifo.numBytesFilled ∧
      r2.state.release.isEmpty = true ∧
      r2.state.release.read (k + 1) =
        some ⟨r2.state.release.readCommitted, some r2.state.release.mRead, some 0⟩ := by
  obtain ⟨hi, -⟩ := Sys.Reachable.inv hS hW hr
  have hi1 := hi.readCommitted.release
  have hi2 := hi1.readCommitted.release
  obtain ⟨a1, a2, a3, a4, a5⟩ := hi.readCommitted_release
  obtain ⟨b1, b2, b3, b4, b5⟩ := hi1.readCommitted_release
  have hend1 : s.fifo.readCommitted.release.mEnd = true := by rw [a3]; exact hend
  have hend2 : s.fifo.readCommitted.release.readCommitted.release.mEnd = true := by
    rw [b3]; exact hend1
  have ht1 : s.fifo.readCommitted.release.readTarget = s.fifo.mWrite := by
    simp only [Fifo.readTarget, a2, ne_eq, not_true_eq_false, if_false]; exact a1
  have ht2 : s.fifo.readCommitted.release.readCommitted.release.readTarget =
      s.fifo.readCommitted.release.readCommitted.release.mRead := by
    simp only [Fifo.readTarget, b2, ne_eq, not_true_eq_false, if_false]
    rw [b4 a2]
    exact b1
  refine ⟨_, _, _, _, Fifo.read_of_ended _ n hend hi.read_le_target, rfl, rfl,
    Fifo.read_of_ended _ m hend1 hi1.read_le_target, rfl, rfl, ?_, ?_, ?_, ?_, ?_⟩
  · have := hi.read_le_target; omega
  · have := hi1.read_le_target
    show 0 ≤ s.fifo.readCommitted.release.readTarget - s.fifo.readCommitted.release.mRead
    omega
  · rw [ht1]
    unfold Fifo.numBytesFilled
    by_cases h0 : s.fifo.mRaggedEnd = 0
    · have ht : s.fifo.readTarget = s.fifo.mWrite := by simp [Fifo.readTarget, h0]
      rw [ht, a4 h0, h0]; omega
    · have ht : s.fifo.readTarget = s.fifo.mRaggedEnd := by simp [Fifo.readTarget, h0]
      rw [ht, a5 h0]; omega
  · show s.fifo.readCommitted.release.readCommitted.release.isEmpty = true
    simp only [Fifo.isEmpty, Bool.and_eq_true, beq_iff_eq]
    exact ⟨by rw [b4 a2, b1], b2⟩
  · have h5 := Fifo.read_of_ended _ k hend2 hi2.read_le_target
    rw [ht2] at h5
    simpa using h5

theorem fifo_end_of_stream_witness :
    ∃ (r1 r2 : Fifo.ReadResult) (l1 l2 : Int),
      Fifo.endedEmpty.read 1 = some r1 ∧ r1.ret = some Fifo.endedEmpty.mRead ∧
      r1.length = some l1 ∧
      r1.state.release.read 1 = some r2 ∧
      r2.ret = some r1.state.release.mRead ∧ r2.length = some l2 ∧
      0 ≤ l1 ∧ 0 ≤ l2 ∧ l1 + l2 = Fifo.endedEmpty.numBytesFilled ∧
      r2.state.release.isEmpty = true ∧
      r2.state.release.read 1 =
        some ⟨r2.state.release.readCommitted, some r2.state.release.mRead, some 0⟩ :=
  fifo_end_of_stream 4 10 (by decide) (by decide) ⟨Fifo.endedEmpty, false⟩
    ⟨0, [.write 0], by decide⟩ (by decide) 0 0 0

/-- C6 as stated fails: with `singleBufferSize = 4` and `bufferSize = 10`, three
writes of four bytes are a run that respects the length bound, and in the state
they reach (the third write has advanced the cursor and waits for space)
`numBytesFilled()` is 12, above `wrapThreshold = 10`. -/
theorem fifo_capacity_counterexample :
    Sys.run true (Sys.init 4 10 0) Sys.wrapRun = some Sys.afterWrap ∧
      Sys.afterWrap.writerWaiting = true ∧
      ¬ (Sys.afterWrap.fifo.numBytesFilled ≤ Sys.afterWrap.fifo.mWrapThreshold) := by
  decide

/-- C6, amended.  In every state reached by writes of at most
`singleBufferSize = S` bytes (each taken once the previous one has returned),
reads and releases: `numBytesFilled() ≤ wrapThreshold` holds while no wrap is
pending (`raggedEnd = 0`), and while one is pending (`raggedEnd ≠ 0`)
`numBytesFilled() ≤ raggedEnd`, which is below `wrapThreshold + S`, the size of
the arena.  The state of a write that waits for space is included. -/
theorem fifo_capacity (S W : Int) (hS : 0 < S) (hW : 0 < W) (s : Sys)
    (hr : Sys.Reachable S W s) :
    s.fifo.mWrapThreshold = W ∧
      (s.fifo.mRaggedEnd = 0 → s.fifo.numBytesFilled ≤ W) ∧
      (s.fifo.mRaggedEnd ≠ 0 →
        s.fifo.numBytesFilled ≤ s.fifo.mRaggedEnd ∧ s.fifo.mRaggedEnd < W + S) := by
  obtain ⟨hi, -⟩ := Sys.Reachable.inv hS hW hr
  have h3 := hi.w_nonneg
  have h4 := hi.w_lt
  unfold Fifo.numBytesFilled
  refine ⟨hi.hW, ?_, ?_⟩
  · intro h0
    have := hi.flat h0
    omega
  · intro h0
    have := hi.wrapped h0
    omega

theorem fifo_capacity_witness :
    Sys.afterWrap.fifo.mWrapThreshold = 10 ∧
      (Sys.afterWrap.fifo.mRaggedEnd = 0 → Sys.afterWrap.fifo.numBytesFilled ≤ 10) ∧
      (Sys.afterWrap.fifo.mRaggedEnd ≠ 0 →
        Sys.afterWrap.fifo.numBytesFilled ≤ Sys.afterWrap.fifo.mRaggedEnd ∧
          Sys.afterWrap.fifo.mRaggedEnd < 10 + 4) :=
  fifo_capacity 4 10 (by decide) (by decide) Sys.afterWrap ⟨0, Sys.wrapRun, by decide⟩

namespace Fifo

theorem Range.keep_init (S W : Int) (k : Nat) (hW : 0 < W) : (Fifo.init S W k).Range W :=
  ⟨rfl, le_refl _, hW, le_refl _, hW, le_refl _, le_refl _⟩

theorem Range.keep_writeCommit {W : Int} {f : Fifo} (hi : f.Range W) (length : Int) :
    (f.writeCommit length).Range W := by
  obtain ⟨-, e2, e3, e4, -, -, -⟩ := writeCommit_frame f length
  have hl : 0 ≤ clampLength length := by unfold clampLength; split_ifs <;> omega
  obtain ⟨h1, h2, h3, h4, h5, h6, h7⟩ := hi
  refine ⟨by rw [e2]; exact h1, ?_, ?_, by rw [e3]; exact h4, by rw [e3]; exact h5,
    by rw [e4]; exact h6, ?_⟩
  all_goals rcases writeCommit_cursor f length with ⟨_, hw, he⟩ | ⟨_, hw, he⟩ <;> omega

theorem Range.keep_waitForSpace {W : Int} {f : Fifo} (hi : f.Range W) (n : Nat) :
    (f.waitForSpace n).state.Range W := by
  rw [waitForSpace_state]
  exact ⟨hi.hW, hi.w_nonneg, hi.w_lt, hi.r_nonneg, hi.r_lt, hi.c_nonneg, hi.e_nonneg⟩

theorem Range.keep_readCommitted {W : Int} {f : Fifo} (hi : f.Range W) :
    f.readCommitted.Range W := by
  refine ⟨hi.hW, hi.w_nonneg, hi.w_lt, hi.r_nonneg, hi.r_lt, ?_, hi.e_nonneg⟩
  show 0 ≤ f.readTarget
  have := hi.w_nonneg
  have := hi.e_nonneg
  unfold readTarget; split_ifs <;> omega

theorem Range.keep_read {W : Int} {f : Fifo} (hi : f.Range W) (fuel : Nat) (r : ReadResult)
    (h : f.read fuel = some r) : r.state.Range W := by
  rcases read_state f fuel r h with h1 | h1 <;> rw [h1]
  · exact hi
  · exact hi.keep_readCommitted

theorem Range.keep_release {W : Int} {f : Fifo} (hi : f.Range W) : f.release.Range W := by
  obtain ⟨-, e2, e3, -, -, -⟩ := release_frame f
  obtain ⟨h1, h2, h3, h4, h5, h6, h7⟩ := hi
  refine ⟨by rw [e2]; exact h1, by rw [e3]; exact h2, by rw [e3]; exact h3, ?_, ?_, ?_, ?_⟩
  all_goals rcases release_cursor f with ⟨_, hr, hc, he⟩ | ⟨_, hr, hc, he⟩ <;> omega

end Fifo

namespace Sys

theorem range_step {W : Int} (b : Bool) {s t : Sys} (hi : s.fifo.Range W) (e : Event)
    (h : s.step b e = some t) : t.fifo.Range W := by
  cases e with
  | write length =>
    simp only [Sys.step] at h
    split_ifs at h with hg
    cases h
    exact (hi.keep_writeCommit length).keep_waitForSpace _
  | wake =>
    simp only [Sys.step] at h
    split_ifs at h with hg
    split at h
    · cases h
    · cases h
      exact hi.keep_waitForSpace _
  | read fuel =>
    simp only [Sys.step] at h
    split at h
    · cases h
    · rename_i r hr
      cases h
      exact hi.keep_read fuel r hr
  | release =>
    simp only [Sys.step] at h
    cases h
    exact hi.keep_release

theorem range_run {W : Int} (b : Bool) (es : List Event) :
    ∀ {s t : Sys}, s.fifo.Range W → Sys.run b s es = some t → t.fifo.Range W := by
  induction es with
  | nil => intro s t hi h; simp only [Sys.run] at h; cases h; exact hi
  | cons e es ih =>
    intro s t hi h
    simp only [Sys.run] at h
    split at h
    · cases h
    · rename_i s1 hs1
      exact ih (range_step b hi e hs1) h

end Sys

/-- C7, the range of the write and read cursors.  With `wrapThreshold = W > 0`,
in every state reachable from the initial state by writes of any length (each
taken once the previous one has returned), reads and releases,
`0 ≤ writeCursor < W` and `0 ≤ readCursor < W`. -/
theorem fifo_cursor_range (S W : Int) (hW : 0 < W) (s : Sys)
    (hr : Sys.ReachableAnyLength S W s) :
    (0 ≤ s.fifo.mWrite ∧ s.fifo.mWrite < W) ∧ (0 ≤ s.fifo.mRead ∧ s.fifo.mRead < W) := by
  obtain ⟨k, es, hrun⟩ := hr
  have hi := Sys.range_run false es (Fifo.Range.keep_init S W k hW) hrun
  exact ⟨⟨hi.w_nonneg, hi.w_lt⟩, hi.r_nonneg, hi.r_lt⟩

theorem fifo_cursor_range_witness :
    (0 ≤ Sys.afterLongRun.fifo.mWrite ∧ Sys.afterLongRun.fifo.mWrite < 10) ∧
      (0 ≤ Sys.afterLongRun.fifo.mRead ∧ Sys.afterLongRun.fifo.mRead < 10) :=
  fifo_cursor_range 4 10 (by decide) Sys.afterLongRun ⟨0, Sys.longRun, by decide⟩

/-- C8 as stated fails: with `singleBufferSize = 4` and `bufferSize = 10`, after
three writes of four bytes a `read()` sets `readCommitCursor` to
`raggedEnd = 12`, which is not below `wrapThreshold = 10`; this is the state
between that read and the release that follows it. -/
theorem fifo_commit_range_counterexample :
    Sys.run true (Sys.init 4 10 0) (Sys.wrapRun ++ [.read 1]) = some Sys.afterWrapRead ∧
      ¬ (Sys.afterWrapRead.fifo.mReadCommit < Sys.afterWrapRead.fifo.mWrapThreshold) := by
  decide

/-- C8, amended.  With `wrapThreshold = W > 0` and `singleBufferSize = S > 0`,
in every state reachable by writes of at most `S` bytes (each taken once the
previous one has returned), reads and releases:
`0 ≤ readCommitCursor < W + S`, and `readCommitCursor < W` unless
`readCommitCursor = raggedEnd` (the state between a read of a wrapped tail and
the release that follows it); right after a release `readCommitCursor < W`. -/
theorem fifo_commit_range (S W : Int) (hS : 0 < S) (hW : 0 < W) (s : Sys)
    (hr : Sys.Reachable S W s) :
    0 ≤ s.fifo.mReadCommit ∧ s.fifo.mReadCommit < W + S ∧
      (s.fifo.mReadCommit < W ∨ s.fifo.mReadCommit = s.fifo.mRaggedEnd) ∧
      s.fifo.release.mReadCommit < W := by
  obtain ⟨hi, -⟩ := Sys.Reachable.inv hS hW hr
  have h2 := hi.hW
  have h3 := hi.w_nonneg
  have h4 := hi.w_lt
  have hrel : s.fifo.release.mReadCommit < W := by
    rcases Fifo.release_cursor s.fifo with ⟨_, _, hc, _⟩ | ⟨_, _, hc, _⟩ <;> omega
  by_cases h0 : s.fifo.mRaggedEnd = 0
  · have := hi.flat h0
    exact ⟨by omega, by omega, Or.inl (by omega), hrel⟩
  · have := hi.wrapped h0
    exact ⟨by omega, by omega, by omega, hrel⟩

theorem fifo_commit_range_witness :
    0 ≤ Sys.afterWrapRead.fifo.mReadCommit ∧ Sys.afterWrapRead.fifo.mReadCommit < 10 + 4 ∧
      (Sys.afterWrapRead.fifo.mReadCommit < 10 ∨
        Sys.afterWrapRead.fifo.mReadCommit = Sys.afterWrapRead.fifo.mRaggedEnd) ∧
      Sys.afterWrapRead.fifo.release.mReadCommit < 10 :=
  fifo_commit_range 4 10 (by decide) (by decide) Sys.afterWrapRead
    ⟨0, Sys.wrapRun ++ [.read 1], by decide⟩

/-- C9, the postcondition of `release`.  For every state, `release()` sets
`readCursor` to `readCommitCursor`; if that value is at least `wrapThreshold`
it then sets `raggedEnd`, `readCursor` and `readCommitCursor` to 0, otherwise
`raggedEnd` and `readCommitCursor` are unchanged; `writeCursor`, the ended flag,
the sizes and the reader semaphore are unchanged, and the space-available
semaphore is posted exactly once. -/
theorem fifo_release_post (f : Fifo) :
    f.release.mRead = (if f.mReadCommit ≥ f.mWrapThreshold then 0 else f.mReadCommit) ∧
      f.release.mReadCommit =
        (if f.mReadCommit ≥ f.mWrapThreshold then 0 else f.mReadCommit) ∧
      f.release.mRaggedEnd =
        (if f.mReadCommit ≥ f.mWrapThreshold then 0 else f.mRaggedEnd) ∧
      f.release.mWrite = f.mWrite ∧ f.release.mEnd = f.mEnd ∧
      f.release.mWaitForSpaceSem = f.mWaitForSpaceSem + 1 ∧
      f.release.mReaderSem = f.mReaderSem ∧
      f.release.mSingleBufferSize = f.mSingleBufferSize ∧
      f.release.mWrapThreshold = f.mWrapThreshold := by
  unfold Fifo.release
  by_cases h : f.mReadCommit ≥ f.mWrapThreshold <;> simp [h]

/-- C10 at a failing input: `isFull` against the meaning the code gives it.
The comments of `Fifo.cpp` say that full means that fewer than
`singleBufferSize` bytes are
available contiguously, and that `write` stalls until that many are.  In the
state `Sys.afterRaggedRun`, reached on a buffer with
`singleBufferSize = 4 < bufferSize = 10` by a write of four bytes, a read, a
release and two more writes of four bytes, the four bytes at the write cursor
are inside the arena and hold no unread data, yet `isFull()` is true and the
last write is stalled. -/
theorem fifo_isFull_full_with_space :
    Sys.run true (Sys.init 4 10 0) Sys.raggedRun = some Sys.afterRaggedRun ∧
      Sys.afterRaggedRun.fifo.isFull = true ∧
      (∀ i : Int, Sys.afterRaggedRun.fifo.mWrite ≤ i →
        i < Sys.afterRaggedRun.fifo.mWrite + Sys.afterRaggedRun.fifo.mSingleBufferSize →
        (0 ≤ i ∧ i < Sys.afterRaggedRun.fifo.arenaSize) ∧
          ¬ Sys.afterRaggedRun.fifo.unread i) ∧
      Sys.afterRaggedRun.writerWaiting = true := by
  refine ⟨by decide, by decide, ?_, rfl⟩
  intro i h1 h2
  simp only [Sys.afterRaggedRun, Fifo.arenaSize, Fifo.unread] at h1 h2 ⊢
  refine ⟨by omega, ?_⟩
  simp only [show ¬ ((12 : Int) = 0) by decide, if_false]
  omega

/-- What `isFull` tests.  In every reachable state of a buffer with
`0 < singleBufferSize = S < wrapThreshold = W`, `isFull()` is false exactly when
`raggedEnd = 0`, or `raggedEnd ≠ 0` and
`writeCursor + S + (raggedEnd - W) < readCursor`.  So whenever it is false the
`S` bytes at the write cursor are free of unread data (and it is true whenever
fewer than `S` are free), but it is also true in states in which `S` or more
bytes are free. -/
theorem fifo_isFull_characterisation (S W : Int) (hS : 0 < S) (hSW : S < W) (s : Sys)
    (hr : Sys.Reachable S W s) :
    (s.fifo.isFull = false ↔
        (s.fifo.mRaggedEnd = 0 ∨
          (s.fifo.mRaggedEnd ≠ 0 ∧
            s.fifo.mWrite + S + (s.fifo.mRaggedEnd - W) < s.fifo.mRead))) ∧
      (s.fifo.isFull = false →
        (s.fifo.mRaggedEnd = 0 ∧ s.fifo.mRead ≤ s.fifo.mWrite) ∨
          (s.fifo.mRaggedEnd ≠ 0 ∧ s.fifo.mWrite + S ≤ s.fifo.mRead)) := by
  obtain ⟨hi, -⟩ := Sys.Reachable.inv hS (by omega) hr
  have h1 := hi.hS
  have h2 := hi.hW
  have h3 := hi.w_nonneg
  have h4 := hi.w_lt
  constructor
  · rw [Fifo.isFull_eq_false_iff]
    unfold Fifo.numBytesFilled
    by_cases h0 : s.fifo.mRaggedEnd = 0
    · have := hi.flat h0
      constructor
      · intro _; exact Or.inl h0
      · intro _
        by_cases hwr : s.fifo.mRead < s.fifo.mWrite
        · left; exact ⟨hwr, by omega⟩
        · right; exact ⟨by omega, by omega⟩
    · have := hi.wrapped h0
      constructor
      · rintro (⟨ha, hb⟩ | ⟨ha, hb⟩)
        · omega
        · right; exact ⟨h0, by omega⟩
      · rintro (h | ⟨_, h⟩)
        · exact absurd h h0
        · right; exact ⟨by omega, by omega⟩
  · intro hnf
    have hfree := hi.free_of_notFull hnf
    unfold Fifo.spaceFree at hfree
    rw [h1] at hfree
    exact hfree

theorem fifo_isFull_characterisation_witness :
    (Sys.afterRaggedRun.fifo.isFull = false ↔
        (Sys.afterRaggedRun.fifo.mRaggedEnd = 0 ∨
          (Sys.afterRaggedRun.fifo.mRaggedEnd ≠ 0 ∧
            Sys.afterRaggedRun.fifo.mWrite + 4 + (Sys.afterRaggedRun.fifo.mRaggedEnd - 10) <
              Sys.afterRaggedRun.fifo.mRead))) ∧
      (Sys.afterRaggedRun.fifo.isFull = false →
        (Sys.afterRaggedRun.fifo.mRaggedEnd = 0 ∧
            Sys.afterRaggedRun.fifo.mRead ≤ Sys.afterRaggedRun.fifo.mWrite) ∨
          (Sys.afterRaggedRun.fifo.mRaggedEnd ≠ 0 ∧
            Sys.afterRaggedRun.fifo.mWrite + 4 ≤ Sys.afterRaggedRun.fifo.mRead)) :=
  fifo_isFull_characterisation 4 10 (by decide) (by decide) Sys.afterRaggedRun
    ⟨0, Sys.raggedRun, by decide⟩

/-! ## Barrier -/

namespace Barrier

theorem Inv.at_init (n : Nat) (h1 : 1 ≤ n) (h2 : n < uintSize) : (Barrier.new.init n).Inv n 0 := by
  refine ⟨Nat.zero_le _, ?_, ?_, fun _ => rfl, rfl⟩
  · show n % uintSize = n - 0
    rw [Nat.mod_eq_of_lt h2]; rfl
  · show (0 : Nat) = if 0 = n then 1 else 0
    have : ¬ (0 = n) := by omega
    simp [this]

theorem Inv.enter {n k : Nat} {b : Barrier} (hi : b.Inv n k) (h2 : n < uintSize)
    (hk : k < n) : b.waitEnter.Inv n (k + 1) := by
  obtain ⟨h1, hc, hb, he, ht⟩ := hi
  have hne : ¬ (k = n) := by omega
  rw [if_neg hne] at hb
  have he0 := he hk
  have hdec : (b.mCount + uintSize - 1) % uintSize = n - (k + 1) := by
    have : b.mCount + uintSize - 1 = (n - (k + 1)) + uintSize := by omega
    rw [this, Nat.add_mod_right]
    exact Nat.mod_eq_of_lt (by omega)
  unfold waitEnter
  simp only [hdec]
  by_cases hlast : n - (k + 1) = 0
  · have hkn : k + 1 = n := by omega
    simp only [hlast, beq_self_eq_true, if_true]
    refine ⟨by omega, ?_, ?_, ?_, ?_⟩
    · show (0 : Nat) = n - (k + 1)
      omega
    · show b.broadcasts + 1 = if k + 1 = n then 1 else 0
      simp [hkn, hb]
    · intro h; omega
    · show b.waiting + (b.released + 1) = k + 1
      omega
  · have hkn : ¬ (k + 1 = n) := by omega
    have hbeq : ((n - (k + 1)) == 0) = false := by simpa using hlast
    simp only [hbeq, Bool.false_eq_true, if_false]
    refine ⟨by omega, rfl, ?_, ?_, ?_⟩
    · show b.broadcasts = if k + 1 = n then 1 else 0
      simp [hkn, hb]
    · intro _; exact he0
    · show b.waiting + 1 + b.released = k + 1
      omega

theorem Inv.wake {n k : Nat} {b c : Barrier} (hi : b.Inv n k) (h : b.waitWake = some c) :
    c.Inv n k := by
  obtain ⟨h1, hc, hb, he, ht⟩ := hi
  unfold waitWake at h
  split_ifs at h with hw hz
  · cases h
    have hkn : k = n := by omega
    refine ⟨h1, hc, hb, fun hlt => by omega, ?_⟩
    show b.waiting - 1 + (b.released + 1) = k
    omega
  · cases h
    exact ⟨h1, hc, hb, he, ht⟩

theorem Inv.run_keeps {n : Nat} (h2 : n < uintSize) (es : List BarrierEvent) :
    ∀ {k : Nat} {b c : Barrier}, b.Inv n k → k + arrivals es ≤ n → b.run es = some c →
      c.Inv n (k + arrivals es) := by
  induction es with
  | nil => intro k b c hi _ h; simp only [run] at h; cases h; exact hi
  | cons e es ih =>
    intro k b c hi hk h
    simp only [run] at h
    split at h
    · cases h
    · rename_i b1 hb1
      cases e with
      | enter =>
        have hb2 : b.waitEnter = b1 := by simpa only [step, Option.some.injEq] using hb1
        subst hb2
        simp only [arrivals] at hk ⊢
        have := ih (hi.enter h2 (by omega)) (by omega) h
        have e1 : k + (arrivals es + 1) = k + 1 + arrivals es := by omega
        rw [e1]; exact this
      | wake =>
        simp only [step] at hb1
        simp only [arrivals] at hk ⊢
        exact ih (hi.wake hb1) hk h

theorem run_wakes (m : Nat) :
    ∀ b : Barrier, b.mCount = 0 → m ≤ b.waiting →
      b.run (List.replicate m .wake) =
        some { b with waiting := b.waiting - m, released := b.released + m } := by
  induction m with
  | zero => intro b _ _; rfl
  | succ m ih =>
    intro b h0 hm
    have hw : ¬ (b.waiting = 0) := by omega
    have hz : b.mCount ≤ 0 := by omega
    have hnext := ih { b with waiting := b.waiting - 1, released := b.released + 1 } h0
      (by show m ≤ b.waiting - 1; omega)
    simp only [List.replicate, run, step, waitWake, hw, hz, if_true, if_false]
    rw [hnext]
    have e1 : b.waiting - 1 - m = b.waiting - (m + 1) := by omega
    have e2 : b.released + 1 + m = b.released + (m + 1) := by omega
    simp only [e1, e2]

end Barrier

/-- C11, barrier release exactness.  For every `n ≥ 1` (an `unsigned int`),
after `init(n)` and any interleaving of calls of `wait()` and wake-ups of
blocked callers in which `k ≤ n` calls have been made: the count is `n - k`;
the release has been broadcast exactly once if `k = n` and never if `k < n`; no
call has returned while `k < n`; every caller is either blocked or released; and
once `k = n`, waking the blocked callers releases all of them. -/
theorem barrier_release_exactness (n : Nat) (h1 : 1 ≤ n) (h2 : n < Barrier.uintSize)
    (es : List BarrierEvent) (b : Barrier)
    (hk : Barrier.arrivals es ≤ n)
    (hrun : (Barrier.new.init n).run es = some b) :
    b.mCount = n - Barrier.arrivals es ∧
      b.broadcasts = (if Barrier.arrivals es = n then 1 else 0) ∧
      (Barrier.arrivals es < n → b.released = 0) ∧
      b.waiting + b.released = Barrier.arrivals es ∧
      (Barrier.arrivals es = n →
        b.run (List.replicate b.waiting .wake) =
          some { b with waiting := 0, released := n }) := by
  have hi := Barrier.Inv.run_keeps h2 es (Barrier.Inv.at_init n h1 h2) (by omega) hrun
  rw [Nat.zero_add] at hi
  obtain ⟨_, hc, hb, he, ht⟩ := hi
  refine ⟨hc, hb, he, ht, ?_⟩
  intro hkn
  rw [Barrier.run_wakes b.waiting b (by omega) (le_refl _)]
  congr 2
  · omega
  · omega

theorem barrier_release_exactness_witness :
    (⟨0, 1, 1, 1⟩ : Barrier).mCount = 2 - Barrier.arrivals [.enter, .wake, .enter] ∧
      (⟨0, 1, 1, 1⟩ : Barrier).broadcasts =
        (if Barrier.arrivals [.enter, .wake, .enter] = 2 then 1 else 0) ∧
      (Barrier.arrivals [.enter, .wake, .enter] < 2 → (⟨0, 1, 1, 1⟩ : Barrier).released = 0) ∧
      (⟨0, 1, 1, 1⟩ : Barrier).waiting + (⟨0, 1, 1, 1⟩ : Barrier).released =
        Barrier.arrivals [.enter, .wake, .enter] ∧
      (Barrier.arrivals [.enter, .wake, .enter] = 2 →
        (⟨0, 1, 1, 1⟩ : Barrier).run (List.replicate (⟨0, 1, 1, 1⟩ : Barrier).waiting .wake) =
          some { (⟨0, 1, 1, 1⟩ : Barrier) with waiting := 0, released := 2 }) :=
  barrier_release_exactness 2 (by decide) (by decide) [.enter, .wake, .enter] ⟨0, 1, 1, 1⟩
    (by decide) (by decide)

/-! ## Configuration -/

namespace ConfigurationXML

theorem associate_ok (ds : List Driver) :
    ∀ c c1 : Counter, associate ds c = .ok c1 →
      c1 = { c with mDriver := c1.mDriver } ∧
        (∀ d ∈ ds, claims d c = true →
          c1.mDriver = some d.id ∧ ∀ i, c.mDriver = some i → i = d.id) ∧
        ((∀ d ∈ ds, claims d c = false) → c1.mDriver = c.mDriver) := by
  induction ds with
  | nil =>
    intro c c1 h
    simp only [associate, Except.ok.injEq] at h
    subst h
    exact ⟨rfl, fun d hd => absurd hd (List.not_mem_nil d), fun _ => rfl⟩
  | cons d ds ih =>
    intro c c1 h
    simp only [associate] at h
    by_cases hc : claims d c = true
    · simp only [hc, if_true] at h
      split_ifs at h with hconf
      obtain ⟨e1, e2, e3⟩ := ih _ c1 h
      have hsame : ∀ d2, claims d2 { c with mDriver := some d.id } = claims d2 c := fun _ => rfl
      have hdrv : c1.mDriver = some d.id := by
        by_cases hex : ∃ d2 ∈ ds, claims d2 c = true
        · obtain ⟨d2, hd2, hcl⟩ := hex
          obtain ⟨f1, f2⟩ := e2 d2 hd2 (by rw [hsame]; exact hcl)
          rw [f1, f2 d.id rfl]
        · have hnone : ∀ d2 ∈ ds, claims d2 { c with mDriver := some d.id } = false := by
            intro d2 hd2
            rw [hsame]
            by_contra hne
            exact hex ⟨d2, hd2, by simpa using hne⟩
          exact e3 hnone
      refine ⟨?_, ?_, ?_⟩
      · rw [e1]
      · intro d2 hd2 hcl
        have hinit : ∀ i, c.mDriver = some i → i = d.id := by
          intro i hi
          by_contra hne
          exact hconf ⟨by rw [hi]; exact Option.some_ne_none i, by
            rw [hi]; intro h2; exact hne (Option.some.inj h2)⟩
        rcases List.mem_cons.mp hd2 with rfl | hmem
        · exact ⟨hdrv, hinit⟩
        · obtain ⟨f1, f2⟩ := e2 d2 hmem (by rw [hsame]; exact hcl)
          have hid : d.id = d2.id := f2 d.id rfl
          exact ⟨f1, fun i hi => by rw [← hid]; exact hinit i hi⟩
      · intro hnone
        have := hnone d (List.mem_cons_self d ds)
        rw [hc] at this
        cases this
    · have hc2 : claims d c = false := by simpa using hc
      simp only [hc2, Bool.false_eq_true, if_false] at h
      obtain ⟨e1, e2, e3⟩ := ih c c1 h
      refine ⟨e1, ?_, ?_⟩
      · intro d2 hd2 hcl
        rcases List.mem_cons.mp hd2 with rfl | hmem
        · rw [hc2] at hcl; cases hcl
        · exact e2 d2 hmem hcl
      · intro hnone
        exact e3 fun d2 hd2 => hnone d2 (List.mem_cons_of_mem d hd2)

theorem associate_error (ds : List Driver) :
    ∀ (c : Counter) (msg : String), associate ds c = .error msg →
      ∃ d1 ∈ ds, claims d1 c = true ∧
        ((∃ i, c.mDriver = some i ∧ i ≠ d1.id) ∨
          ∃ d2 ∈ ds, claims d2 c = true ∧ d2.id ≠ d1.id) := by
  induction ds with
  | nil => intro c msg h; simp [associate] at h
  | cons d ds ih =>
    intro c msg h
    simp only [associate] at h
    by_cases hc : claims d c = true
    · simp only [hc, if_true] at h
      split_ifs at h with hconf
      · obtain ⟨h1, h2⟩ := hconf
        cases hdrv : c.mDriver with
        | none => exact absurd hdrv h1
        | some i =>
          refine ⟨d, List.mem_cons_self d ds, hc, Or.inl ⟨i, rfl, ?_⟩⟩
          intro hid
          exact h2 (by rw [hdrv, hid])
      · obtain ⟨d1, hd1, hcl1, hrest⟩ := ih _ msg h
        have hcl1' : claims d1 c = true := hcl1
        rcases hrest with ⟨i, hi, hne⟩ | ⟨d2, hd2, hcl2, hne⟩
        · have hi' : some d.id = some i := hi
          have : i = d.id := (Option.some.inj hi').symm
          exact ⟨d1, List.mem_cons_of_mem d hd1, hcl1', Or.inr
            ⟨d, List.mem_cons_self d ds, hc, by rw [← this]; exact hne⟩⟩
        · exact ⟨d1, List.mem_cons_of_mem d hd1, hcl1', Or.inr
            ⟨d2, List.mem_cons_of_mem d hd2, hcl2, hne⟩⟩
    · have hc2 : claims d c = false := by simpa using hc
      simp only [hc2, Bool.false_eq_true, if_false] at h
      obtain ⟨d1, hd1, hcl1, hrest⟩ := ih c msg h
      refine ⟨d1, List.mem_cons_of_mem d hd1, hcl1, ?_⟩
      rcases hrest with hleft | ⟨d2, hd2, hcl2, hne⟩
      · exact Or.inl hleft
      · exact Or.inr ⟨d2, List.mem_cons_of_mem d hd2, hcl2, hne⟩

theorem setupCounter_fresh (counterName : String) (event : Option Nat) (count cores : Int)
    (m : List (String × Option Nat)) :
    (setupCounter counterName event count cores m).mDriver = none ∧
      (setupCounter counterName event count cores m).mEnabled = true := by
  unfold setupCounter
  constructor
  · split
    · split <;> rfl
    · split <;> rfl
  · rfl

end ConfigurationXML

/-- C20, the counter claim conflict.  For every counter and every list of
drivers, `addCounter` ends in `handleException()` if and only if two drivers of
the list with different identities claim the counter; otherwise it returns
`true` exactly when some driver claims it, and then the counter is enabled and
associated with that driver, and it returns `false` when no driver claims it,
and then the counter is disabled and has no driver. -/
theorem addCounter_claim_conflict (counterName : String) (event : Option Nat)
    (count cores : Int) (drivers : List Driver) (m : List (String × Option Nat)) :
    ((∃ msg, ConfigurationXML.addCounter counterName event count cores drivers m = .error msg) ↔
        ∃ d1 ∈ drivers, ∃ d2 ∈ drivers, d1.id ≠ d2.id ∧
          ConfigurationXML.claims d1
            (ConfigurationXML.setupCounter counterName event count cores m) = true ∧
          ConfigurationXML.claims d2
            (ConfigurationXML.setupCounter counterName event count cores m) = true) ∧
      (∀ r, ConfigurationXML.addCounter counterName event count cores drivers m = .ok r →
        r.1 = r.2.mEnabled ∧
          (r.1 = true ↔ ∃ d ∈ drivers, ConfigurationXML.claims d
            (ConfigurationXML.setupCounter counterName event count cores m) = true) ∧
          (∀ d ∈ drivers, ConfigurationXML.claims d
              (ConfigurationXML.setupCounter counterName event count cores m) = true →
            r.2.mDriver = some d.id) ∧
          ((∀ d ∈ drivers, ConfigurationXML.claims d
              (ConfigurationXML.setupCounter counterName event count cores m) = false) →
            r.2.mDriver = none)) := by
  obtain ⟨hfresh, hen⟩ := ConfigurationXML.setupCounter_fresh counterName event count cores m
  unfold ConfigurationXML.addCounter
  generalize ConfigurationXML.setupCounter counterName event count cores m = c0 at hfresh hen ⊢
  cases hres : ConfigurationXML.associate drivers c0 with
  | error msg =>
    refine ⟨⟨fun _ => ?_, fun _ => ⟨msg, rfl⟩⟩, fun r h => (by cases h)⟩
    obtain ⟨d1, hd1, hcl1, hrest⟩ := ConfigurationXML.associate_error drivers c0 msg hres
    rcases hrest with ⟨i, hi, _⟩ | ⟨d2, hd2, hcl2, hne⟩
    · rw [hfresh] at hi; cases hi
    · exact ⟨d1, hd1, d2, hd2, fun h => hne h.symm, hcl1, hcl2⟩
  | ok c1 =>
    obtain ⟨e1, e2, e3⟩ := ConfigurationXML.associate_ok drivers c0 c1 hres
    have hen1 : c1.mEnabled = true := by rw [e1]; exact hen
    refine ⟨⟨fun h => ?_, fun h => ?_⟩, fun r h => ?_⟩
    · obtain ⟨msg, hmsg⟩ := h
      cases hmsg
    · obtain ⟨d1, hd1, d2, hd2, hne, hcl1, hcl2⟩ := h
      have h1 := (e2 d1 hd1 hcl1).1
      have h2 := (e2 d2 hd2 hcl2).1
      rw [h1] at h2
      exact absurd (Option.some.inj h2) hne
    · simp only [Except.ok.injEq] at h
      subst h
      by_cases hex : ∃ d ∈ drivers, ConfigurationXML.claims d c0 = true
      · obtain ⟨d, hd, hcl⟩ := hex
        have hdrv := (e2 d hd hcl).1
        have hkeep : ConfigurationXML.disableUnclaimed c1 = c1 := by
          unfold ConfigurationXML.disableUnclaimed
          rw [hdrv]; simp
        rw [hkeep]
        refine ⟨rfl, ⟨fun _ => ⟨d, hd, hcl⟩, fun _ => hen1⟩, fun d2 hd2 hcl2 => (e2 d2 hd2 hcl2).1,
          fun hnone => ?_⟩
        have := hnone d hd
        rw [hcl] at this
        cases this
      · have hnone : ∀ d ∈ drivers, ConfigurationXML.claims d c0 = false := by
          intro d hd
          by_contra hne
          exact hex ⟨d, hd, by simpa using hne⟩
        have hdrv : c1.mDriver = none := by rw [e3 hnone]; exact hfresh
        have hdis : ConfigurationXML.disableUnclaimed c1 = { c1 with mEnabled := false } := by
          unfold ConfigurationXML.disableUnclaimed
          rw [hdrv]; simp
        rw [hdis]
        refine ⟨rfl, ⟨fun h => (by cases h), fun h => absurd h hex⟩, fun d hd hcl => ?_,
          fun _ => hdrv⟩
        have := hnone d hd
        rw [hcl] at this
        cases this

/-! ## Ftrace: `readEvents` -/

namespace FtraceDriver

theorem registerEvents_ok (env : HostEnv) (tc : TraceFsConstants) (xml : List XmlEvent) :
    ∀ d : FtraceDriver, (∀ ev ∈ xml, missingRegex ev = false) →
      registerEvents env tc xml d =
        .ok { d with counters :=
          ((xml.filter (registersEvent env tc d.mUseForTracepoints)).map counterOf).reverse ++
            d.counters } := by
  induction xml with
  | nil => intro d _; simp [registerEvents]
  | cons ev evs ih =>
    intro d h
    have hev := h ev (List.mem_cons_self ev evs)
    have hrest : ∀ e ∈ evs, missingRegex e = false := fun e he => h e (List.mem_cons_of_mem ev he)
    obtain ⟨counter, regex, tracepoint, enable⟩ := ev
    cases counter with
    | none => simp [registerEvents, registersEvent, ih d hrest]
    | some counter =>
      by_cases hf : isFtraceCounter counter = true
      · cases regex with
        | none => simp [missingRegex, hf] at hev
        | some regex =>
          by_cases hu : (!d.mUseForTracepoints && tracepoint.isSome) = true
          · have hu2 : (d.mUseForTracepoints || tracepoint.isNone) = false := by
              cases hd : d.mUseForTracepoints <;> cases tracepoint <;> simp_all
            simp [registerEvents, registersEvent, hf, hu, hu2, ih d hrest]
          · have hu1 : (!d.mUseForTracepoints && tracepoint.isSome) = false := by simpa using hu
            have hu2 : (d.mUseForTracepoints || tracepoint.isNone) = true := by
              cases hd : d.mUseForTracepoints <;> cases tracepoint <;> simp_all
            cases hen : enableOf ⟨some counter, some regex, tracepoint, enable⟩ with
            | none =>
              simp only [registerEvents, hf, hu1, hen, Bool.not_true, Bool.false_eq_true,
                if_false]
              rw [ih _ hrest]
              simp [registersEvent, hf, hu2, hen, counterOf]
            | some e =>
              by_cases hw : env.writable (enablePath tc e) = true
              · simp only [registerEvents, hf, hu1, hen, hw, Bool.not_true, Bool.false_eq_true,
                  if_false]
                rw [ih _ hrest]
                simp [registersEvent, hf, hu2, hen, hw, counterOf]
              · have hw2 : env.writable (enablePath tc e) = false := by simpa using hw
                simp only [registerEvents, hf, hu1, hen, hw2, Bool.not_true, Bool.not_false,
                  Bool.false_eq_true, if_false, if_true]
                rw [ih _ hrest]
                simp [registersEvent, hf, hu2, hen, hw2]
      · have hf2 : isFtraceCounter counter = false := by simpa using hf
        simp [registerEvents, registersEvent, hf2, ih d hrest]

theorem registerEvents_error (env : HostEnv) (tc : TraceFsConstants) (xml : List XmlEvent) :
    ∀ d : FtraceDriver, (∃ ev ∈ xml, missingRegex ev = true) →
      ∃ msg, registerEvents env tc xml d = .error msg := by
  induction xml with
  | nil => intro d h; obtain ⟨ev, hev, _⟩ := h; exact absurd hev (List.not_mem_nil ev)
  | cons ev evs ih =>
    intro d h
    by_cases hm : missingRegex ev = true
    · obtain ⟨counter, regex, tracepoint, enable⟩ := ev
      cases counter with
      | none => simp [missingRegex] at hm
      | some counter =>
        cases regex with
        | none =>
          have hf : isFtraceCounter counter = true := by simpa [missingRegex] using hm
          refine ⟨"The regex counter is missing the required regex attribute", ?_⟩
          simp [registerEvents, hf]
        | some regex => simp [missingRegex] at hm
    · have hrest : ∃ e ∈ evs, missingRegex e = true := by
        obtain ⟨e, he, hme⟩ := h
        rcases List.mem_cons.mp he with rfl | hmem
        · exact absurd hme hm
        · exact ⟨e, hmem, hme⟩
      simp only [registerEvents]
      split
      · exact ih d hrest
      · split
        · exact ih d hrest
        · split
          · exact ⟨_, rfl⟩
          · split
            · exact ih d hrest
            · split
              · split
                · exact ih _ hrest
                · exact ih _ hrest
              · exact ih _ hrest

theorem readEvents_supported (env : HostEnv) (tc : TraceFsConstants) (d : FtraceDriver)
    (xml : List XmlEvent) (hu : env.unameOk = true)
    (hv : KERNEL_VERSION 3 10 0 ≤ env.kernelVersion) (hr : env.traceDirReadable = true)
    (he : env.euid = 0) :
    readEvents env tc d xml =
      registerEvents env tc xml
        { d with
          mMonotonicRawSupport := decide (env.kernelVersion ≥ KERNEL_VERSION 4 2 0),
          mSupported := true } := by
  have hv2 : ¬ (env.kernelVersion < KERNEL_VERSION 3 10 0) := by omega
  simp [readEvents, hu, hv2, hr, he]

theorem registerEvents_frame (env : HostEnv) (tc : TraceFsConstants) (xml : List XmlEvent) :
    ∀ d r : FtraceDriver, registerEvents env tc xml d = .ok r →
      r.mSupported = d.mSupported ∧ r.mMonotonicRawSupport = d.mMonotonicRawSupport := by
  induction xml with
  | nil => intro d r h; simp only [registerEvents, Except.ok.injEq] at h; subst h; exact ⟨rfl, rfl⟩
  | cons ev evs ih =>
    intro d r h
    simp only [registerEvents] at h
    split at h
    · exact ih d r h
    · split at h
      · exact ih d r h
      · split at h
        · cases h
        · split at h
          · exact ih d r h
          · split at h
            · split at h
              · (have h2 := ih _ r h; exact h2)
              · (have h2 := ih _ r h; exact h2)
            · (have h2 := ih _ r h; exact h2)

end FtraceDriver

/-- C12, capability gating.  When `uname` succeeds and the driver is as
constructed: if the parsed kernel version is below `KERNEL_VERSION(3,10,0)`, or
the trace directory is not readable, or the effective uid is not 0, then
`readEvents` returns normally with `mSupported = false` and no counter
registered; and whenever `readEvents` returns, `mSupported` is true if and only
if all three conditions hold, and `mMonotonicRawSupport` is true if and only if
the version is at least `KERNEL_VERSION(4,2,0)` and passed the version check. -/
theorem readEvents_capability_gating (env : HostEnv) (tc : TraceFsConstants)
    (useForTracepoints : Bool) (cores : Nat) (xml : List XmlEvent)
    (hu : env.unameOk = true) :
    ((env.kernelVersion < KERNEL_VERSION 3 10 0 ∨ env.traceDirReadable = false ∨
          env.euid ≠ 0) →
        ∃ r, FtraceDriver.readEvents env tc (FtraceDriver.new useForTracepoints cores) xml =
            .ok r ∧ r.mSupported = false ∧ r.counters = []) ∧
      (∀ r, FtraceDriver.readEvents env tc (FtraceDriver.new useForTracepoints cores) xml =
          .ok r →
        (r.mSupported = true ↔
            (KERNEL_VERSION 3 10 0 ≤ env.kernelVersion ∧ env.traceDirReadable = true ∧
              env.euid = 0)) ∧
          (r.mMonotonicRawSupport = true ↔
            (KERNEL_VERSION 4 2 0 ≤ env.kernelVersion ∧
              KERNEL_VERSION 3 10 0 ≤ env.kernelVersion))) := by
  by_cases hv : env.kernelVersion < KERNEL_VERSION 3 10 0
  · have hres : FtraceDriver.readEvents env tc (FtraceDriver.new useForTracepoints cores) xml =
        .ok { FtraceDriver.new useForTracepoints cores with mSupported := false } := by
      simp [FtraceDriver.readEvents, hu, hv]
    refine ⟨fun _ => ⟨_, hres, rfl, rfl⟩, fun r h => ?_⟩
    rw [hres] at h
    simp only [Except.ok.injEq] at h
    subst h
    refine ⟨⟨fun h => (by cases h), fun h => (by omega)⟩, ⟨fun h => (by cases h), fun h => (by omega)⟩⟩
  · by_cases hr : env.traceDirReadable = true
    · by_cases he : env.euid = 0
      · have hres := FtraceDriver.readEvents_supported env tc
          (FtraceDriver.new useForTracepoints cores) xml hu (by omega) hr he
        refine ⟨fun h => ?_, fun r h => ?_⟩
        · rcases h with h | h | h
          · exact absurd h hv
          · rw [hr] at h; cases h
          · exact absurd he h
        · rw [hres] at h
          obtain ⟨f1, f2⟩ := FtraceDriver.registerEvents_frame env tc xml _ r h
          refine ⟨⟨fun _ => ⟨by omega, hr, he⟩, fun _ => f1⟩, ?_⟩
          rw [f2]
          show decide (env.kernelVersion ≥ KERNEL_VERSION 4 2 0) = true ↔ _
          simp only [decide_eq_true_eq]
          constructor
          · intro h4; exact ⟨h4, by omega⟩
          · intro h4; exact h4.1
      · have hres : FtraceDriver.readEvents env tc (FtraceDriver.new useForTracepoints cores)
            xml = .ok { FtraceDriver.new useForTracepoints cores with
              mMonotonicRawSupport := decide (env.kernelVersion ≥ KERNEL_VERSION 4 2 0),
              mSupported := false } := by
          simp [FtraceDriver.readEvents, hu, hv, hr, he]
        refine ⟨fun _ => ⟨_, hres, rfl, rfl⟩, fun r h => ?_⟩
        rw [hres] at h
        simp only [Except.ok.injEq] at h
        subst h
        refine ⟨⟨fun h => (by cases h), fun h => absurd h.2.2 he⟩, ?_⟩
        show decide (env.kernelVersion ≥ KERNEL_VERSION 4 2 0) = true ↔ _
        simp only [decide_eq_true_eq]
        constructor
        · intro h4; exact ⟨h4, by omega⟩
        · intro h4; exact h4.1
    · have hr2 : env.traceDirReadable = false := by simpa using hr
      have hres : FtraceDriver.readEvents env tc (FtraceDriver.new useForTracepoints cores)
          xml = .ok { FtraceDriver.new useForTracepoints cores with
            mMonotonicRawSupport := decide (env.kernelVersion ≥ KERNEL_VERSION 4 2 0),
            mSupported := false } := by
        simp [FtraceDriver.readEvents, hu, hv, hr2]
      refine ⟨fun _ => ⟨_, hres, rfl, rfl⟩, fun r h => ?_⟩
      rw [hres] at h
      simp only [Except.ok.injEq] at h
      subst h
      refine ⟨⟨fun h => (by cases h), fun h => absurd h.2.1 hr⟩, ?_⟩
      show decide (env.kernelVersion ≥ KERNEL_VERSION 4 2 0) = true ↔ _
      simp only [decide_eq_true_eq]
      constructor
      · intro h4; exact ⟨h4, by omega⟩
      · intro h4; exact h4.1

theorem readEvents_capability_gating_witness :
    ((FtraceDriver.sampleHost.kernelVersion < KERNEL_VERSION 3 10 0 ∨
          FtraceDriver.sampleHost.traceDirReadable = false ∨
          FtraceDriver.sampleHost.euid ≠ 0) →
        ∃ r, FtraceDriver.readEvents FtraceDriver.sampleHost FtraceDriver.samplePaths
            (FtraceDriver.new true 2) FtraceDriver.sampleEvents =
            .ok r ∧ r.mSupported = false ∧ r.counters = []) ∧
      (∀ r, FtraceDriver.readEvents FtraceDriver.sampleHost FtraceDriver.samplePaths
            (FtraceDriver.new true 2) FtraceDriver.sampleEvents = .ok r →
        (r.mSupported = true ↔
            (KERNEL_VERSION 3 10 0 ≤ FtraceDriver.sampleHost.kernelVersion ∧
              FtraceDriver.sampleHost.traceDirReadable = true ∧
              FtraceDriver.sampleHost.euid = 0)) ∧
          (r.mMonotonicRawSupport = true ↔
            (KERNEL_VERSION 4 2 0 ≤ FtraceDriver.sampleHost.kernelVersion ∧
              KERNEL_VERSION 3 10 0 ≤ FtraceDriver.sampleHost.kernelVersion))) :=
  readEvents_capability_gating FtraceDriver.sampleHost FtraceDriver.samplePaths true 2
    FtraceDriver.sampleEvents (by decide)

/-- C19, tracepoint registration.  When the engine is supported (`uname`
succeeds, version at least `KERNEL_VERSION(3,10,0)`, readable trace directory,
uid 0) and the driver is as constructed: if no event is an `ftrace_` counter
without the regex attribute, `readEvents` returns normally and the counters it
has registered are exactly the events whose counter attribute starts with
`ftrace_`, for which ftrace is used for tracepoints or there is no tracepoint
attribute, and whose enable path (the enable attribute, or else the tracepoint
attribute) is absent or names a writable enable file, each with its name and
enable path, the last registered first; every other event is passed over
without error.  If some event is an `ftrace_` counter without the regex
attribute, `readEvents` ends in `handleException()`. -/
theorem readEvents_registration (env : HostEnv) (tc : TraceFsConstants)
    (useForTracepoints : Bool) (cores : Nat) (xml : List XmlEvent)
    (hu : env.unameOk = true) (hv : KERNEL_VERSION 3 10 0 ≤ env.kernelVersion)
    (hr : env.traceDirReadable = true) (he : env.euid = 0) :
    ((∀ ev ∈ xml, FtraceDriver.missingRegex ev = false) →
        ∃ r, FtraceDriver.readEvents env tc (FtraceDriver.new useForTracepoints cores) xml =
            .ok r ∧ r.mSupported = true ∧
          r.counters =
            ((xml.filter (FtraceDriver.registersEvent env tc useForTracepoints)).map
              FtraceDriver.counterOf).reverse) ∧
      ((∃ ev ∈ xml, FtraceDriver.missingRegex ev = true) →
        ∃ msg, FtraceDriver.readEvents env tc (FtraceDriver.new useForTracepoints cores) xml =
          .error msg) := by
  rw [FtraceDriver.readEvents_supported env tc _ xml hu hv hr he]
  refine ⟨fun h => ?_, fun h => FtraceDriver.registerEvents_error env tc xml _ h⟩
  rw [FtraceDriver.registerEvents_ok env tc xml _ h]
  refine ⟨_, rfl, rfl, ?_⟩
  show _ ++ [] = _
  rw [List.append_nil]
  rfl

theorem readEvents_registration_witness :
    ((∀ ev ∈ FtraceDriver.sampleEvents, FtraceDriver.missingRegex ev = false) →
        ∃ r, FtraceDriver.readEvents FtraceDriver.sampleHost FtraceDriver.samplePaths
            (FtraceDriver.new true 2) FtraceDriver.sampleEvents = .ok r ∧
          r.mSupported = true ∧
          r.counters =
            ((FtraceDriver.sampleEvents.filter
              (FtraceDriver.registersEvent FtraceDriver.sampleHost FtraceDriver.samplePaths
                true)).map FtraceDriver.counterOf).reverse) ∧
      ((∃ ev ∈ FtraceDriver.sampleEvents, FtraceDriver.missingRegex ev = true) →
        ∃ msg, FtraceDriver.readEvents FtraceDriver.sampleHost FtraceDriver.samplePaths
          (FtraceDriver.new true 2) FtraceDriver.sampleEvents = .error msg) :=
  readEvents_registration FtraceDriver.sampleHost FtraceDriver.samplePaths true 2
    FtraceDriver.sampleEvents (by decide) (by decide) (by decide) (by decide)

/-! ## Ftrace: `prepare`, `start` and `stop` -/

theorem strstr_isSome_iff (needle : List Char) :
    ∀ hay : List Char, (strstr hay needle).isSome = true ↔ needle <:+: hay := by
  intro hay
  induction hay with
  | nil =>
    cases needle with
    | nil => simp [strstr]
    | cons a l => simp [strstr]
  | cons c hay ih =>
    rw [List.infix_cons_iff]
    by_cases hp : needle.isPrefixOf (c :: hay) = true
    · simp only [strstr, hp, if_true, Option.isSome_some, true_iff]
      exact Or.inl (List.isPrefixOf_iff_prefix.mp hp)
    · have hp2 : needle.isPrefixOf (c :: hay) = false := Bool.eq_false_iff.mpr hp
      simp only [strstr, hp2, Bool.false_eq_true, if_false, Option.isSome_map']
      rw [ih]
      constructor
      · intro h; exact Or.inr h
      · rintro (h | h)
        · exact absurd (List.isPrefixOf_iff_prefix.mpr h) hp
        · exact h

namespace FtraceDriver

theorem mustSwitchClock_eq_false_iff (mono : Bool) (content : List Char) :
    mustSwitchClock mono content = false ↔
      (clockSelected mono).toList <:+: cString (content.take 199) := by
  unfold mustSwitchClock
  rw [← strstr_isSome_iff]
  cases strstr (cString (content.take 199)) (clockSelected mono).toList <;> simp

theorem disableAllEvents_frame (env : SessionEnv) (k k1 : Kernel)
    (h : disableAllEvents env k = .ok k1) :
    k1.enable = k.enable ∧ k1.tracingOn = k.tracingOn ∧ k1.traceClock = k.traceClock ∧
      k1.clockWrites = k.clockWrites := by
  unfold disableAllEvents at h
  split_ifs at h <;> simp only [Except.ok.injEq] at h <;> subst h <;> exact ⟨rfl, rfl, rfl, rfl⟩

theorem FtraceCounter_prepare_frame (tc : TraceFsConstants) (env : SessionEnv)
    (c c1 : FtraceCounter) (k k1 : Kernel) (h : c.prepare tc env k = .ok (c1, k1)) :
    k1.tracingOn = k.tracingOn ∧ k1.traceClock = k.traceClock ∧
      k1.clockWrites = k.clockWrites := by
  unfold FtraceCounter.prepare at h
  split at h
  · split_ifs at h
    simp only [Except.ok.injEq, Prod.mk.injEq] at h
    obtain ⟨-, rfl⟩ := h
    exact ⟨rfl, rfl, rfl⟩
  · split_ifs at h
    simp only [Except.ok.injEq, Prod.mk.injEq] at h
    obtain ⟨-, rfl⟩ := h
    exact ⟨rfl, rfl, rfl⟩

theorem prepareCounters_frame (tc : TraceFsConstants) (env : SessionEnv)
    (cs : List FtraceCounter) :
    ∀ (k : Kernel) (cs1 : List FtraceCounter) (k1 : Kernel),
      prepareCounters tc env cs k = .ok (cs1, k1) →
      k1.tracingOn = k.tracingOn ∧ k1.traceClock = k.traceClock ∧
        k1.clockWrites = k.clockWrites := by
  induction cs with
  | nil =>
    intro k cs1 k1 h
    simp only [prepareCounters, Except.ok.injEq, Prod.mk.injEq] at h
    obtain ⟨-, rfl⟩ := h
    exact ⟨rfl, rfl, rfl⟩
  | cons c cs ih =>
    intro k cs1 k1 h
    simp only [prepareCounters] at h
    split_ifs at h
    · split at h
      · cases h
      · rename_i cs2 k2 hrec
        simp only [Except.ok.injEq, Prod.mk.injEq] at h
        obtain ⟨-, rfl⟩ := h
        exact ih _ _ _ hrec
    · split at h
      · cases h
      · rename_i c1 k2 hc
        split at h
        · cases h
        · rename_i cs2 k3 hrec
          simp only [Except.ok.injEq, Prod.mk.injEq] at h
          obtain ⟨-, rfl⟩ := h
          obtain ⟨a1, a2, a3⟩ := FtraceCounter_prepare_frame tc env c c1 k k2 hc
          obtain ⟨b1, b2, b3⟩ := ih _ _ _ hrec
          exact ⟨by rw [b1, a1], by rw [b2, a2], by rw [b3, a3]⟩

theorem stopTracing_ok (env : SessionEnv) (k k1 : Kernel) (wasOn : Int)
    (h : stopTracing env k = .ok (wasOn, k1)) :
    env.tracingOnWritable = true ∧ wasOn = k.tracingOn ∧ k1.tracingOn = 0 ∧
      k1.traceClock = k.traceClock ∧ k1.clockWrites = k.clockWrites ∧
      k1.enable = k.enable := by
  unfold stopTracing at h
  split_ifs at h with h1 h2 h3
  simp only [Except.ok.injEq, Prod.mk.injEq] at h
  obtain ⟨rfl, rfl⟩ := h
  exact ⟨by simpa using h2, rfl, rfl, rfl, rfl, rfl⟩

theorem selectClock_ok (env : SessionEnv) (mono : Bool) (k k1 : Kernel)
    (h : selectClock env mono k = .ok k1) :
    k1.tracingOn = k.tracingOn ∧ k1.enable = k.enable ∧
      k1.clockWrites =
        k.clockWrites ++ (if mustSwitchClock mono k.traceClock then [clockName mono] else []) := by
  unfold selectClock at h
  split_ifs at h with h1 h2 h3 h4
  · simp only [Except.ok.injEq] at h
    subst h
    exact ⟨rfl, rfl, by simp [h3]⟩
  · simp only [Except.ok.injEq] at h
    subst h
    exact ⟨rfl, rfl, by simp [h3]⟩

theorem spawnReaders_shape (env : SessionEnv) (n : Nat) :
    ∀ (cpu : Nat) (rs : List FtraceReader) (fds : List Int) (rs1 : List FtraceReader)
      (fds1 : List Int), spawnReaders env n cpu rs fds = .ok (rs1, fds1) →
      rs1 = ((List.range' cpu n).map (mkReader env)).reverse ++ rs ∧
        fds1 = fds ++ (List.range' cpu n).map (fun i => (mkReader env i).mPfd0) := by
  induction n with
  | zero =>
    intro cpu rs fds rs1 fds1 h
    simp only [spawnReaders, Except.ok.injEq, Prod.mk.injEq] at h
    obtain ⟨rfl, rfl⟩ := h
    simp
  | succ n ih =>
    intro cpu rs fds rs1 fds1 h
    simp only [spawnReaders] at h
    split at h
    · cases h
    · rename_i pfd hp
      split_ifs at h
      obtain ⟨e1, e2⟩ := ih _ _ _ _ _ h
      have hmk : mkReader env cpu = ⟨cpu, env.rawFd cpu, pfd.1, pfd.2, true, true, 0, 0⟩ := by
        simp [mkReader, hp]
      have hfd : (mkReader env cpu).mPfd0 = pfd.1 := by rw [hmk]
      refine ⟨?_, ?_⟩
      · rw [e1, List.range'_succ, List.map_cons, List.reverse_cons, List.append_assoc, hmk]
        rfl
      · rw [e2, List.range'_succ, List.map_cons, hfd, List.append_assoc]
        rfl

theorem spawnReaders_succeeds (env : SessionEnv) (n : Nat) :
    ∀ (cpu : Nat) (rs : List FtraceReader) (fds : List Int),
      (∀ i, cpu ≤ i → i < cpu + n → (env.pipe2 i).isSome = true ∧ env.pthreadCreateOk i = true) →
      ∃ res, spawnReaders env n cpu rs fds = .ok res := by
  induction n with
  | zero => intro cpu rs fds _; exact ⟨_, rfl⟩
  | succ n ih =>
    intro cpu rs fds h
    obtain ⟨hp, ht⟩ := h cpu (le_refl _) (by omega)
    obtain ⟨pfd, hpfd⟩ := Option.isSome_iff_exists.mp hp
    simp only [spawnReaders, hpfd, ht, if_true]
    exact ih _ _ _ (fun i h1 h2 => h i (by omega) (by omega))

theorem prepare_phases (tc : TraceFsConstants) (env : SessionEnv) (d : FtraceDriver)
    (k : Kernel) (p : Process) (r : PrepareResult) (h : prepare tc env d k p = .ok r) :
    ∃ k1 cs k2 wasOn k3 k4,
      disableAllEvents env k = .ok k1 ∧ prepareCounters tc env d.counters k1 = .ok (cs, k2) ∧
        stopTracing env k2 = .ok (wasOn, k3) ∧
        selectClock env d.mMonotonicRawSupport k3 = .ok k4 ∧
        openOutputs env { d with counters := cs, mTracingOn := wasOn } k4 p = .ok r := by
  unfold prepare at h
  split at h
  · cases h
  · rename_i k1 h1
    split at h
    · cases h
    · rename_i cs k2 h2
      split at h
      · cases h
      · rename_i wasOn k3 h3
        split at h
        · cases h
        · rename_i k4 h4
          exact ⟨k1, cs, k2, wasOn, k3, k4, h1, h2, h3, h4, h⟩

theorem openOutputs_text (env : SessionEnv) (d : FtraceDriver) (k : Kernel) (p : Process)
    (r : PrepareResult) (hraw : env.mFtraceRaw = false) (h : openOutputs env d k p = .ok r) :
    r = ⟨d, k, p, [env.tracePipeFd], true⟩ := by
  unfold openOutputs at h
  simp only [hraw, Bool.not_false, if_true] at h
  split_ifs at h
  simp only [Except.ok.injEq] at h
  exact h.symm

theorem openOutputs_raw (env : SessionEnv) (d : FtraceDriver) (k : Kernel) (p : Process)
    (r : PrepareResult) (hraw : env.mFtraceRaw = true) (h : openOutputs env d k p = .ok r) :
    r = ⟨{ d with mBarrier := d.mBarrier.init ((d.mNumberOfCores + 1) % sizeSize) }, k,
        ⟨((List.range' 0 d.mNumberOfCores).map (mkReader env)).reverse ++ p.readers,
          env.pageSize⟩,
        (List.range' 0 d.mNumberOfCores).map (fun i => (mkReader env i).mPfd0), false⟩ := by
  unfold openOutputs at h
  simp only [hraw, Bool.not_true, Bool.false_eq_true, if_false] at h
  split_ifs at h
  split at h
  · cases h
  · rename_i rs fds hs
    obtain ⟨e1, e2⟩ := spawnReaders_shape env _ _ _ _ _ _ hs
    simp only [Except.ok.injEq] at h
    rw [← h, e1, e2]
    rfl

theorem stopCounters_tracingOn (tc : TraceFsConstants) (env : SessionEnv)
    (cs : List FtraceCounter) :
    ∀ k : Kernel, (stopCounters tc env cs k).tracingOn = k.tracingOn := by
  induction cs with
  | nil => intro k; rfl
  | cons c cs ih =>
    intro k
    simp only [stopCounters]
    split_ifs
    · exact ih k
    · rw [ih]
      unfold FtraceCounter.stop
      split
      · rfl
      · split_ifs <;> rfl

end FtraceDriver

namespace FtraceDriver

theorem prepareCounters_succeeds (tc : TraceFsConstants) (env : SessionEnv)
    (hR : ∀ path, env.enableReadable path = true) (hW : ∀ path, env.enableWritable path = true)
    (cs : List FtraceCounter) :
    (env.mFtraceRaw = true → ∀ c ∈ cs, c.enabled = true → c.mEnable ≠ none) →
      ∀ k : Kernel, ∃ res, prepareCounters tc env cs k = .ok res := by
  induction cs with
  | nil => intro _ k; exact ⟨_, rfl⟩
  | cons c cs ih =>
    intro hen k
    have hrest : env.mFtraceRaw = true → ∀ c2 ∈ cs, c2.enabled = true → c2.mEnable ≠ none :=
      fun hraw c2 hc2 => hen hraw c2 (List.mem_cons_of_mem c hc2)
    simp only [prepareCounters]
    by_cases hce : c.enabled = true
    · have hprep : ∃ res, c.prepare tc env k = .ok res := by
        unfold FtraceCounter.prepare
        cases hme : c.mEnable with
        | none =>
          by_cases hraw : env.mFtraceRaw = true
          · exact absurd hme (hen hraw c (List.mem_cons_self c cs) hce)
          · have hraw2 : env.mFtraceRaw = false := by simpa using hraw
            simp only [hraw2, Bool.false_eq_true, if_false]
            exact ⟨_, rfl⟩
        | some e =>
          simp only [hR, hW, if_true]
          exact ⟨_, rfl⟩
      obtain ⟨⟨c1, k1⟩, hc1⟩ := hprep
      obtain ⟨⟨cs1, k2⟩, hrec⟩ := ih hrest k1
      simp only [hce, Bool.not_true, Bool.false_eq_true, if_false, hc1, hrec]
      exact ⟨_, rfl⟩
    · have hce2 : c.enabled = false := by simpa using hce
      obtain ⟨⟨cs1, k1⟩, hrec⟩ := ih hrest k
      simp only [hce2, Bool.not_false, if_true, hrec]
      exact ⟨_, rfl⟩

theorem prepare_succeeds (tc : TraceFsConstants) (env : SessionEnv) (d : FtraceDriver)
    (k : Kernel) (p : Process) (hok : env.AllOk d.mNumberOfCores)
    (hen : env.mFtraceRaw = true → ∀ c ∈ d.counters, c.enabled = true → c.mEnable ≠ none) :
    ∃ r, prepare tc env d k p = .ok r := by
  have h1 : ∃ k1, disableAllEvents env k = .ok k1 := by
    unfold disableAllEvents
    simp only [hok.eventsEnable, if_true]
    split_ifs <;> exact ⟨_, rfl⟩
  obtain ⟨k1, hk1⟩ := h1
  obtain ⟨⟨cs, k2⟩, hk2⟩ := prepareCounters_succeeds tc env hok.enableR hok.enableW d.counters hen k1
  have h3 : stopTracing env k2 =
      .ok (k2.tracingOn, { k2 with tracingOn := 0, truncations := k2.truncations + 1 }) := by
    have := hok.trace
    have h3' : ¬ (env.traceFd < 0) := by omega
    simp [stopTracing, hok.tracingOnR, hok.tracingOnW, h3']
  have h4 : ∃ k4, selectClock env d.mMonotonicRawSupport
      { k2 with tracingOn := 0, truncations := k2.truncations + 1 } = .ok k4 := by
    have := hok.clockFd
    have h4' : ¬ (env.traceClockFd < 0) := by omega
    unfold selectClock
    simp only [h4', hok.clockR, hok.clockW, Bool.not_true, Bool.false_eq_true, if_false, if_true]
    split_ifs <;> exact ⟨_, rfl⟩
  obtain ⟨k4, hk4⟩ := h4
  have h5 : ∃ r, openOutputs env { d with counters := cs, mTracingOn := k2.tracingOn } k4 p =
      .ok r := by
    unfold openOutputs
    by_cases hraw : env.mFtraceRaw = true
    · have := hok.page
      have h5' : ¬ (env.pageSize ≤ 0) := by omega
      obtain ⟨⟨rs, fds⟩, hs⟩ := spawnReaders_succeeds env d.mNumberOfCores 0 p.readers []
        (fun i _ hi => ⟨hok.pipes i (by omega), hok.threads i (by omega)⟩)
      simp only [hraw, hok.sigaction, h5', Bool.not_true, Bool.false_eq_true, if_false, hs]
      exact ⟨_, rfl⟩
    · have hraw2 : env.mFtraceRaw = false := by simpa using hraw
      have := hok.tracePipe
      have h5' : ¬ (env.tracePipeFd < 0) := by omega
      simp only [hraw2, h5', Bool.not_false, if_true, if_false]
      exact ⟨_, rfl⟩
  obtain ⟨r, hr⟩ := h5
  refine ⟨r, ?_⟩
  simp only [prepare, hk1, hk2, h3, hk4, hr]

theorem prepare_shape (tc : TraceFsConstants) (env : SessionEnv) (d : FtraceDriver)
    (k : Kernel) (p : Process) (r : PrepareResult) (h : prepare tc env d k p = .ok r) :
    (env.mFtraceRaw = true →
        r.fds = (List.range d.mNumberOfCores).map (fun cpu => (mkReader env cpu).mPfd0) ∧
          r.fds.length = d.mNumberOfCores ∧ r.isPipe = false ∧
          r.driver.mBarrier.mCount = (d.mNumberOfCores + 1) % Barrier.uintSize ∧
          r.process.readers =
            ((List.range d.mNumberOfCores).map (mkReader env)).reverse ++ p.readers) ∧
      (env.mFtraceRaw = false →
        r.fds = [env.tracePipeFd] ∧ r.isPipe = true ∧ r.process = p ∧
          r.driver.mBarrier = d.mBarrier) := by
  obtain ⟨k1, cs, k2, wasOn, k3, k4, -, -, -, -, h5⟩ := prepare_phases tc env d k p r h
  constructor
  · intro hraw
    have hr := openOutputs_raw env _ k4 p r hraw h5
    rw [hr]
    refine ⟨?_, ?_, rfl, ?_, ?_⟩
    · show List.map _ (List.range' 0 d.mNumberOfCores) = _
      rw [List.range_eq_range']
    · show (List.map _ (List.range' 0 d.mNumberOfCores)).length = _
      simp
    · show (d.mNumberOfCores + 1) % sizeSize % Barrier.uintSize = _
      exact Nat.mod_mod_of_dvd _ (by decide)
    · show (List.map _ (List.range' 0 d.mNumberOfCores)).reverse ++ _ = _
      rw [List.range_eq_range']
  · intro hraw
    have hr := openOutputs_text env _ k4 p r hraw h5
    rw [hr]
    exact ⟨rfl, rfl, rfl, rfl⟩

theorem sampleEnv_allOk (raw : Bool) (cores : Nat) : (sampleEnv raw).AllOk cores :=
  ⟨rfl, fun _ => rfl, fun _ => rfl, rfl, rfl, (by decide : (0 : Int) ≤ 3),
    (by decide : (0 : Int) ≤ 4), rfl, rfl, (by decide : (0 : Int) ≤ 5), rfl,
    (by decide : (0 : Int) < 4096), fun _ _ => rfl, fun _ _ => rfl⟩

end FtraceDriver

set_option maxRecDepth 20000 in
/-- C13 as stated fails: the content `FtraceDriver.longClock` of `trace_clock`
contains `[perf]`, at offset 195, but `prepare` reads only 199 bytes of the
file, does not find the marker in them and writes `perf` to `trace_clock`. -/
theorem prepare_clock_switch_counterexample :
    (FtraceDriver.clockSelected false).toList <:+: FtraceDriver.longClock ∧
      (FtraceDriver.prepare FtraceDriver.samplePaths (FtraceDriver.sampleEnv false)
          (FtraceDriver.sampleDriver 2 []) (FtraceDriver.sampleKernel 1 FtraceDriver.longClock)
          ⟨[], 0⟩).toOption.map (fun r => r.kernel.clockWrites) = some ["perf"] := by
  refine ⟨⟨List.replicate 195 (Char.ofNat 120), [], ?_⟩, ?_⟩
  · rw [List.append_nil]; rfl
  · rfl

/-- C13, amended: the clock-switch skip.  Whenever `prepare` returns, for every
content of `trace_clock`: if the first 199 bytes of the content, up to the first
zero byte, contain the marker of the target clock (`[mono_raw]` when
monotonic-raw is supported, `[perf]` otherwise), no write to `trace_clock` has
been issued; if they do not, exactly one write has been issued, of the name of
the target clock (`mono_raw` or `perf`). -/
theorem prepare_clock_switch (tc : TraceFsConstants) (env : SessionEnv) (d : FtraceDriver)
    (k : Kernel) (p : Process) (r : PrepareResult)
    (h : FtraceDriver.prepare tc env d k p = .ok r) :
    ((FtraceDriver.clockSelected d.mMonotonicRawSupport).toList <:+:
          cString (k.traceClock.take 199) →
        r.kernel.clockWrites = k.clockWrites) ∧
      (¬ (FtraceDriver.clockSelected d.mMonotonicRawSupport).toList <:+:
            cString (k.traceClock.take 199) →
        r.kernel.clockWrites =
          k.clockWrites ++ [FtraceDriver.clockName d.mMonotonicRawSupport]) := by
  obtain ⟨k1, cs, k2, wasOn, k3, k4, h1, h2, h3, h4, h5⟩ :=
    FtraceDriver.prepare_phases tc env d k p r h
  obtain ⟨-, -, a3, a4⟩ := FtraceDriver.disableAllEvents_frame env k k1 h1
  obtain ⟨-, b2, b3⟩ := FtraceDriver.prepareCounters_frame tc env _ _ _ _ h2
  obtain ⟨-, -, -, c4, c5, -⟩ := FtraceDriver.stopTracing_ok env _ _ _ h3
  obtain ⟨-, -, e3⟩ := FtraceDriver.selectClock_ok env _ _ _ h4
  have hk : r.kernel = k4 := by
    by_cases hraw : env.mFtraceRaw = true
    · rw [FtraceDriver.openOutputs_raw env _ k4 p r hraw h5]
    · rw [FtraceDriver.openOutputs_text env _ k4 p r (by simpa using hraw) h5]
  have hclock : k3.traceClock = k.traceClock := by rw [c4, b2, a3]
  have hwrites : k3.clockWrites = k.clockWrites := by rw [c5, b3, a4]
  rw [hk, e3, hclock, hwrites]
  constructor
  · intro hin
    rw [(FtraceDriver.mustSwitchClock_eq_false_iff _ _).mpr hin]
    simp
  · intro hnot
    have hsw : FtraceDriver.mustSwitchClock d.mMonotonicRawSupport k.traceClock = true := by
      by_contra hne
      exact hnot ((FtraceDriver.mustSwitchClock_eq_false_iff _ _).mp (by simpa using hne))
    rw [hsw]
    simp

theorem prepare_clock_switch_witness :
    ∃ r, FtraceDriver.prepare FtraceDriver.samplePaths (FtraceDriver.sampleEnv false)
        (FtraceDriver.sampleDriver 2 []) (FtraceDriver.sampleKernel 1 "[perf] mono".toList)
        ⟨[], 0⟩ = .ok r ∧
      (((FtraceDriver.clockSelected false).toList <:+:
            cString ("[perf] mono".toList.take 199) →
          r.kernel.clockWrites = []) ∧
        (¬ (FtraceDriver.clockSelected false).toList <:+:
              cString ("[perf] mono".toList.take 199) →
          r.kernel.clockWrites = [] ++ [FtraceDriver.clockName false])) :=
  ⟨_, rfl, prepare_clock_switch FtraceDriver.samplePaths (FtraceDriver.sampleEnv false)
    (FtraceDriver.sampleDriver 2 []) (FtraceDriver.sampleKernel 1 "[perf] mono".toList)
    ⟨[], 0⟩ _ rfl⟩

/-- C14 as stated fails.  In raw mode, with every system call succeeding, an
enabled counter without an enable path makes `prepare` end in
`handleException()` instead of returning descriptors; and with
`4294967295` CPUs the barrier is armed with 0, not with the number of CPUs plus
one, as its count is an `unsigned int`. -/
theorem prepare_result_counterexample :
    (FtraceDriver.sampleEnv true).AllOk 1 ∧
      (∃ msg, FtraceDriver.prepare FtraceDriver.samplePaths (FtraceDriver.sampleEnv true)
        (FtraceDriver.sampleDriver 1 [⟨"ftrace_trace_marker_numbers", none, 0, true⟩])
        (FtraceDriver.sampleKernel 1 []) ⟨[], 0⟩ = .error msg) ∧
      (∃ r, FtraceDriver.prepare FtraceDriver.samplePaths (FtraceDriver.sampleEnv true)
          (FtraceDriver.sampleDriver 4294967295 []) (FtraceDriver.sampleKernel 1 [])
          ⟨[], 0⟩ = .ok r ∧ r.driver.mBarrier.mCount = 0) := by
  refine ⟨FtraceDriver.sampleEnv_allOk true 1, ⟨_, rfl⟩, ?_⟩
  obtain ⟨r, hr⟩ := FtraceDriver.prepare_succeeds FtraceDriver.samplePaths
    (FtraceDriver.sampleEnv true) (FtraceDriver.sampleDriver 4294967295 [])
    (FtraceDriver.sampleKernel 1 []) ⟨[], 0⟩ (FtraceDriver.sampleEnv_allOk true _)
    (fun _ c hc => absurd hc (List.not_mem_nil c))
  refine ⟨r, hr, ?_⟩
  rw [((FtraceDriver.prepare_shape _ _ _ _ _ r hr).1 rfl).2.2.2.1]
  decide

/-- C14, amended: the shape of the result of `prepare`.  For every CPU count
`c`, when every system call succeeds and, in raw mode, every enabled counter has
an enable path, `prepare` returns.  In raw mode it returns exactly `c`
descriptors, the pipe read ends of CPU 0, 1, ..., `c - 1` in that order, with
the aggregate-pipe flag false, having armed the barrier with `c + 1` reduced
modulo `2^32` (so with `c + 1` when that fits an `unsigned int`) and put exactly
`c` new readers, the one of the last CPU first, in front of the reader list.  In
text mode it returns exactly one descriptor, that of `trace_pipe`, with the flag
true, creates no reader and does not arm the barrier. -/
theorem prepare_result_shape (tc : TraceFsConstants) (env : SessionEnv) (d : FtraceDriver)
    (k : Kernel) (p : Process) (hok : env.AllOk d.mNumberOfCores)
    (hen : env.mFtraceRaw = true → ∀ c ∈ d.counters, c.enabled = true → c.mEnable ≠ none) :
    ∃ r, FtraceDriver.prepare tc env d k p = .ok r ∧
      (env.mFtraceRaw = true →
        r.fds = (List.range d.mNumberOfCores).map
            (fun cpu => (FtraceDriver.mkReader env cpu).mPfd0) ∧
          r.fds.length = d.mNumberOfCores ∧ r.isPipe = false ∧
          r.driver.mBarrier.mCount = (d.mNumberOfCores + 1) % Barrier.uintSize ∧
          r.process.readers =
            ((List.range d.mNumberOfCores).map (FtraceDriver.mkReader env)).reverse ++
              p.readers) ∧
      (env.mFtraceRaw = false →
        r.fds = [env.tracePipeFd] ∧ r.isPipe = true ∧ r.process = p ∧
          r.driver.mBarrier = d.mBarrier) := by
  obtain ⟨r, hr⟩ := FtraceDriver.prepare_succeeds tc env d k p hok hen
  exact ⟨r, hr, FtraceDriver.prepare_shape tc env d k p r hr⟩

theorem prepare_result_shape_witness :
    ∃ r, FtraceDriver.prepare FtraceDriver.samplePaths (FtraceDriver.sampleEnv true)
        (FtraceDriver.sampleDriver 2 FtraceDriver.sharedCounters)
        (FtraceDriver.sampleKernel 1 []) ⟨[], 0⟩ = .ok r ∧
      ((FtraceDriver.sampleEnv true).mFtraceRaw = true →
        r.fds = (List.range 2).map
            (fun cpu => (FtraceDriver.mkReader (FtraceDriver.sampleEnv true) cpu).mPfd0) ∧
          r.fds.length = 2 ∧ r.isPipe = false ∧
          r.driver.mBarrier.mCount = (2 + 1) % Barrier.uintSize ∧
          r.process.readers =
            ((List.range 2).map (FtraceDriver.mkReader (FtraceDriver.sampleEnv true))).reverse ++
              []) ∧
      ((FtraceDriver.sampleEnv true).mFtraceRaw = false →
        r.fds = [(FtraceDriver.sampleEnv true).tracePipeFd] ∧ r.isPipe = true ∧
          r.process = ⟨[], 0⟩ ∧
          r.driver.mBarrier =
            (FtraceDriver.sampleDriver 2 FtraceDriver.sharedCounters).mBarrier) :=
  prepare_result_shape FtraceDriver.samplePaths (FtraceDriver.sampleEnv true)
    (FtraceDriver.sampleDriver 2 FtraceDriver.sharedCounters) (FtraceDriver.sampleKernel 1 [])
    ⟨[], 0⟩ (FtraceDriver.sampleEnv_allOk true 2) (by decide)

/-- C15 as stated fails: in a second raw session on the same process with one
CPU, `stop` returns two descriptors, the read end of the reader of the second
session and that of the reader of the first, which is still on the list. -/
theorem stop_result_counterexample :
    (match FtraceDriver.session FtraceDriver.samplePaths (FtraceDriver.sampleEnv true)
        (FtraceDriver.sampleDriver 1 []) (FtraceDriver.sampleKernel 1 []) ⟨[], 0⟩ with
      | .error _ => none
      | .ok first =>
        (match FtraceDriver.session FtraceDriver.samplePaths (FtraceDriver.laterEnv true)
            first.1 first.2.kernel first.2.process with
          | .error _ => none
          | .ok second => some (first.2.fds, second.2.fds))) = some ([10], [20, 10]) := by
  decide

/-- C15, amended: the shape of the result of `stop`.  After a `prepare` that
returned, in raw mode `stop` returns the pipe read end of every reader on the
reader list: those created by this `prepare`, last CPU first, followed by those
that were on the list before; it interrupts and joins each of them once.  So in
the first session of a process with `c` CPUs it returns exactly `c` descriptors,
the ones `prepare` returned, in reverse order.  In text mode it returns an empty
list and touches no reader. -/
theorem stop_result_shape (tc : TraceFsConstants) (env : SessionEnv) (d : FtraceDriver)
    (k : Kernel) (p : Process) (r : PrepareResult)
    (h : FtraceDriver.prepare tc env d k p = .ok r) (d2 : FtraceDriver) (k2 : Kernel) :
    (env.mFtraceRaw = true →
        (FtraceDriver.stop tc env d2 k2 r.process).fds =
            r.fds.reverse ++ p.readers.map (fun x => x.mPfd0) ∧
          (p.readers = [] →
            (FtraceDriver.stop tc env d2 k2 r.process).fds = r.fds.reverse ∧
              (FtraceDriver.stop tc env d2 k2 r.process).fds.length = d.mNumberOfCores) ∧
          (FtraceDriver.stop tc env d2 k2 r.process).process.readers =
            r.process.readers.map (fun x => x.interrupt.join)) ∧
      (env.mFtraceRaw = false →
        (FtraceDriver.stop tc env d2 k2 r.process).fds = [] ∧
          (FtraceDriver.stop tc env d2 k2 r.process).process = r.process) := by
  obtain ⟨hraw, htext⟩ := FtraceDriver.prepare_shape tc env d k p r h
  constructor
  · intro hr
    obtain ⟨e1, e2, -, -, e5⟩ := hraw hr
    have hfds : (FtraceDriver.stop tc env d2 k2 r.process).fds =
        r.process.readers.map (fun x => x.mPfd0) := by
      simp [FtraceDriver.stop, hr]
    have hall : r.process.readers.map (fun x => x.mPfd0) =
        r.fds.reverse ++ p.readers.map (fun x => x.mPfd0) := by
      rw [e5, e1, List.map_append, List.map_reverse, List.map_map]
      rfl
    refine ⟨by rw [hfds, hall], ?_, ?_⟩
    · intro hp
      rw [hfds, hall, hp]
      simp [e2]
    · simp [FtraceDriver.stop, hr]
  · intro hr
    simp [FtraceDriver.stop, hr]

theorem stop_result_shape_witness :
    ∃ r, FtraceDriver.prepare FtraceDriver.samplePaths (FtraceDriver.sampleEnv true)
        (FtraceDriver.sampleDriver 2 []) (FtraceDriver.sampleKernel 1 []) ⟨[], 0⟩ = .ok r ∧
      (FtraceDriver.stop FtraceDriver.samplePaths (FtraceDriver.sampleEnv true) r.driver
          r.kernel r.process).fds = r.fds.reverse ++ [] :=
  ⟨_, rfl, ((stop_result_shape FtraceDriver.samplePaths (FtraceDriver.sampleEnv true)
    (FtraceDriver.sampleDriver 2 []) (FtraceDriver.sampleKernel 1 []) ⟨[], 0⟩ _ rfl _ _).1
      rfl).1⟩

/-- C16, the tracing-on round trip.  With `tracing_on` an integer file that
nothing else writes, for every initial value `v`: a `prepare` that returns has
remembered `v` and written 0; a `start` that returns has written 1; and after
`stop` the file holds `v` again. -/
theorem tracing_on_round_trip (tc : TraceFsConstants) (env : SessionEnv) (d : FtraceDriver)
    (k : Kernel) (p : Process) (r : PrepareResult) (d2 : FtraceDriver) (k2 : Kernel)
    (h : FtraceDriver.prepare tc env d k p = .ok r)
    (hs : FtraceDriver.start env r.driver r.kernel = .ok (d2, k2)) :
    r.driver.mTracingOn = k.tracingOn ∧ r.kernel.tracingOn = 0 ∧ k2.tracingOn = 1 ∧
      (FtraceDriver.stop tc env d2 k2 r.process).kernel.tracingOn = k.tracingOn := by
  obtain ⟨k1, cs, k3, wasOn, k4, k5, h1, h2, h3, h4, h5⟩ :=
    FtraceDriver.prepare_phases tc env d k p r h
  obtain ⟨-, a2, -, -⟩ := FtraceDriver.disableAllEvents_frame env k k1 h1
  obtain ⟨b1, -, -⟩ := FtraceDriver.prepareCounters_frame tc env _ _ _ _ h2
  obtain ⟨c1, c2, c3, -, -, -⟩ := FtraceDriver.stopTracing_ok env _ _ _ h3
  obtain ⟨e1, -, -⟩ := FtraceDriver.selectClock_ok env _ _ _ h4
  have hwas : wasOn = k.tracingOn := by rw [c2, b1, a2]
  have hrk : r.kernel = k5 ∧ r.driver.mTracingOn = wasOn := by
    by_cases hraw : env.mFtraceRaw = true
    · rw [FtraceDriver.openOutputs_raw env _ k5 p r hraw h5]
      exact ⟨rfl, rfl⟩
    · rw [FtraceDriver.openOutputs_text env _ k5 p r (by simpa using hraw) h5]
      exact ⟨rfl, rfl⟩
  obtain ⟨hk, hd⟩ := hrk
  have hstart : d2.mTracingOn = r.driver.mTracingOn ∧ k2.tracingOn = 1 := by
    unfold FtraceDriver.start at hs
    split_ifs at hs
    · simp only [Except.ok.injEq, Prod.mk.injEq] at hs
      obtain ⟨rfl, rfl⟩ := hs
      exact ⟨rfl, rfl⟩
    · simp only [Except.ok.injEq, Prod.mk.injEq] at hs
      obtain ⟨rfl, rfl⟩ := hs
      exact ⟨rfl, rfl⟩
  refine ⟨by rw [hd, hwas], by rw [hk, e1, c3], hstart.2, ?_⟩
  have hstop : (FtraceDriver.stop tc env d2 k2 r.process).kernel.tracingOn = d2.mTracingOn := by
    unfold FtraceDriver.stop
    simp only [c1, if_true]
    split_ifs <;> exact FtraceDriver.stopCounters_tracingOn tc env _ _
  rw [hstop, hstart.1, hd, hwas]

theorem tracing_on_round_trip_witness :
    ∃ r d2 k2, FtraceDriver.prepare FtraceDriver.samplePaths (FtraceDriver.sampleEnv true)
        (FtraceDriver.sampleDriver 2 FtraceDriver.sharedCounters)
        (FtraceDriver.sampleKernel 7 []) ⟨[], 0⟩ = .ok r ∧
      FtraceDriver.start (FtraceDriver.sampleEnv true) r.driver r.kernel = .ok (d2, k2) ∧
      (FtraceDriver.stop FtraceDriver.samplePaths (FtraceDriver.sampleEnv true) d2 k2
        r.process).kernel.tracingOn = 7 :=
  ⟨_, _, _, rfl, rfl, (tracing_on_round_trip FtraceDriver.samplePaths
    (FtraceDriver.sampleEnv true) (FtraceDriver.sampleDriver 2 FtraceDriver.sharedCounters)
    (FtraceDriver.sampleKernel 7 []) ⟨[], 0⟩ _ _ _ rfl rfl).2.2.2⟩

/-- C17 at a failing input: two enabled counters name the tracepoint
`block/block_rq_complete`, whose enable file holds 0.  In raw and in text mode,
after `prepare` followed by `stop` the file holds 1: the first counter has
remembered 0 and the second 1, and `stop` restores them in the same order. -/
theorem enable_round_trip_shared_path :
    (FtraceDriver.sampleKernel 1 []).enable
        (enablePath FtraceDriver.samplePaths "block/block_rq_complete") = 0 ∧
      (FtraceDriver.prepare FtraceDriver.samplePaths (FtraceDriver.sampleEnv true)
          (FtraceDriver.sampleDriver 1 FtraceDriver.sharedCounters)
          (FtraceDriver.sampleKernel 1 []) ⟨[], 0⟩).toOption.map
        (fun r => (FtraceDriver.stop FtraceDriver.samplePaths (FtraceDriver.sampleEnv true)
          r.driver r.kernel r.process).kernel.enable
            (enablePath FtraceDriver.samplePaths "block/block_rq_complete")) = some 1 ∧
      (FtraceDriver.prepare FtraceDriver.samplePaths (FtraceDriver.sampleEnv false)
          (FtraceDriver.sampleDriver 1 FtraceDriver.sharedCounters)
          (FtraceDriver.sampleKernel 1 []) ⟨[], 0⟩).toOption.map
        (fun r => (FtraceDriver.stop FtraceDriver.samplePaths (FtraceDriver.sampleEnv false)
          r.driver r.kernel r.process).kernel.enable
            (enablePath FtraceDriver.samplePaths "block/block_rq_complete")) = some 1 := by
  decide

/-- C18 at a failing input: in raw mode every read of `readTracepointFormats`
itself succeeds, the read of the tracepoint format of the enabled counter
`ftrace_sched_switch` fails, and `readTracepointFormats` returns `true`, having
marshalled the two headers and the format of the directory entry `print`. -/
theorem readTracepointFormats_ignores_counter_failure :
    FtraceDriver.sampleFormats.counterFormat ⟨"ftrace_sched_switch", some "sched/sched_switch", 0, true⟩ =
        false ∧
      (FtraceDriver.readTracepointFormats FtraceDriver.samplePaths true FtraceDriver.sampleFormats
          (FtraceDriver.sampleDriver 1
            [⟨"ftrace_sched_switch", some "sched/sched_switch", 0, true⟩])).toOption =
        some (true, [.headerPage "/t/events/header_page", .headerEvent "/t/events/header_event",
          .format "/t/events/ftrace/print/format"]) := by
  decide

/-! ## Fifo: further claims -/

namespace Fifo

theorem Inv.fill_bounds {S W : Int} {f : Fifo} (hi : f.Inv S W) (hS : 0 < S) :
    0 ≤ f.numBytesFilled ∧ f.numBytesFilled < W + S ∧
      (f.numBytesFilled = 0 → f.mRaggedEnd = 0 ∧ f.mRead = f.mWrite) := by
  have h3 := hi.w_nonneg
  have h4 := hi.w_lt
  unfold numBytesFilled
  by_cases h0 : f.mRaggedEnd = 0
  · have := hi.flat h0
    exact ⟨by omega, by omega, fun _ => ⟨h0, by omega⟩⟩
  · have := hi.wrapped h0
    exact ⟨by omega, by omega, fun hz => by omega⟩

theorem isEmpty_iff (f : Fifo) :
    f.isEmpty = true ↔ f.mRead = f.mWrite ∧ f.mRaggedEnd = 0 := by
  simp [isEmpty]

theorem isFull_of_empty (f : Fifo) (he : f.isEmpty = true) :
    f.isFull = true ↔ f.mWrapThreshold ≤ f.mSingleBufferSize := by
  obtain ⟨h1, h2⟩ := (isEmpty_iff f).mp he
  have hnot := isFull_eq_false_iff f
  unfold numBytesFilled at hnot
  constructor
  · intro hfull
    by_contra hlt
    have : f.isFull = false := hnot.mpr (Or.inr ⟨by omega, by omega⟩)
    rw [hfull] at this
    cases this
  · intro hle
    by_contra hne
    have hf : f.isFull = false := by simpa using hne
    rcases hnot.mp hf with ⟨ha, _⟩ | ⟨_, hb⟩ <;> omega

end Fifo

namespace Sys

theorem stuck_step {S W : Int} {s t : Sys} (hi : s.Inv S W) (hWS : W ≤ S)
    (he : s.fifo.isEmpty = true) (hw : s.writerWaiting = true) (e : Event)
    (h : s.step true e = some t) :
    t.fifo.isEmpty = true ∧ t.writerWaiting = true := by
  obtain ⟨hf, -⟩ := hi
  obtain ⟨h1, h2⟩ := (Fifo.isEmpty_iff s.fifo).mp he
  have hfull : s.fifo.isFull = true :=
    (Fifo.isFull_of_empty s.fifo he).mpr (by rw [hf.hS, hf.hW]; exact hWS)
  cases e with
  | write length =>
    simp only [Sys.step, hw, Bool.true_eq_false, false_and, if_false] at h
    cases h
  | wake =>
    simp only [Sys.step, hw, if_true] at h
    split at h
    · cases h
    · rename_i n hn
      have hst := Fifo.waitForSpace_state s.fifo n
      have hret := Fifo.waitForSpace_ret s.fifo n
      simp only [hfull, if_true] at hst hret
      simp only [Option.some.injEq] at h
      subst h
      refine ⟨?_, ?_⟩
      · show (s.fifo.waitForSpace n).state.isEmpty = true
        rw [hst]; exact he
      · show (s.fifo.waitForSpace n).ret.isNone = true
        rw [hret]; rfl
  | read fuel =>
    simp only [Sys.step] at h
    split at h
    · cases h
    · rename_i r hr
      simp only [Option.some.injEq] at h
      subst h
      refine ⟨?_, hw⟩
      show r.state.isEmpty = true
      rcases Fifo.read_state s.fifo fuel r hr with h3 | h3 <;> rw [h3]
      · exact he
      · exact he
  | release =>
    simp only [Sys.step, Option.some.injEq] at h
    subst h
    refine ⟨?_, hw⟩
    show s.fifo.release.isEmpty = true
    have hflat := hf.flat h2
    have hlt := hf.w_lt
    have hW := hf.hW
    obtain ⟨-, -, e3, -, -, -⟩ := Fifo.release_frame s.fifo
    rw [Fifo.isEmpty_iff, e3]
    rcases Fifo.release_cursor s.fifo with ⟨ha, hr, hc, hrag⟩ | ⟨ha, hr, hc, hrag⟩
    · omega
    · rw [hr, hrag]
      exact ⟨by omega, h2⟩

theorem stuck_run {S W : Int} (hS : 0 < S) (hWS : W ≤ S) (es : List Event) :
    ∀ {s t : Sys}, s.Inv S W → s.fifo.isEmpty = true → s.writerWaiting = true →
      Sys.run true s es = some t → t.fifo.isEmpty = true ∧ t.writerWaiting = true := by
  induction es with
  | nil => intro s t _ he hw h; simp only [Sys.run, Option.some.injEq] at h; subst h; exact ⟨he, hw⟩
  | cons e es ih =>
    intro s t hi he hw h
    simp only [Sys.run] at h
    split at h
    · cases h
    · rename_i s1 hs1
      obtain ⟨he1, hw1⟩ := stuck_step hi hWS he hw e hs1
      exact ih (Inv.step hS hi e hs1) he1 hw1 h

end Sys

/-- C24, the non-negative read length.  In every state reachable from the
initial state by writes of at most `singleBufferSize` bytes (each taken once the
previous one has returned), reads and releases, `readCursor` is at most
`raggedEnd` if that is nonzero and `writeCursor` otherwise; so the loop of
`read()` exits after its first pass (one unit of fuel is enough, and more fuel
gives the same result) and a length that is returned is non-negative. -/
theorem fifo_read_length_nonneg (S W : Int) (hS : 0 < S) (hW : 0 < W) (s : Sys)
    (hr : Sys.Reachable S W s) :
    s.fifo.mRead ≤ (if s.fifo.mRaggedEnd ≠ 0 then s.fifo.mRaggedEnd else s.fifo.mWrite) ∧
      (∃ r, s.fifo.read 1 = some r ∧ ∀ l, r.length = some l → 0 ≤ l) ∧
      (∀ n, s.fifo.read (n + 1) = s.fifo.read 1) := by
  obtain ⟨hi, -⟩ := Sys.Reachable.inv hS hW hr
  have hle := hi.read_le_target
  refine ⟨hle, ?_, ?_⟩
  · by_cases he : (s.fifo.isEmpty && !s.fifo.mEnd) = true
    · refine ⟨_, Fifo.read_of_empty s.fifo 1 he, ?_⟩
      intro l hl
      cases hl
    · have he2 : (s.fifo.isEmpty && !s.fifo.mEnd) = false := by simpa using he
      refine ⟨_, Fifo.read_of_data s.fifo 0 he2 hle, ?_⟩
      intro l hl
      simp only [Option.some.injEq] at hl
      omega
  · intro n
    by_cases he : (s.fifo.isEmpty && !s.fifo.mEnd) = true
    · rw [Fifo.read_of_empty s.fifo _ he, Fifo.read_of_empty s.fifo _ he]
    · have he2 : (s.fifo.isEmpty && !s.fifo.mEnd) = false := by simpa using he
      rw [Fifo.read_of_data s.fifo n he2 hle, Fifo.read_of_data s.fifo 0 he2 hle]

theorem fifo_read_length_nonneg_witness :
    Sys.afterWrap.fifo.mRead ≤
        (if Sys.afterWrap.fifo.mRaggedEnd ≠ 0 then Sys.afterWrap.fifo.mRaggedEnd
          else Sys.afterWrap.fifo.mWrite) ∧
      (∃ r, Sys.afterWrap.fifo.read 1 = some r ∧ ∀ l, r.length = some l → 0 ≤ l) ∧
      (∀ n, Sys.afterWrap.fifo.read (n + 1) = Sys.afterWrap.fifo.read 1) :=
  fifo_read_length_nonneg 4 10 (by decide) (by decide) Sys.afterWrap
    ⟨0, Sys.wrapRun, by decide⟩

/-- C26, the true bound on the fill level.  In every state reachable by writes
of at most `singleBufferSize = S` bytes (each taken once the previous one has
returned), reads and releases, `0 ≤ numBytesFilled() < wrapThreshold + S`: the
unread bytes fit the arena of `bufferSize + singleBufferSize` bytes. -/
theorem fifo_fill_level_bound (S W : Int) (hS : 0 < S) (hW : 0 < W) (s : Sys)
    (hr : Sys.Reachable S W s) :
    0 ≤ s.fifo.numBytesFilled ∧ s.fifo.numBytesFilled < W + S ∧
      s.fifo.numBytesFilled < s.fifo.arenaSize := by
  obtain ⟨hi, -⟩ := Sys.Reachable.inv hS hW hr
  obtain ⟨h1, h2, -⟩ := hi.fill_bounds hS
  refine ⟨h1, h2, ?_⟩
  unfold Fifo.arenaSize
  rw [hi.hS, hi.hW]
  exact h2

theorem fifo_fill_level_bound_witness :
    0 ≤ Sys.afterWrap.fifo.numBytesFilled ∧ Sys.afterWrap.fifo.numBytesFilled < 10 + 4 ∧
      Sys.afterWrap.fifo.numBytesFilled < Sys.afterWrap.fifo.arenaSize :=
  fifo_fill_level_bound 4 10 (by decide) (by decide) Sys.afterWrap ⟨0, Sys.wrapRun, by decide⟩

/-- C27, the empty buffer that is reported full.  For every state in which
`isEmpty()` holds, `isFull()` is true if and only if
`wrapThreshold ≤ singleBufferSize`, so with `singleBufferSize < wrapThreshold`
an empty buffer is never full.  With `wrapThreshold ≤ singleBufferSize` the
wait-for-space loop of a `write` whose cursor update leaves the buffer in this
state blocks whatever the value of the semaphore; and if the state is reachable
and the writer waits in it, then after any further reads, releases and wake-ups
the buffer is still empty and the writer still waits. -/
theorem fifo_empty_reported_full (f : Fifo) (he : f.isEmpty = true) :
    (f.isFull = true ↔ f.mWrapThreshold ≤ f.mSingleBufferSize) ∧
      (f.mSingleBufferSize < f.mWrapThreshold → f.isFull = false) ∧
      (f.mWrapThreshold ≤ f.mSingleBufferSize → ∀ n, (f.waitForSpace n).ret = none) ∧
      (∀ (S W : Int) (s : Sys), 0 < S → 0 < W → W ≤ S → Sys.Reachable S W s → s.fifo = f →
        s.writerWaiting = true →
        ∀ es t, Sys.run true s es = some t →
          t.fifo.isEmpty = true ∧ t.writerWaiting = true) := by
  have hiff := Fifo.isFull_of_empty f he
  refine ⟨hiff, ?_, ?_, ?_⟩
  · intro hlt
    by_contra hne
    have hfull : f.isFull = true := by simpa using hne
    have := hiff.mp hfull
    omega
  · intro hle n
    rw [Fifo.waitForSpace_ret, hiff.mpr hle]
    rfl
  · intro S W s hS hW hWS hr hf hw es t hrun
    subst hf
    exact Sys.stuck_run hS hWS es (Sys.Reachable.inv hS hW hr) he hw hrun

theorem fifo_empty_reported_full_witness :
    (Sys.endedNarrow.fifo.isFull = true ↔
        Sys.endedNarrow.fifo.mWrapThreshold ≤ Sys.endedNarrow.fifo.mSingleBufferSize) ∧
      (Sys.endedNarrow.fifo.mSingleBufferSize < Sys.endedNarrow.fifo.mWrapThreshold →
        Sys.endedNarrow.fifo.isFull = false) ∧
      (Sys.endedNarrow.fifo.mWrapThreshold ≤ Sys.endedNarrow.fifo.mSingleBufferSize →
        ∀ n, (Sys.endedNarrow.fifo.waitForSpace n).ret = none) ∧
      (∀ (S W : Int) (s : Sys), 0 < S → 0 < W → W ≤ S → Sys.Reachable S W s →
        s.fifo = Sys.endedNarrow.fifo → s.writerWaiting = true →
        ∀ es t, Sys.run true s es = some t →
          t.fifo.isEmpty = true ∧ t.writerWaiting = true) :=
  fifo_empty_reported_full Sys.endedNarrow.fifo (by decide)

/-- C28, emptiness agrees with the fill level.  In every state reachable by
writes of at most `singleBufferSize` bytes (each taken once the previous one has
returned), reads and releases, `isEmpty()` is true if and only if
`numBytesFilled() = 0`. -/
theorem fifo_empty_iff_no_bytes (S W : Int) (hS : 0 < S) (hW : 0 < W) (s : Sys)
    (hr : Sys.Reachable S W s) :
    s.fifo.isEmpty = true ↔ s.fifo.numBytesFilled = 0 := by
  obtain ⟨hi, -⟩ := Sys.Reachable.inv hS hW hr
  obtain ⟨-, -, h3⟩ := hi.fill_bounds hS
  rw [Fifo.isEmpty_iff]
  constructor
  · rintro ⟨h1, h2⟩
    unfold Fifo.numBytesFilled
    omega
  · intro hz
    obtain ⟨h1, h2⟩ := h3 hz
    exact ⟨h2, h1⟩

theorem fifo_empty_iff_no_bytes_witness :
    Sys.afterWrap.fifo.isEmpty = true ↔ Sys.afterWrap.fifo.numBytesFilled = 0 :=
  fifo_empty_iff_no_bytes 4 10 (by decide) (by decide) Sys.afterWrap ⟨0, Sys.wrapRun, by decide⟩

/-! ## Ftrace: the active loop of a reader -/

/-- C25, classification of the result of `splice` in the active phase.  For
every result `b` of `splice`, value `e` of `errno` and page size `p > 0`, one
pass through the active loop of the reader ends the process if and only if
`b = 0`, or `b < 0` and `e` is not `EINTR`, or `b > 0` and `b` is not `p`; and
it goes on without an error if and only if `b = p`, or `b < 0` and `e` is
`EINTR`. -/
theorem splice_result_classification (b e p : Int) (hp : 0 < p) :
    ((∃ msg, FtraceReader.activeIteration b e p = .error msg) ↔
      (b = 0 ∨ (b < 0 ∧ e ≠ EINTR) ∨ (0 < b ∧ b ≠ p))) ∧
    (FtraceReader.activeIteration b e p = .ok () ↔ (b = p ∨ (b < 0 ∧ e = EINTR))) ∧
    (b = 0 →
      FtraceReader.activeIteration b e p = .error "ftrace splice unexpectedly returned 0") ∧
    (b < 0 → e ≠ EINTR → FtraceReader.activeIteration b e p = .error "splice failed") ∧
    (0 < b → b ≠ p → FtraceReader.activeIteration b e p = .error "splice short read") := by
  unfold FtraceReader.activeIteration
  refine ⟨?_, ?_, ?_, ?_, ?_⟩
  · split_ifs <;> simp <;> omega
  · split_ifs <;> simp <;> omega
  · intro h; rw [if_pos h]
  · intro h1 h2; rw [if_neg (by omega), if_pos h1, if_pos h2]
  · intro h1 h2; rw [if_neg (by omega), if_neg (by omega), if_pos h2]

theorem splice_result_classification_witness :
    (0 : Int) < 4096 ∧ FtraceReader.activeIteration 4096 0 4096 = .ok () :=
  ⟨by decide, (splice_result_classification 4096 0 4096 (by decide)).2.1.mpr (Or.inl rfl)⟩

/-! ## Enumeration operators and `print_array` -/

/-- C22, the operators of an enumeration.  For every value `v`,
`to_underlying(v)` is its underlying integer; `++v` leaves in the variable the
value whose underlying integer is one greater and returns that value; `v++`
leaves the same value and returns the previous one; `--v` and `v--` do likewise
with one less; `--(++v)` leaves `v` unchanged; and on `value1` of the enumeration
`value0, value1, value2` the operators give what the test checks. -/
theorem enum_operators_contract (v : EnumValue) :
    enum_operators.to_underlying v = v.underlying ∧
    (enum_operators.preIncrement v).1.underlying = v.underlying + 1 ∧
    (enum_operators.preIncrement v).2 = (enum_operators.preIncrement v).1 ∧
    (enum_operators.postIncrement v).1.underlying = v.underlying + 1 ∧
    (enum_operators.postIncrement v).2 = v ∧
    (enum_operators.preDecrement v).1.underlying = v.underlying - 1 ∧
    (enum_operators.preDecrement v).2 = (enum_operators.preDecrement v).1 ∧
    (enum_operators.postDecrement v).1.underlying = v.underlying - 1 ∧
    (enum_operators.postDecrement v).2 = v ∧
    (enum_operators.preDecrement (enum_operators.preIncrement v).1).1 = v ∧
    (enum_operators.preIncrement (enum_operators.preDecrement v).1).1 = v ∧
    enum_operators.to_underlying test_enum.value1 = 1 ∧
    enum_operators.preIncrement test_enum.value1 = (test_enum.value2, test_enum.value2) ∧
    enum_operators.postIncrement test_enum.value1 = (test_enum.value2, test_enum.value1) ∧
    enum_operators.preDecrement test_enum.value1 = (test_enum.value0, test_enum.value0) ∧
    enum_operators.postDecrement test_enum.value1 = (test_enum.value0, test_enum.value1) := by
  refine ⟨rfl, rfl, rfl, rfl, rfl, rfl, rfl, rfl, rfl, ?_, ?_, rfl, rfl, rfl, rfl, rfl⟩
  · cases v
    simp [enum_operators.preDecrement, enum_operators.preIncrement,
      enum_operators.to_underlying]
  · cases v
    simp [enum_operators.preDecrement, enum_operators.preIncrement,
      enum_operators.to_underlying]

/-- Appending strings one after the other from a first one. -/
theorem join_from (l : List String) (a : String) :
    l.foldl (fun r s => r ++ s) a = a ++ String.join l := by
  unfold String.join
  induction l generalizing a with
  | nil => simp
  | cons s tl ih =>
    rw [List.foldl_cons, List.foldl_cons, ih (a ++ s), ih ("" ++ s), String.empty_append,
      String.append_assoc]

theorem join_cons (s : String) (l : List String) :
    String.join (s :: l) = s ++ String.join l := by
  have h := join_from l ("" ++ s)
  rw [String.empty_append] at h
  unfold String.join at h ⊢
  rw [List.foldl_cons, String.empty_append]
  exact h

/-- What the elements of an array add to the stream, one after the other. -/
theorem print_array_elements {α : Type} (text : α → String) (array : List α) (os : String) :
    array.foldl (fun os e => os ++ text e ++ ", ") os =
      os ++ String.join (array.map (fun e => text e ++ ", ")) := by
  induction array generalizing os with
  | nil => simp [String.join]
  | cons e tl ih =>
    rw [List.foldl_cons, ih, List.map_cons, join_cons]
    simp only [String.append_assoc]

/-- C23, the format of `print_array`.  For every non-empty array, streaming
`print_array(array)` writes an opening brace and a blank, then for each element
in order the text of the element followed by a comma and a blank, then a closing
brace, so that the output ends with a comma, a blank and the closing brace; the
array `1, 2, 3, 4, 5` of integers prints as the string that the test expects. -/
theorem print_array_format {α : Type} (text : α → String) (array : List α)
    (hne : array ≠ []) (os : String) :
    print_array text array os =
      os ++ "\x7b " ++ String.join (array.map (fun e => text e ++ ", ")) ++ "\x7d" ∧
    (∃ body, print_array text array os = os ++ "\x7b " ++ body ++ ", \x7d") ∧
    print_array (fun n : Int => toString n) [1, 2, 3, 4, 5] "" =
      "\x7b 1, 2, 3, 4, 5, \x7d" := by
  refine ⟨?_, ?_, by decide⟩
  · unfold print_array
    rw [print_array_elements]
  · refine ⟨String.join (array.dropLast.map (fun e => text e ++ ", ")) ++
      text (array.getLast hne), ?_⟩
    have e : (", \x7d" : String) = ", " ++ "\x7d" := by decide
    unfold print_array
    conv_lhs => rw [← List.dropLast_append_getLast hne]
    rw [List.foldl_append, List.foldl_cons, List.foldl_nil, print_array_elements, e]
    simp only [String.append_assoc]

theorem print_array_format_witness :
    ([1, 2, 3, 4, 5] : List Int) ≠ [] ∧
    print_array (fun n : Int => toString n) [1, 2, 3, 4, 5] "out: " =
      "out: \x7b " ++ String.join (([1, 2, 3, 4, 5] : List Int).map
        (fun e => toString e ++ ", ")) ++ "\x7d" :=
  ⟨by decide, (print_array_format (fun n : Int => toString n) [1, 2, 3, 4, 5] (by decide)
    "out: ").1⟩

/-! ## Utilities: `parseLinuxVersion` -/

namespace VersionParts

theorem get_set (v : VersionParts) (part : Nat) (x : Int) :
    (v.set part x).get part = x := by
  unfold get set
  split_ifs <;> rfl

theorem set_set (v : VersionParts) (part : Nat) (x y : Int) :
    (v.set part x).set part y = v.set part y := by
  unfold set
  split_ifs <;> rfl

end VersionParts

namespace parseLinuxVersion

/-- With all three parts read, the loop ends. -/
theorem loop_done (l : List Char) (version : VersionParts) (part : Nat) (hp : 3 ≤ part) :
    loop l version part = version := by
  have h : decide (part < 3) = false := decide_eq_false (by omega)
  match l with
  | [] => rfl
  | [ch] => simp [loop, h]
  | ch :: next :: rest => simp [loop, h]

/-- At a character that is not a digit, and at the end of the string, the loop
ends. -/
theorem loop_stop (l : List Char) (version : VersionParts) (part : Nat)
    (h : NoDigitAhead l) : loop l version part = version := by
  match l with
  | [] => rfl
  | [ch] =>
    have := h ch rfl
    simp [loop, this]
  | ch :: next :: rest =>
    have := h ch rfl
    simp [loop, this]

theorem dot_not_digit {ch : Char} (h : isDigitChar ch = true) : ch ≠ '.' := by
  rintro rfl
  exact absurd h (by decide)

/-- A digit that no `'.'` follows. -/
theorem loop_digit (ch : Char) (tail : List Char) (version : VersionParts) (part : Nat)
    (hd : isDigitChar ch = true) (hp : part < 3) (ht : ∀ rest, tail ≠ '.' :: rest) :
    loop (ch :: tail) version part =
      loop tail (version.set part (10 * version.get part + (ch.toNat : Int) - 48)) part := by
  have h : decide (part < 3) = true := decide_eq_true hp
  match tail with
  | [] => simp [loop, hd, h]
  | next :: rest =>
    have hn : next ≠ '.' := fun e => ht rest (by rw [e])
    simp [loop, hd, h, hn]

/-- A digit that a `'.'` follows. -/
theorem loop_digit_dot (ch : Char) (rest : List Char) (version : VersionParts) (part : Nat)
    (hd : isDigitChar ch = true) (hp : part < 3) :
    loop (ch :: '.' :: rest) version part =
      loop rest (version.set part (10 * version.get part + (ch.toNat : Int) - 48))
        (part + 1) := by
  have h : decide (part < 3) = true := decide_eq_true hp
  simp [loop, hd, h]

/-- A run of digits that a `'.'` follows: the part is set and the next part
begins behind the `'.'`. -/
theorem loop_numeral_dot (digits : List Char) (hn : IsNumeral digits) (part : Nat)
    (hp : part < 3) (rest : List Char) : ∀ version : VersionParts,
    loop (digits ++ '.' :: rest) version part =
      loop rest (version.set part (decimalValueFrom (version.get part) digits)) (part + 1) := by
  obtain ⟨hne, hd⟩ := hn
  induction digits with
  | nil => exact absurd rfl hne
  | cons ch tl ih =>
    intro version
    have hch : isDigitChar ch = true := hd ch (List.mem_cons_self _ _)
    cases tl with
    | nil =>
      rw [List.singleton_append, loop_digit_dot ch rest version part hch hp]
      simp [decimalValueFrom, add_sub_assoc]
    | cons c2 tl2 =>
      have hc2 : isDigitChar c2 = true := hd c2 (by simp)
      rw [List.cons_append, loop_digit ch _ version part hch hp (by
        intro r e
        rw [List.cons_append] at e
        exact dot_not_digit hc2 (List.cons.inj e).1)]
      rw [ih (by simp) (fun c hc => hd c (List.mem_cons_of_mem _ hc)),
        VersionParts.get_set, VersionParts.set_set]
      simp [decimalValueFrom, add_sub_assoc]

/-- A run of digits that neither a digit nor a `'.'` follows: the part is set
and the loop ends. -/
theorem loop_numeral_end (digits : List Char) (hn : IsNumeral digits) (part : Nat)
    (hp : part < 3) (suffix : List Char) (hs : NoDigitAhead suffix)
    (hdot : ∀ rest, suffix ≠ '.' :: rest) : ∀ version : VersionParts,
    loop (digits ++ suffix) version part =
      version.set part (decimalValueFrom (version.get part) digits) := by
  obtain ⟨hne, hd⟩ := hn
  induction digits with
  | nil => exact absurd rfl hne
  | cons ch tl ih =>
    intro version
    have hch : isDigitChar ch = true := hd ch (List.mem_cons_self _ _)
    cases tl with
    | nil =>
      rw [List.singleton_append, loop_digit ch suffix version part hch hp hdot,
        loop_stop _ _ _ hs]
      simp [decimalValueFrom, add_sub_assoc]
    | cons c2 tl2 =>
      have hc2 : isDigitChar c2 = true := hd c2 (by simp)
      rw [List.cons_append, loop_digit ch _ version part hch hp (by
        intro r e
        rw [List.cons_append] at e
        exact dot_not_digit hc2 (List.cons.inj e).1)]
      rw [ih (by simp) (fun c hc => hd c (List.mem_cons_of_mem _ hc)),
        VersionParts.get_set, VersionParts.set_set]
      simp [decimalValueFrom, add_sub_assoc]

/-- A run of digits that no digit follows, as the third part. -/
theorem loop_numeral_last (digits : List Char) (hn : IsNumeral digits)
    (suffix : List Char) (hs : NoDigitAhead suffix) (version : VersionParts) :
    loop (digits ++ suffix) version 2 =
      version.set 2 (decimalValueFrom (version.get 2) digits) := by
  by_cases hdot : ∃ rest, suffix = '.' :: rest
  · obtain ⟨rest, rfl⟩ := hdot
    rw [loop_numeral_dot digits hn 2 (by omega) rest version, loop_done _ _ _ (by omega)]
  · exact loop_numeral_end digits hn 2 (by omega) suffix hs
      (fun rest e => hdot ⟨rest, e⟩) version

end parseLinuxVersion

/-- C29, `parseLinuxVersion` on release strings.  For all decimal numerals `a`,
`b`, `c` and every suffix that is empty or begins with a character that is not a
digit, `parseLinuxVersion` of `a.b.c` followed by the suffix is
`KERNEL_VERSION(a, b, c)`; of `a.b` followed by a suffix that is empty or begins
with a character that is neither a digit nor `'.'` it is `KERNEL_VERSION(a, b, 0)`.
The release `3.9.11` is below `KERNEL_VERSION(3, 10, 0)`, so that `readEvents`
leaves ftrace unsupported on it, and the release `3.10.0-123` is not below it.
The type `int` is taken as the integers, which is what the code computes as long
as no operation overflows. -/
theorem parseLinuxVersion_release (a b c suffix : List Char)
    (ha : IsNumeral a) (hb : IsNumeral b) (hc : IsNumeral c) (hs : NoDigitAhead suffix) :
    parseLinuxVersion (a ++ ('.' :: (b ++ ('.' :: (c ++ suffix))))) =
        KERNEL_VERSION (decimalValue a) (decimalValue b) (decimalValue c) ∧
    (suffix.head? ≠ some '.' →
      parseLinuxVersion (a ++ ('.' :: (b ++ suffix))) =
        KERNEL_VERSION (decimalValue a) (decimalValue b) 0) ∧
    parseLinuxVersion "3.9.11".toList < KERNEL_VERSION 3 10 0 ∧
    ¬ parseLinuxVersion "3.10.0-123".toList < KERNEL_VERSION 3 10 0 ∧
    (∀ (env : HostEnv) (tc : TraceFsConstants) (d : FtraceDriver) (xml : List XmlEvent),
      env.unameOk = true → env.kernelVersion = parseLinuxVersion "3.9.11".toList →
      FtraceDriver.readEvents env tc d xml = .ok { d with mSupported := false }) := by
  refine ⟨?_, ?_, by decide, by decide, ?_⟩
  · unfold parseLinuxVersion
    rw [parseLinuxVersion.loop_numeral_dot a ha 0 (by omega),
      parseLinuxVersion.loop_numeral_dot b hb 1 (by omega),
      parseLinuxVersion.loop_numeral_last c hc suffix hs]
    rfl
  · intro hdot
    unfold parseLinuxVersion
    rw [parseLinuxVersion.loop_numeral_dot a ha 0 (by omega),
      parseLinuxVersion.loop_numeral_end b hb 1 (by omega) suffix hs
        (fun rest e => hdot (by rw [e]; rfl))]
    rfl
  · intro env tc d xml hu hv
    have hlt : env.kernelVersion < KERNEL_VERSION 3 10 0 := by rw [hv]; decide
    unfold FtraceDriver.readEvents
    rw [hu, if_pos hlt]
    rfl

theorem parseLinuxVersion_release_witness :
    IsNumeral "3".toList ∧ IsNumeral "10".toList ∧ IsNumeral "0".toList ∧
    NoDigitAhead "-123".toList ∧
    parseLinuxVersion "3.10.0-123".toList = KERNEL_VERSION 3 10 0 :=
  ⟨⟨by decide, by decide⟩, ⟨by decide, by decide⟩, ⟨by decide, by decide⟩,
    (fun ch h => by cases h; rfl),
    (parseLinuxVersion_release "3".toList "10".toList "0".toList "-123".toList
      ⟨by decide, by decide⟩ ⟨by decide, by decide⟩ ⟨by decide, by decide⟩
      (fun ch h => by cases h; rfl)).1⟩

/-! ## Utilities: `roundDownToPowerOfTwo` -/

namespace roundDownToPowerOfTwo

theorem Smeared.start (x : Nat) : Smeared x x 1 := by
  intro i
  constructor
  · intro h
    exact ⟨0, by omega, by simpa using h⟩
  · rintro ⟨d, hd, h⟩
    have : d = 0 := by omega
    subst this
    simpa using h

/-- One step `y |= (y >> m)` doubles the number of bits that are gathered. -/
theorem Smeared.double {x y m : Nat} (h : Smeared x y m) (n : Nat) (hn : n = m + m) :
    Smeared x (y ||| (y >>> m)) n := by
  subst hn
  intro i
  rw [Nat.testBit_lor, Bool.or_eq_true, Nat.testBit_shiftRight, h i, h (m + i)]
  constructor
  · rintro (⟨d, hd, hb⟩ | ⟨d, hd, hb⟩)
    · exact ⟨d, by omega, hb⟩
    · refine ⟨m + d, by omega, ?_⟩
      have e : i + (m + d) = m + i + d := by omega
      rw [e]
      exact hb
  · rintro ⟨d, hd, hb⟩
    by_cases hdm : d < m
    · exact Or.inl ⟨d, hdm, hb⟩
    · refine Or.inr ⟨d - m, by omega, ?_⟩
      have e : m + i + (d - m) = i + d := by omega
      rw [e]
      exact hb

theorem smear_smeared (x : Nat) : Smeared x (smear x) 64 :=
  ((((((Smeared.start x).double 2 rfl).double 4 rfl).double 8 rfl).double 16 rfl).double
    32 rfl).double 64 rfl

theorem top_bit {x k : Nat} (h2 : x < 2 ^ (k + 1)) :
    ∀ i, x.testBit i = true → i ≤ k := by
  intro i hi
  by_contra hc
  have h3 : 2 ^ i ≤ x := Nat.testBit_implies_ge hi
  have h4 : 2 ^ (k + 1) ≤ 2 ^ i := Nat.pow_le_pow_right (by omega) (by omega)
  omega

theorem top_bit_set {x k : Nat} (h1 : 2 ^ k ≤ x) (h2 : x < 2 ^ (k + 1)) :
    x.testBit k = true := by
  obtain ⟨i, hi, hb⟩ := Nat.ge_two_pow_implies_high_bit_true h1
  have := top_bit h2 i hb
  have e : i = k := by omega
  subst e
  exact hb

/-- After the six steps every bit up to the highest set bit is set. -/
theorem smear_eq {x k : Nat} (hk : k < 64) (h1 : 2 ^ k ≤ x) (h2 : x < 2 ^ (k + 1)) :
    smear x = 2 ^ (k + 1) - 1 := by
  apply Nat.eq_of_testBit_eq
  intro i
  rw [Nat.testBit_two_pow_sub_one]
  have hs := smear_smeared x i
  by_cases hi : i < k + 1
  · rw [decide_eq_true hi]
    exact hs.mpr ⟨k - i, by omega, by
      have e : i + (k - i) = k := by omega
      rw [e]
      exact top_bit_set h1 h2⟩
  · rw [decide_eq_false hi]
    rw [Bool.eq_false_iff]
    intro hb
    obtain ⟨d, -, hd⟩ := hs.mp hb
    have := top_bit h2 _ hd
    omega

theorem unfold_smear (x : Nat) (hx : x ≠ 0) :
    roundDownToPowerOfTwo x = (smear x + 2 ^ 64 - (smear x >>> 1)) % 2 ^ 64 := by
  unfold roundDownToPowerOfTwo smear
  rw [if_neg hx]

theorem of_bounds {x k : Nat} (hk : k < 64) (h1 : 2 ^ k ≤ x) (h2 : x < 2 ^ (k + 1)) :
    roundDownToPowerOfTwo x = 2 ^ k := by
  have hp : 0 < 2 ^ k := Nat.pow_pos (by omega)
  have hx : x ≠ 0 := by omega
  rw [unfold_smear x hx, smear_eq hk h1 h2, Nat.shiftRight_eq_div_pow]
  have h64 : 2 ^ k < 2 ^ 64 := Nat.pow_lt_pow_right (by omega) hk
  have e : 2 ^ (k + 1) = 2 * 2 ^ k := by rw [pow_succ]; omega
  rw [e]
  have e2 : (2 * 2 ^ k - 1) / 2 ^ 1 = 2 ^ k - 1 := by
    rw [pow_one]; omega
  rw [e2]
  have e3 : 2 * 2 ^ k - 1 + 2 ^ 64 - (2 ^ k - 1) = 2 ^ k + 2 ^ 64 := by omega
  rw [e3, Nat.add_mod_right, Nat.mod_eq_of_lt h64]

theorem exponent_lt {x k : Nat} (hx : x < 2 ^ 64) (h1 : 2 ^ k ≤ x) : k < 64 := by
  by_contra hc
  have : 2 ^ 64 ≤ 2 ^ k := Nat.pow_le_pow_right (by omega) (by omega)
  omega

end roundDownToPowerOfTwo

/-- C30, `roundDownToPowerOfTwo`.  For every 64-bit unsigned `x > 0` there is
exactly one `k` with `2 ^ k ≤ x < 2 ^ (k + 1)`, it is below 64, and
`roundDownToPowerOfTwo(x)` is `2 ^ k`; for `x ≥ 2 ^ 63` the result is `2 ^ 63`;
`roundDownToPowerOfTwo(0)` is 0; the result is a 64-bit value; and the function
is idempotent. -/
theorem roundDownToPowerOfTwo_power (x : Nat) (hx : x < 2 ^ 64) :
    (∀ k, 2 ^ k ≤ x → x < 2 ^ (k + 1) → roundDownToPowerOfTwo x = 2 ^ k) ∧
    (0 < x → ∃ k, k < 64 ∧ 2 ^ k ≤ x ∧ x < 2 ^ (k + 1) ∧
      (∀ j, 2 ^ j ≤ x → x < 2 ^ (j + 1) → j = k) ∧ roundDownToPowerOfTwo x = 2 ^ k) ∧
    (2 ^ 63 ≤ x → roundDownToPowerOfTwo x = 2 ^ 63) ∧
    roundDownToPowerOfTwo 0 = 0 ∧
    roundDownToPowerOfTwo x < 2 ^ 64 ∧
    roundDownToPowerOfTwo (roundDownToPowerOfTwo x) = roundDownToPowerOfTwo x := by
  have hA : ∀ k, 2 ^ k ≤ x → x < 2 ^ (k + 1) → roundDownToPowerOfTwo x = 2 ^ k :=
    fun k h1 h2 => roundDownToPowerOfTwo.of_bounds (roundDownToPowerOfTwo.exponent_lt hx h1) h1 h2
  have hB : 0 < x → ∃ k, k < 64 ∧ 2 ^ k ≤ x ∧ x < 2 ^ (k + 1) ∧
      (∀ j, 2 ^ j ≤ x → x < 2 ^ (j + 1) → j = k) ∧ roundDownToPowerOfTwo x = 2 ^ k := by
    intro hpos
    have hne : x ≠ 0 := by omega
    have h1 : 2 ^ Nat.log 2 x ≤ x := Nat.pow_log_le_self 2 hne
    have h2 : x < 2 ^ (Nat.log 2 x + 1) := Nat.lt_pow_succ_log_self (by omega) x
    refine ⟨Nat.log 2 x, roundDownToPowerOfTwo.exponent_lt hx h1, h1, h2, ?_, hA _ h1 h2⟩
    intro j hj1 hj2
    have a : j < Nat.log 2 x + 1 := (Nat.pow_lt_pow_iff_right (by omega : 1 < 2)).mp (by omega)
    have b : Nat.log 2 x < j + 1 := (Nat.pow_lt_pow_iff_right (by omega : 1 < 2)).mp (by omega)
    omega
  have hz : roundDownToPowerOfTwo 0 = 0 := by decide
  refine ⟨hA, hB, fun h => hA 63 h (by omega), hz, ?_, ?_⟩
  · rcases Nat.eq_zero_or_pos x with h0 | hpos
    · subst h0; rw [hz]; omega
    · obtain ⟨k, hk, -, -, -, e⟩ := hB hpos
      rw [e]
      exact Nat.pow_lt_pow_right (by omega) hk
  · rcases Nat.eq_zero_or_pos x with h0 | hpos
    · subst h0; rw [hz, hz]
    · obtain ⟨k, hk, -, -, -, e⟩ := hB hpos
      rw [e]
      exact roundDownToPowerOfTwo.of_bounds hk (le_refl _)
        (Nat.pow_lt_pow_right (by omega) (by omega))

theorem roundDownToPowerOfTwo_power_witness :
    (1000 : Nat) < 2 ^ 64 ∧ roundDownToPowerOfTwo 1000 = 2 ^ 9 ∧
    roundDownToPowerOfTwo (roundDownToPowerOfTwo 1000) = roundDownToPowerOfTwo 1000 :=
  ⟨by decide, (roundDownToPowerOfTwo_power 1000 (by decide)).1 9 (by decide) (by decide),
    (roundDownToPowerOfTwo_power 1000 (by decide)).2.2.2.2.2⟩

end Gator
